import Mathlib

/-!
Verification of the honey backend value storage subsystem
(`xapian-core/backends/honey/honey_values.cc`).

The development shallowly embeds the value manager: byte strings are
`List Nat`, machine integers are `Nat` with explicit bounds where the width
matters, the ordered key/value table is a sorted association list, and
fallible operations return `Except`.  Collaborator code that lives outside
`honey_values.cc` (the pack codecs, key encodings, table cursors, the
interpolative bitstream) is modelled from its specified contract; every
such definition carries a doc comment saying so.
-/

namespace Honey

/-- Byte strings (`std::string`): lists of byte values. -/
abbrev Str := List Nat

/-- Largest value of a 32-bit unsigned machine integer
(`Xapian::docid`, `Xapian::valueno`, `Xapian::doccount`). -/
def u32Max : Nat := 2 ^ 32 - 1

/-- Largest value of `size_t` (64-bit). -/
def sizeMax : Nat := 2 ^ 64 - 1

/-- Modelled from the spec: `honey_defs.h` is not among the sources.  The
data model says document ids are positive integers up to an
implementation-defined maximum; the honey maximum is the largest 32-bit
docid. -/
def HONEY_MAX_DOCID : Nat := u32Max

/-- Modelled from the spec: `Xapian::BAD_VALUENO`, the sentinel slot number
used for "no cached slot" in the MRU stats cache. -/
def BAD_VALUENO : Nat := u32Max

/-! ## Pack primitives

`pack.h` is not among the sources; the spec (§6) lists the contracts:
`pack_uint`/`unpack_uint` are a variable-length self-terminating unsigned
encoding, `pack_string`/`unpack_string` are length-prefixed by `pack_uint`,
and decoding distinguishes truncation (input exhausted) from overflow
(value too large for the destination type). -/

/-- Failure modes of the unpack primitives: `truncated` models the C++
primitive setting the input pointer to `NULL` (input exhausted), `overflow`
models a decoded value that does not fit the destination integer type. -/
inductive UnpackErr where
  | truncated
  | overflow
deriving DecidableEq, Repr

/-- Structural helper for `pack_uint`: the fuel strictly exceeds the value,
which is enough because the value shrinks by a factor of 128 each step. -/
def packUintFuel : Nat → Nat → Str
  | _, 0 => []
  | n, fuel + 1 =>
      if n < 128 then [n] else (n % 128 + 128) :: packUintFuel (n / 128) fuel

/-- Modelled from the spec: variable-length unsigned encoding, low seven
bits first, high bit of a byte marks continuation. -/
def pack_uint (n : Nat) : Str := packUintFuel n (n + 1)

theorem packUintFuel_congr :
    ∀ {n f1 f2 : Nat}, n < f1 → n < f2 →
      packUintFuel n f1 = packUintFuel n f2 := by
  intro n
  induction n using Nat.strong_induction_on with
  | _ n ih =>
    intro f1 f2 h1 h2
    obtain ⟨a, rfl⟩ : ∃ a, f1 = a + 1 := ⟨f1 - 1, by omega⟩
    obtain ⟨b, rfl⟩ : ∃ b, f2 = b + 1 := ⟨f2 - 1, by omega⟩
    by_cases hn : n < 128
    · simp [packUintFuel, hn]
    · simp only [packUintFuel, if_neg hn]
      have hlt : n / 128 < n := Nat.div_lt_self (by omega) (by omega)
      congr 1
      exact ih (n / 128) hlt (by omega) (by omega)

/-- The defining equation of `pack_uint`. -/
theorem pack_uint_eq (n : Nat) :
    pack_uint n =
      if n < 128 then [n] else (n % 128 + 128) :: pack_uint (n / 128) := by
  show packUintFuel n (n + 1) = _
  by_cases hn : n < 128
  · simp [packUintFuel, hn]
  · simp only [packUintFuel, if_neg hn]
    have hlt : n / 128 < n := Nat.div_lt_self (by omega) (by omega)
    congr 1
    exact packUintFuel_congr hlt (Nat.lt_succ_self _)

/-- Modelled from the spec: raw self-terminating varint decode; `none` when
the input ends before a terminating byte. -/
def unpack_uint_raw : Str → Option (Nat × Str)
  | [] => none
  | b :: r =>
    if b < 128 then some (b, r)
    else
      match unpack_uint_raw r with
      | none => none
      | some (v, rest) => some (b % 128 + 128 * v, rest)

/-- Modelled from the spec: decode an unsigned integer that must fit in a
destination type whose largest value is `bound`. -/
def unpack_uint (bound : Nat) (l : Str) : Except UnpackErr (Nat × Str) :=
  match unpack_uint_raw l with
  | none => .error .truncated
  | some (v, rest) => if v ≤ bound then .ok (v, rest) else .error .overflow

/-- Modelled from the spec: length-prefixed string encoding. -/
def pack_string (s : Str) : Str := pack_uint s.length ++ s

/-- Modelled from the spec: decode a length-prefixed string; the length is
a `size_t`; a declared length longer than the remaining input is a
truncation. -/
def unpack_string (l : Str) : Except UnpackErr (Str × Str) :=
  match unpack_uint sizeMax l with
  | .error e => .error e
  | .ok (len, rest) =>
      if len ≤ rest.length then .ok (rest.take len, rest.drop len)
      else .error .truncated

theorem pack_uint_ne_nil (n : Nat) : pack_uint n ≠ [] := by
  rw [pack_uint_eq]
  split <;> simp

theorem unpack_uint_raw_pack (n : Nat) (r : Str) :
    unpack_uint_raw (pack_uint n ++ r) = some (n, r) := by
  induction n using Nat.strong_induction_on with
  | _ n ih =>
    rw [pack_uint_eq]
    by_cases h : n < 128
    · simp [h, unpack_uint_raw]
    · have hrec := ih (n / 128) (Nat.div_lt_self (by omega) (by omega))
      simp only [if_neg h, List.cons_append, unpack_uint_raw]
      have hb : ¬ (n % 128 + 128 < 128) := by omega
      rw [if_neg hb, hrec]
      show some ((n % 128 + 128) % 128 + 128 * (n / 128), r) = some (n, r)
      have hval : (n % 128 + 128) % 128 + 128 * (n / 128) = n := by
        have := Nat.mod_add_div n 128
        omega
      rw [hval]

theorem unpack_uint_pack (bound n : Nat) (r : Str) (h : n ≤ bound) :
    unpack_uint bound (pack_uint n ++ r) = .ok (n, r) := by
  unfold unpack_uint
  rw [unpack_uint_raw_pack]
  simp [h]

theorem unpack_string_pack (s r : Str) (h : s.length ≤ sizeMax) :
    unpack_string (pack_string s ++ r) = .ok (s, r) := by
  unfold unpack_string pack_string
  rw [List.append_assoc, unpack_uint_pack _ _ _ h]
  simp

/-- Byte length of `pack_uint` is at least one. -/
theorem pack_uint_length_pos (n : Nat) : 0 < (pack_uint n).length := by
  have := pack_uint_ne_nil n
  cases h : pack_uint n with
  | nil => exact absurd h this
  | cons a l => simp

/-! ## String comparison

`std::string::compare` / `operator<`: lexicographic byte comparison, a
proper prefix sorts before its extensions. -/

/-- Three-way comparison matching `std::string::compare`. -/
def strCompare : Str → Str → Ordering
  | [], [] => .eq
  | [], _ :: _ => .lt
  | _ :: _, [] => .gt
  | a :: as, b :: bs =>
      if a < b then .lt else if b < a then .gt else strCompare as bs

/-- `operator<` on `std::string`. -/
def strLt (a b : Str) : Prop := strCompare a b = .lt

/-- `operator<=` on `std::string`. -/
def strLe (a b : Str) : Prop := strCompare a b ≠ .gt

instance (a b : Str) : Decidable (strLt a b) := by unfold strLt; infer_instance

instance (a b : Str) : Decidable (strLe a b) := by unfold strLe; infer_instance

theorem strCompare_self (a : Str) : strCompare a a = .eq := by
  induction a with
  | nil => rfl
  | cons x xs ih => simp [strCompare, ih]

theorem strCompare_swap (a b : Str) :
    strCompare b a = (strCompare a b).swap := by
  induction a generalizing b with
  | nil => cases b <;> rfl
  | cons x xs ih =>
    cases b with
    | nil => rfl
    | cons y ys =>
      simp only [strCompare]
      rcases Nat.lt_trichotomy x y with h | h | h
      · simp only [if_pos h, if_neg (Nat.lt_asymm h)]
        rfl
      · subst h
        simp only [if_neg (Nat.lt_irrefl x)]
        exact ih ys
      · simp only [if_pos h, if_neg (Nat.lt_asymm h)]
        rfl

theorem strLe_of_gt {a b : Str} (h : strCompare a b = .gt) : strLe b a := by
  unfold strLe
  rw [strCompare_swap, h]
  simp [Ordering.swap]

theorem strLe_refl (a : Str) : strLe a a := by
  unfold strLe
  rw [strCompare_self]
  simp

theorem strLe_of_lt {a b : Str} (h : strLt a b) : strLe a b := by
  unfold strLe
  rw [h]
  simp

/-! ## The postlist table

The ordered key/value table and its cursor are external collaborators
(spec §2, §6).  Three key families matter here: value-chunk keys
(`0x00 0xD8`, the slot, then the sort-preserving first docid), value-stats
keys (a distinct prefix sorting below the chunk prefix, then the slot), and
nothing else is touched by the value manager.  Per spec §4.A the
sort-preserving encoding makes the byte order of same-slot chunk keys agree
with docid order and keeps the keys of one slot contiguous, so keys are
modelled structurally with that order. -/

/-- Postlist table keys used by the value subsystem. -/
inductive TKey where
  | stats (slot : Nat)
  | chunk (slot : Nat) (did : Nat)
deriving DecidableEq, Repr

/-- Modelled from the spec: the byte order of the keys.  The value-stats
prefix is distinct from and sorts below the value-chunk prefix; chunk keys
of one slot are contiguous and ordered by first docid. -/
def kLt : TKey → TKey → Bool
  | .stats a, .stats b => a < b
  | .stats _, .chunk _ _ => true
  | .chunk _ _, .stats _ => false
  | .chunk a d, .chunk b e => a < b || (a = b && d < e)

theorem kLt_irrefl (k : TKey) : kLt k k = false := by
  cases k <;> simp [kLt]

theorem kLt_trans {a b c : TKey} (h1 : kLt a b = true) (h2 : kLt b c = true) :
    kLt a c = true := by
  cases a <;> cases b <;> cases c <;> simp [kLt] at * <;> omega

theorem kLt_total (a b : TKey) :
    kLt a b = true ∨ a = b ∨ kLt b a = true := by
  cases a <;> cases b <;> simp [kLt] <;> omega

theorem kLt_asymm {a b : TKey} (h : kLt a b = true) : kLt b a = false := by
  cases a <;> cases b <;> simp [kLt] at * <;> omega

/-- The ordered table: an ascending association list. -/
abbrev Table := List (TKey × Str)

/-- Representation invariant: strictly ascending keys. -/
def SortedT (T : Table) : Prop := T.Pairwise (fun x y => kLt x.1 y.1 = true)

/-- Modelled from the spec: table point lookup (`get_exact_entry`). -/
def tableGet (k : TKey) : Table → Option Str
  | [] => none
  | (k', v) :: t => if k' = k then some v else tableGet k t

/-- Modelled from the spec: table delete (`del`). -/
def tableDel (k : TKey) : Table → Table
  | [] => []
  | (k', v) :: t => if k' = k then tableDel k t else (k', v) :: tableDel k t

/-- Modelled from the spec: table insert-or-replace (`add`). -/
def tableAdd (k : TKey) (v : Str) : Table → Table
  | [] => [(k, v)]
  | (k', v') :: t =>
      if kLt k k' then (k, v) :: (k', v') :: t
      else if k' = k then (k, v) :: t
      else (k', v') :: tableAdd k v t

/-- Modelled from the spec: the entry a cursor lands on after
`find_entry k` — the greatest entry with key at most `k`, or `none` when the
cursor is left before the first entry. -/
def tableFindLE (k : TKey) : Table → Option (TKey × Str)
  | [] => none
  | (k', v) :: t =>
      if kLt k k' then none
      else
        match tableFindLE k t with
        | some e => some e
        | none => some (k', v)

/-- Modelled from the spec: the least entry with key strictly greater
than `k`. -/
def tableFindGT (k : TKey) : Table → Option (TKey × Str)
  | [] => none
  | (k', v) :: t => if kLt k k' then some (k', v) else tableFindGT k t

/-- Modelled from the spec: the entry the cursor reaches by calling
`next()` after `find_entry k` (whether or not the find was exact). -/
def cursorNextAfter (k : TKey) (T : Table) : Option (TKey × Str) :=
  match tableFindLE k T with
  | some e => tableFindGT e.1 T
  | none => T.head?

/-! ## Value statistics -/

/-- Per-slot statistics (`ValueStats` from `honey_values.h`, whose layout
the spec gives in §3): document frequency and lexicographic bounds. -/
structure ValueStats where
  freq : Nat
  lower_bound : Str
  upper_bound : Str
deriving DecidableEq, Repr

/-- `ValueStats::clear()`. -/
def ValueStats.clear : ValueStats := ⟨0, [], []⟩

/-- Error kinds surfaced by the subsystem (spec §7). `bufferOverrun`
records a read past the end of an in-memory buffer, which in the C++
source is undefined behaviour rather than a thrown error. -/
inductive Err where
  | corrupt
  | range
  | featureUnavailable
  | databaseClosed
  | bufferOverrun
deriving DecidableEq, Repr

/-- Parse a stats tag: `HoneyValueManager::get_value_stats(slot, stats)`,
lines 610–636 — unpack `freq`, unpack `lower_bound`, the remaining bytes
are `upper_bound` (empty remainder means equal bounds); truncation raises
`DatabaseCorrupt`, overflow raises `Range`. -/
def parse_value_stats (tag : Str) : Except Err ValueStats :=
  match unpack_uint u32Max tag with
  | .error .truncated => .error .corrupt
  | .error .overflow => .error .range
  | .ok (freq, rest) =>
      match unpack_string rest with
      | .error .truncated => .error .corrupt
      | .error .overflow => .error .range
      | .ok (lb, rest2) =>
          if rest2.isEmpty then .ok ⟨freq, lb, lb⟩ else .ok ⟨freq, lb, rest2⟩

/-- `HoneyValueManager::get_value_stats(slot, stats)` over a table:
absent stats key clears the output, otherwise the tag is parsed. -/
def get_value_stats (T : Table) (slot : Nat) : Except Err ValueStats :=
  match tableGet (.stats slot) T with
  | some tag => parse_value_stats tag
  | none => .ok ValueStats.clear

/-- The tag written for one slot by `HoneyValueManager::set_value_stats`
(lines 650–658): `pack_uint(freq) ‖ pack_string(lower)` and the upper bound
only when it differs from the lower. -/
def stats_tag (stats : ValueStats) : Str :=
  pack_uint stats.freq ++ pack_string stats.lower_bound ++
    (if stats.lower_bound ≠ stats.upper_bound then stats.upper_bound else [])

/-- One iteration of the `set_value_stats` loop (lines 647–662): non-zero
frequency writes the stats tag, zero frequency deletes the key. -/
def set_value_stats_entry (T : Table) (slot : Nat) (stats : ValueStats) :
    Table :=
  if stats.freq ≠ 0 then tableAdd (.stats slot) (stats_tag stats) T
  else tableDel (.stats slot) T

/-! ## Chunk tags and the chunk reader

A chunk tag is `pack_string(first value)` followed by groups of
`pack_uint(delta)`, `pack_string(value)`; the docid of a group is
`prev_did + delta + 1` (source lines 50–115; spec §3). -/

/-- One (docid, value) pair of a slot's stream. -/
abbrev Entry := Nat × Str

/-- The tag bytes that encode the entries after the first, each relative
to the previous docid. -/
def encodeRest (prev : Nat) : List Entry → Str
  | [] => []
  | (d, v) :: es => pack_uint (d - prev - 1) ++ pack_string v ++ encodeRest d es

/-- The tag bytes of a whole chunk; the first docid is carried by the key,
not the tag. -/
def encodeChunk : List Entry → Str
  | [] => []
  | (d, v) :: es => pack_string v ++ encodeRest d es

/-- `Honey::ValueChunkReader` (declared in `honey_values.h`, methods in the
source): `rem = none` models `p == NULL` (the exhausted cursor), otherwise
`rem` holds the bytes between `p` and `end`. -/
structure ValueChunkReader where
  rem : Option Str
  did : Nat
  value : Str
deriving DecidableEq, Repr

/-- The default-constructed reader: `p == NULL`, so it is already at the
end; `did` is never read in that state. -/
def ValueChunkReader.init : ValueChunkReader := ⟨none, 0, []⟩

/-- `ValueChunkReader::at_end()`: `p == NULL`. -/
def ValueChunkReader.at_end (r : ValueChunkReader) : Bool := r.rem.isNone

/-- `ValueChunkReader::assign` (lines 50–58): position at the first entry;
a bad leading `pack_string` is `DatabaseCorrupt`. -/
def ValueChunkReader.assign (bytes : Str) (did : Nat) :
    Except Err ValueChunkReader :=
  match unpack_string bytes with
  | .error _ => .error .corrupt
  | .ok (v, rest) => .ok ⟨some rest, did, v⟩

/-- `ValueChunkReader::next()` (lines 60–76).  The docid accumulation is a
32-bit unsigned addition.  The source never calls `next()` once the reader
is at the end; that arm returns the reader unchanged. -/
def ValueChunkReader.next (r : ValueChunkReader) : Except Err ValueChunkReader :=
  match r.rem with
  | none => .ok r
  | some [] => .ok ⟨none, r.did, r.value⟩
  | some l =>
      match unpack_uint u32Max l with
      | .error _ => .error .corrupt
      | .ok (delta, r1) =>
          match unpack_string r1 with
          | .error _ => .error .corrupt
          | .ok (v, r2) => .ok ⟨some r2, (r.did + delta + 1) % 2 ^ 32, v⟩

theorem unpack_uint_raw_consumes {l : Str} {v : Nat} {rest : Str}
    (h : unpack_uint_raw l = some (v, rest)) : rest.length < l.length := by
  induction l generalizing v with
  | nil => simp [unpack_uint_raw] at h
  | cons b t ih =>
    simp only [unpack_uint_raw] at h
    by_cases hb : b < 128
    · rw [if_pos hb] at h
      cases h
      simp
    · rw [if_neg hb] at h
      cases ht : unpack_uint_raw t with
      | none => rw [ht] at h; cases h
      | some p =>
        rw [ht] at h
        cases h
        have := ih (v := p.1) (by rw [ht])
        simp
        omega

theorem unpack_uint_consumes {bound : Nat} {l : Str} {v : Nat} {rest : Str}
    (h : unpack_uint bound l = .ok (v, rest)) : rest.length < l.length := by
  unfold unpack_uint at h
  split at h
  · simp at h
  · rename_i v1 rest1 hr
    split at h
    · simp only [Except.ok.injEq, Prod.mk.injEq] at h
      obtain ⟨rfl, rfl⟩ := h
      exact unpack_uint_raw_consumes hr
    · simp at h

theorem unpack_string_consumes {l : Str} {s rest : Str}
    (h : unpack_string l = .ok (s, rest)) : rest.length < l.length := by
  unfold unpack_string at h
  split at h
  · simp at h
  · rename_i len rest1 hu
    split at h
    · simp only [Except.ok.injEq, Prod.mk.injEq] at h
      obtain ⟨rfl, rfl⟩ := h
      have h1 := unpack_uint_consumes hu
      simp only [List.length_drop]
      omega
    · simp at h

/-- The loop body of `ValueChunkReader::skip_to` (lines 84–114): scan
delta-value groups, length-checking but not materializing skipped values,
until the docid reaches the target or the chunk is exhausted. The loop is
structural on a fuel argument so that it evaluates; `skipLoop` below
supplies enough fuel, and `skipLoopF_congr` shows any sufficient fuel gives
the same result. -/
def skipLoopF : Nat → Nat → Nat → Str → Str → Except Err ValueChunkReader
  | 0, _, _, _, _ => .error .corrupt
  | fuel + 1, target, did, value, l =>
    if l.isEmpty then .ok ⟨none, did, value⟩
    else
      match unpack_uint u32Max l with
      | .error _ => .error .corrupt
      | .ok (delta, r1) =>
          let did2 := (did + delta + 1) % 2 ^ 32
          match unpack_uint sizeMax r1 with
          | .error _ => .error .corrupt
          | .ok (vlen, r2) =>
              if r2.length < vlen then .error .corrupt
              else if target ≤ did2 then
                .ok ⟨some (r2.drop vlen), did2, r2.take vlen⟩
              else skipLoopF fuel target did2 value (r2.drop vlen)

theorem skipLoopF_congr : ∀ {f1 : Nat} {f2 target did : Nat} {value l : Str},
    l.length < f1 → l.length < f2 →
    skipLoopF f1 target did value l = skipLoopF f2 target did value l := by
  intro f1
  induction f1 with
  | zero => intro f2 target did value l h1; omega
  | succ f1 ih =>
    intro f2 target did value l h1 h2
    cases f2 with
    | zero => omega
    | succ f2 =>
      simp only [skipLoopF]
      by_cases hl : l.isEmpty
      · rw [if_pos hl, if_pos hl]
      · rw [if_neg hl, if_neg hl]
        cases hu1 : unpack_uint u32Max l with
        | error e => simp only [hu1]
        | ok p1 =>
          obtain ⟨delta, r1⟩ := p1
          have d1 := unpack_uint_consumes hu1
          cases hu2 : unpack_uint sizeMax r1 with
          | error e => simp only [hu1, hu2]
          | ok p2 =>
            obtain ⟨vlen, r2⟩ := p2
            have d2 := unpack_uint_consumes hu2
            simp only [hu1, hu2]
            by_cases hlen : r2.length < vlen
            · rw [if_pos hlen, if_pos hlen]
            · rw [if_neg hlen, if_neg hlen]
              by_cases ht : target ≤ (did + delta + 1) % 2 ^ 32
              · rw [if_pos ht, if_pos ht]
              · rw [if_neg ht, if_neg ht]
                refine ih ?_ ?_
                · simp only [List.length_drop]
                  omega
                · simp only [List.length_drop]
                  omega

/-- The loop of `skip_to`, with the fuel filled in. -/
def skipLoop (target did : Nat) (value : Str) (l : Str) :
    Except Err ValueChunkReader :=
  skipLoopF (l.length + 1) target did value l

/-- `ValueChunkReader::skip_to` (lines 78–115). -/
def ValueChunkReader.skip_to (r : ValueChunkReader) (target : Nat) :
    Except Err ValueChunkReader :=
  match r.rem with
  | none => .ok r
  | some l => if target ≤ r.did then .ok r else skipLoop target r.did r.value l

/-! ## The chunk updater (`Honey::ValueUpdater`, source lines 180–307) -/

/-- Source line 180. -/
def CHUNK_SIZE_THRESHOLD : Nat := 2000

/-- Modelled from the spec (§4.A): decode a candidate key, returning the
chunk's first docid, or zero when the key is not a value chunk of this
slot (`docid_from_key`, declared in `honey_values.h`). -/
def docid_from_key (slot : Nat) : TKey → Nat
  | .chunk s d => if s = slot then d else 0
  | .stats _ => 0

/-- The mutable fields of `Honey::ValueUpdater` other than the table
reference and the slot. -/
structure UpdState where
  ctag : Str
  reader : ValueChunkReader
  tag : Str
  prev_did : Nat
  first_did : Nat
  new_first_did : Nat
  last_allowed_did : Nat
deriving DecidableEq, Repr

/-- The constructor (line 229): `first_did(0), last_allowed_did(0)`; the
reader starts at its end; the remaining fields are set before use. -/
def UpdState.init : UpdState :=
  ⟨[], ValueChunkReader.init, [], 0, 0, 0, 0⟩

/-- `ValueUpdater::write_tag` (lines 216–226): delete the old key when the
first docid changed, store a non-empty tag under the new first docid,
reset. -/
def write_tag (slot : Nat) (u : UpdState) (T : Table) : UpdState × Table :=
  let T1 :=
    if u.first_did ≠ 0 ∧ u.new_first_did ≠ u.first_did then
      tableDel (.chunk slot u.first_did) T
    else T
  let T2 :=
    if u.tag.isEmpty then T1
    else tableAdd (.chunk slot u.new_first_did) u.tag T1
  ({ u with first_did := 0, tag := [] }, T2)

/-- `ValueUpdater::append_to_stream` (lines 203–214): the first append of a
chunk records `new_first_did` and has no delta prefix; later appends (the
source asserts `did > prev_did`) write the biased delta; reaching the size
threshold forces `write_tag`. -/
def append_to_stream (slot did : Nat) (value : Str) (u : UpdState)
    (T : Table) : UpdState × Table :=
  let u1 :=
    if u.tag.isEmpty then
      { u with new_first_did := did, prev_did := did,
               tag := pack_string value }
    else
      { u with prev_did := did,
               tag := u.tag ++ pack_uint (did - u.prev_did - 1) ++
                 pack_string value }
  if CHUNK_SIZE_THRESHOLD ≤ u1.tag.length then write_tag slot u1 T
  else (u1, T)

/-- Measure for loops that consume the reader. -/
def readerMeasure (r : ValueChunkReader) : Nat :=
  match r.rem with
  | none => 0
  | some l => l.length + 1

theorem readerMeasure_next {r r' : ValueChunkReader}
    (hend : r.at_end = false) (h : r.next = .ok r') :
    readerMeasure r' < readerMeasure r := by
  unfold ValueChunkReader.at_end at hend
  cases hrem : r.rem with
  | none => rw [hrem] at hend; simp at hend
  | some l =>
    cases l with
    | nil =>
      simp only [ValueChunkReader.next, hrem, Except.ok.injEq] at h
      subst h
      simp [readerMeasure, hrem]
    | cons b t =>
      simp only [ValueChunkReader.next, hrem] at h
      split at h
      · simp at h
      · rename_i delta r1 hu
        split at h
        · simp at h
        · rename_i v r2 hs
          simp only [Except.ok.injEq] at h
          subst h
          have h1 := unpack_uint_consumes hu
          have h2 := unpack_string_consumes hs
          simp only [readerMeasure, hrem]
          simp at h1 h2 ⊢
          omega

/-- The destructor loop (lines 232–237) and the first half of `update`
(lines 248–253): copy every remaining reader entry into the output, fuel
structural. -/
def drainLoopF : Nat → Nat → UpdState → Table → Except Err (UpdState × Table)
  | 0, _, _, _ => .error .corrupt
  | fuel + 1, slot, u, T =>
    if u.reader.at_end then .ok (u, T)
    else
      match u.reader.next with
      | .error e => .error e
      | .ok r' =>
          let p := append_to_stream slot u.reader.did u.reader.value u T
          drainLoopF fuel slot { p.1 with reader := r' } p.2

theorem drainLoopF_congr : ∀ {f1 : Nat} {f2 slot : Nat} {u : UpdState}
    {T : Table}, readerMeasure u.reader < f1 → readerMeasure u.reader < f2 →
    drainLoopF f1 slot u T = drainLoopF f2 slot u T := by
  intro f1
  induction f1 with
  | zero => intro f2 slot u T h1; omega
  | succ f1 ih =>
    intro f2 slot u T h1 h2
    cases f2 with
    | zero => omega
    | succ f2 =>
      simp only [drainLoopF]
      by_cases hend : u.reader.at_end
      · rw [if_pos hend, if_pos hend]
      · rw [if_neg hend, if_neg hend]
        cases hnext : u.reader.next with
        | error e => simp only [hnext]
        | ok r' =>
          simp only [hnext]
          have hdec := readerMeasure_next (by simp at hend; exact hend) hnext
          refine ih ?_ ?_
          · show readerMeasure r' < f1
            omega
          · show readerMeasure r' < f2
            omega

/-- The drain loop with the fuel filled in. -/
def drainLoop (slot : Nat) (u : UpdState) (T : Table) :
    Except Err (UpdState × Table) :=
  drainLoopF (readerMeasure u.reader + 1) slot u T

/-- The copy loop of `update` (lines 297–300): copy reader entries with
docid below the edited one, fuel structural. -/
def copyLoopF : Nat → Nat → Nat → UpdState → Table →
    Except Err (UpdState × Table)
  | 0, _, _, _, _ => .error .corrupt
  | fuel + 1, slot, target, u, T =>
    if u.reader.at_end then .ok (u, T)
    else if u.reader.did < target then
      match u.reader.next with
      | .error e => .error e
      | .ok r' =>
          let p := append_to_stream slot u.reader.did u.reader.value u T
          copyLoopF fuel slot target { p.1 with reader := r' } p.2
    else .ok (u, T)

theorem copyLoopF_congr : ∀ {f1 : Nat} {f2 slot target : Nat} {u : UpdState}
    {T : Table}, readerMeasure u.reader < f1 → readerMeasure u.reader < f2 →
    copyLoopF f1 slot target u T = copyLoopF f2 slot target u T := by
  intro f1
  induction f1 with
  | zero => intro f2 slot target u T h1; omega
  | succ f1 ih =>
    intro f2 slot target u T h1 h2
    cases f2 with
    | zero => omega
    | succ f2 =>
      simp only [copyLoopF]
      by_cases hend : u.reader.at_end
      · rw [if_pos hend, if_pos hend]
      · rw [if_neg hend, if_neg hend]
        by_cases hlt : u.reader.did < target
        · rw [if_pos hlt, if_pos hlt]
          cases hnext : u.reader.next with
          | error e => simp only [hnext]
          | ok r' =>
            simp only [hnext]
            have hdec := readerMeasure_next (by simp at hend; exact hend) hnext
            refine ih ?_ ?_
            · show readerMeasure r' < f1
              omega
            · show readerMeasure r' < f2
              omega
        · rw [if_neg hlt, if_neg hlt]

/-- The copy loop with the fuel filled in. -/
def copyLoop (slot target : Nat) (u : UpdState) (T : Table) :
    Except Err (UpdState × Table) :=
  copyLoopF (readerMeasure u.reader + 1) slot target u T

/-- `ValueUpdater::update` (lines 241–306). -/
def update (slot did : Nat) (value : Str) (u : UpdState) (T : Table) :
    Except Err (UpdState × Table) := do
  -- Lines 242–256: the edit lies beyond the open chunk: drain it, write
  -- it out, release the upper bound.
  let (u, T) ←
    if u.last_allowed_did ≠ 0 ∧ u.last_allowed_did < did then do
      let (u1, T1) ← drainLoop slot u T
      let (u2, T2) := write_tag slot u1 T1
      pure ({ u2 with last_allowed_did := 0 }, T2)
    else pure (u, T)
  -- Lines 257–292: seek to the chunk that would contain `did`.
  let (u, T) ←
    if u.last_allowed_did = 0 then do
      let fe := tableFindLE (.chunk slot did) T
      let first : Nat :=
        match fe with
        | some e =>
            if e.1 = TKey.chunk slot did then did else docid_from_key slot e.1
        | none => 0
      let (ctag, reader) ←
        match fe with
        | some e =>
            if first ≠ 0 then do
              let r ← ValueChunkReader.assign e.2 first
              pure (e.2, r)
            else pure (u.ctag, u.reader)
        | none => pure (u.ctag, u.reader)
      let la : Nat :=
        match cursorNextAfter (TKey.chunk slot did) T with
        | some e2 =>
            let nfd := docid_from_key slot e2.1
            if nfd ≠ 0 then nfd - 1 else HONEY_MAX_DOCID
        | none => HONEY_MAX_DOCID
      pure ({ u with last_allowed_did := la, new_first_did := 0,
                     first_did := first, ctag := ctag, reader := reader }, T)
    else pure (u, T)
  -- Lines 294–300: copy entries before the edited docid.
  let (u, T) ← copyLoop slot did u T
  -- Line 301: an existing entry for `did` is superseded.
  let u ←
    if u.reader.at_end = false ∧ u.reader.did = did then do
      let r' ← u.reader.next
      pure { u with reader := r' }
    else pure u
  -- Lines 302–305: a non-empty value is appended; an empty value is a
  -- deletion and appends nothing.
  if value.isEmpty then pure (u, T)
  else pure (append_to_stream slot did value u T)

/-- The destructor (lines 232–239): drain the reader, write the last
chunk. -/
def updaterFinish (slot : Nat) (u : UpdState) (T : Table) :
    Except Err Table := do
  let (u1, T1) ← drainLoop slot u T
  pure (write_tag slot u1 T1).2

/-- One slot's portion of `HoneyValueManager::merge_changes`
(lines 314–319): construct an updater, feed it the slot's pending edits in
ascending docid order, destroy it. -/
def mergeSlot (slot : Nat) (edits : List (Nat × Str)) (T : Table) :
    Except Err Table := do
  let (u, T2) ← edits.foldlM
    (fun p e => update slot e.1 e.2 p.1 p.2) (UpdState.init, T)
  updaterFinish slot u T2

/-! ## The value manager (`HoneyValueManager`) -/

/-- `std::map` lookup on an ascending association list. -/
def alFind {α : Type} (k : Nat) : List (Nat × α) → Option α
  | [] => none
  | (k', v) :: t => if k' = k then some v else alFind k t

/-- `std::map` insert-or-assign on an ascending association list. -/
def alUpsert {α : Type} (k : Nat) (v : α) : List (Nat × α) →
    List (Nat × α)
  | [] => [(k, v)]
  | (k', v') :: t =>
      if k < k' then (k, v) :: (k', v') :: t
      else if k' = k then (k, v) :: t
      else (k', v') :: alUpsert k v t

/-- The manager's state: the two tables (with their open flags), the
pending-change buffer, the per-document encoded-slots buffer, and the MRU
stats cache. -/
structure MState where
  table : Table
  termtable : List (Nat × Str)
  postOpen : Bool
  termOpen : Bool
  changes : List (Nat × List (Nat × Str))
  slots : List (Nat × Str)
  mru_slot : Nat
  mru_valstats : ValueStats
deriving DecidableEq, Repr

/-- A fresh manager over empty open tables. -/
def MState.init : MState :=
  ⟨[], [], true, true, [], [], BAD_VALUENO, ValueStats.clear⟩

/-- `HoneyValueManager::add_value` (lines 117–127). -/
def add_value (st : MState) (did slot : Nat) (val : Str) : MState :=
  let m := (alFind slot st.changes).getD []
  { st with changes := alUpsert slot (alUpsert did val m) st.changes }

/-- `HoneyValueManager::remove_value` (lines 129–138): buffer the empty
string as a deletion tombstone. -/
def remove_value (st : MState) (did slot : Nat) : MState :=
  let m := (alFind slot st.changes).getD []
  { st with changes := alUpsert slot (alUpsert did [] m) st.changes }

/-- `HoneyValueManager::get_chunk_containing_did` (lines 140–178): seek to
the chunk key; on a non-exact hit inspect the key under the cursor, bailing
out with first docid zero when it is not a value-chunk key of this slot. -/
def get_chunk_containing_did (T : Table) (slot did : Nat) : Nat × Str :=
  match tableFindLE (.chunk slot did) T with
  | none => (0, [])
  | some e =>
      if e.1 = TKey.chunk slot did then (did, e.2)
      else
        match e.1 with
        | .chunk s d => if s = slot then (d, e.2) else (0, [])
        | .stats _ => (0, [])

/-- The table-reading path of `HoneyValueManager::get_value`
(lines 519–528). -/
def get_value_from_table (T : Table) (did slot : Nat) : Except Err Str := do
  let fc := get_chunk_containing_did T slot did
  if fc.1 = 0 then pure []
  else do
    let r ← ValueChunkReader.assign fc.2 fc.1
    let r2 ← r.skip_to did
    if r2.at_end then pure []
    else if r2.did ≠ did then pure []
    else pure r2.value

/-- `HoneyValueManager::get_value` (lines 508–529): the pending-change
buffer is consulted first (an empty buffered string means "no value"). -/
def get_value (st : MState) (did slot : Nat) : Except Err Str :=
  match alFind slot st.changes with
  | some m =>
      match alFind did m with
      | some v => .ok v
      | none => get_value_from_table st.table did slot
  | none => get_value_from_table st.table did slot

/-- `HoneyValueManager::merge_changes` (lines 311–322): run one updater per
slot over that slot's pending edits in ascending docid order, then clear
the buffer. -/
def merge_changes (st : MState) : Except Err MState := do
  let T ← st.changes.foldlM (fun T p => mergeSlot p.1 p.2 T) st.table
  pure { st with table := T, changes := [] }

/-! ## Per-document slot sets

The interpolative bitstream codec (`bitstream.h`) is an external
collaborator; the spec (§6) lists only its interface: `encode(value, max)`,
`decode(max)`, `encode_interpolative`, `decode_interpolative` plus a
streaming `decode_interpolative_next` yielding the intermediate values in
ascending order.  It is modelled as a bit-level code writing each value in
a fixed number of bits derived from its known upper bound; the manager
never depends on the bit layout, only on the codec round trip. -/

/-- Modelled from the spec: the low `w` bits of `v`, least significant
first. -/
def natBits : Nat → Nat → List Bool
  | _, 0 => []
  | v, w + 1 => (v % 2 == 1) :: natBits (v / 2) w

/-- Modelled from the spec: read back a least-significant-first bit list. -/
def bitsNat : List Bool → Nat
  | [] => 0
  | b :: r => (if b then 1 else 0) + 2 * bitsNat r

/-- Structural helper for `bitsBytes`; fuel at least the bit count is
enough because each step consumes eight bits. -/
def bitsBytesFuel : Nat → List Bool → Str
  | 0, _ => []
  | fuel + 1, bits =>
      if bits.isEmpty then []
      else bitsNat (bits.take 8) :: bitsBytesFuel fuel (bits.drop 8)

/-- Modelled from the spec: pack bits into bytes, zero-padding the last
byte. -/
def bitsBytes (bits : List Bool) : Str := bitsBytesFuel (bits.length + 1) bits

/-- Modelled from the spec: `BitWriter`, seeded with an initial byte
buffer. -/
structure BitWriter where
  buf : Str
  bits : List Bool
deriving DecidableEq, Repr

/-- Modelled from the spec: `BitWriter slots_used(enc)`. -/
def BitWriter.start (s : Str) : BitWriter := ⟨s, []⟩

/-- Modelled from the spec: `encode(value, max)`. -/
def BitWriter.encode (w : BitWriter) (v max : Nat) : BitWriter :=
  ⟨w.buf, w.bits ++ natBits v (Nat.size max)⟩

/-- Modelled from the spec: `encode_interpolative(vec, j, k)` writes the
values strictly between indices `j` and `k`; the endpoints travel outside
the bitstream. -/
def BitWriter.encode_interpolative (w : BitWriter) (xs : List Nat)
    (j k : Nat) : BitWriter :=
  let hi := xs.getD k 0
  let mids := (xs.drop (j + 1)).take (k - j - 1)
  ⟨w.buf, w.bits ++ (mids.map (fun v => natBits v (Nat.size hi))).join⟩

/-- Modelled from the spec: `freeze()` flushes the bits after the seed
buffer. -/
def BitWriter.freeze (w : BitWriter) : Str := w.buf ++ bitsBytes w.bits

/-- Modelled from the spec: `BitReader` over a byte range, with the queue
of values a `decode_interpolative` call has made available to
`decode_interpolative_next`. -/
structure BitReader where
  bits : List Bool
  pending : List Nat
deriving DecidableEq, Repr

/-- Modelled from the spec: `BitReader rd(p, end)`. -/
def BitReader.start (s : Str) : BitReader :=
  ⟨(s.map (fun b => natBits b 8)).join, []⟩

/-- Modelled from the spec: `decode(max)`. -/
def BitReader.decode (r : BitReader) (max : Nat) : Nat × BitReader :=
  (bitsNat (r.bits.take (Nat.size max)),
   ⟨r.bits.drop (Nat.size max), r.pending⟩)

/-- Modelled from the spec: `decode_interpolative(j, k, lo, hi)` decodes
the `k - j - 1` intermediate values; successive
`decode_interpolative_next` calls then yield them in ascending order,
followed by the upper endpoint. -/
def BitReader.decode_interpolative (r : BitReader) (j k _lo hi : Nat) :
    BitReader :=
  let n := k - j - 1
  let w := Nat.size hi
  let vals := (List.range n).map
    (fun i => bitsNat ((r.bits.drop (i * w)).take w))
  ⟨r.bits.drop (n * w), vals ++ [hi]⟩

/-! ## Statistics updates during document add/delete -/

/-- The stats mutation of one `add_document` loop iteration
(lines 357–375): post-increment `freq`; a previously-zero frequency sets
both bounds to the value; otherwise the upper bound is compared first and
widened on a greater value, else the lower bound is widened on a smaller
value. -/
def addDocStatsStep (value : Str) (stats : ValueStats) : ValueStats :=
  if stats.freq = 0 then
    ⟨(stats.freq + 1) % 2 ^ 32, value, value⟩
  else
    let stats2 : ValueStats :=
      match strCompare value stats.upper_bound with
      | .gt => { stats with upper_bound := value }
      | .eq => stats
      | .lt =>
          if strLt value stats.lower_bound then
            { stats with lower_bound := value }
          else stats
    { stats2 with freq := (stats2.freq + 1) % 2 ^ 32 }

/-- The stats mutation of one `delete_document` slot (lines 445–450 and
470–475): 32-bit decrement of `freq`; both bounds are cleared exactly when
it reaches zero and are untouched otherwise. -/
def deleteStatsStep (stats : ValueStats) : ValueStats :=
  let f := (stats.freq + (2 ^ 32 - 1)) % 2 ^ 32
  if f = 0 then ⟨0, [], []⟩ else { stats with freq := f }

/-- Load-or-reuse of a slot's stats entry
(`val_stats.insert(make_pair(slot, ValueStats()))` followed by
`get_value_stats` when the insert actually happened; lines 350–355,
438–443, 463–468). -/
def statsBase (T : Table) (slot : Nat) (vs : List (Nat × ValueStats)) :
    Except Err ValueStats :=
  match alFind slot vs with
  | some s0 => .ok s0
  | none => get_value_stats T slot

/-- One slot's processing inside `delete_document` (lines 438–453 and
461–478): load stats, decrement, buffer the value removal. -/
def deleteSlotApply (st : MState) (did slot : Nat)
    (vs : List (Nat × ValueStats)) :
    Except Err (MState × List (Nat × ValueStats)) := do
  let base ← statsBase st.table slot vs
  let vs2 := alUpsert slot (deleteStatsStep base) vs
  pure (remove_value st did slot, vs2)

/-- The `while (slot != last_slot)` loop of `delete_document`
(lines 436–455): process the current slot, then pull the next one from the
interpolative decoder. -/
def deleteSlotsLoop (did last_slot : Nat) (st : MState)
    (vs : List (Nat × ValueStats)) :
    Nat → List Nat → Except Err (MState × List (Nat × ValueStats))
  | slot, pending =>
    if slot = last_slot then .ok (st, vs)
    else
      match pending with
      | [] => .ok (st, vs)
      | nxt :: rest => do
          let (st2, vs2) ← deleteSlotApply st did slot vs
          deleteSlotsLoop did last_slot st2 vs2 nxt rest

/-- The slot-blob decoding part of `HoneyValueManager::delete_document`
(lines 415–480).  The source parses the blob as
`pack_uint(slot_enc_size)` followed by `slot_enc_size` bytes; it has no
branch for the 7-bit bitmap header.  Line 424 (`end = p + slot_enc_size`)
moves the end pointer past the buffer whenever the decoded size exceeds
the bytes that remain, and the subsequent reads are out of bounds: that
case is `bufferOverrun`. -/
def delete_document_decode (st : MState) (did : Nat) (s : Str)
    (vs : List (Nat × ValueStats)) :
    Except Err (MState × List (Nat × ValueStats)) := do
  let (slot_enc_size, p1) ←
    match unpack_uint sizeMax s with
    | .error _ => .error .corrupt
    | .ok r => pure r
  if slot_enc_size = 0 then pure (st, vs)
  else if p1.length < slot_enc_size then .error .bufferOverrun
  else do
    let window := p1.take slot_enc_size
    let (last_slot, p2) ←
      match unpack_uint u32Max window with
      | .error _ => .error .corrupt
      | .ok r => pure r
    let (st3, vs3) ←
      if p2.isEmpty then pure (st, vs)
      else do
        let rd0 := BitReader.start p2
        let (first_slot, rd1) := rd0.decode last_slot
        let (cnt2, rd2) := rd1.decode (last_slot - first_slot)
        let slot_count := cnt2 + 2
        let rd3 := rd2.decode_interpolative 0 (slot_count - 1) first_slot
          last_slot
        deleteSlotsLoop did last_slot st vs first_slot rd3.pending
    deleteSlotApply st3 did last_slot vs3

/-- `HoneyValueManager::delete_document` (lines 398–480): fetch the encoded
slot blob from the `slots` buffer (taking it by swap) or from the termlist
table (returning silently when absent), then decode it and process each
slot. -/
def delete_document (st : MState) (did : Nat)
    (vs : List (Nat × ValueStats)) :
    Except Err (MState × List (Nat × ValueStats)) :=
  match alFind did st.slots with
  | some blob =>
      delete_document_decode
        { st with slots := alUpsert did [] st.slots } did blob vs
  | none =>
      match alFind did st.termtable with
      | none => .ok (st, vs)
      | some blob =>
          delete_document_decode
            { st with slots := alUpsert did [] st.slots } did blob vs

/-- Documents provide their docid and an ascending (slot, value) sequence
(`doc.values_begin()` .. `doc.values_end()`). -/
structure Document where
  docid : Nat
  vals : List (Nat × Str)
deriving DecidableEq, Repr

/-- One iteration of the `add_document` value loop (lines 344–380): load
or reuse the slot's stats, apply the stats mutation, buffer the value. -/
def addDocStep (did : Nat) (p : MState × List (Nat × ValueStats))
    (e : Nat × Str) : Except Err (MState × List (Nat × ValueStats)) := do
  let base ← statsBase p.1.table e.1 p.2
  let vs3 := alUpsert e.1 (addDocStatsStep e.2 base) p.2
  pure (add_value p.1 did e.1 e.2, vs3)

/-- `HoneyValueManager::add_document` (lines 324–396): update each touched
slot's stats, buffer each value, and return the variable-form encoded slot
set (empty when the termlist table is closed, or when the document has no
values — the latter case also resetting a previously-buffered slots
entry). -/
def add_document (st : MState) (did : Nat) (doc : Document)
    (vs : List (Nat × ValueStats)) :
    Except Err (MState × List (Nat × ValueStats) × Str) := do
  match doc.vals with
  | [] =>
      let st2 :=
        match alFind did st.slots with
        | some _ => { st with slots := alUpsert did [] st.slots }
        | none => st
      pure (st2, vs, [])
  | (s0, _) :: _ => do
      let (st2, vs2) ← doc.vals.foldlM (addDocStep did) (st, vs)
      let first_slot := s0
      let last_slot := (doc.vals.getLastD (0, [])).1
      if st2.termOpen = false then pure (st2, vs2, [])
      else
        let count := doc.vals.length
        let w0 := BitWriter.start (pack_uint last_slot)
        let w :=
          if 1 < count then
            let w1 := w0.encode first_slot last_slot
            let w2 := w1.encode (count - 2) (last_slot - first_slot)
            w2.encode_interpolative (doc.vals.map Prod.fst) 0 (count - 1)
          else w0
        pure (st2, vs2, w.freeze)

/-- `HoneyValueManager::replace_document` (lines 482–506): when the docid
matches, the source first forces the document to materialize its values
(`ensure_values_fetched`) so the delete below cannot lose them; documents
in this model carry their values directly, so that forcing is the
identity.  Then delete, then add. -/
def replace_document (st : MState) (did : Nat) (doc : Document)
    (vs : List (Nat × ValueStats)) :
    Except Err (MState × List (Nat × ValueStats) × Str) := do
  let (st1, vs1) ← delete_document st did vs
  add_document st1 did doc vs1

/-- The value-collecting loop of `get_all_values` (lines 585–589). -/
def gavSlotsLoop (st : MState) (did last_slot : Nat) :
    Nat → List Nat → Except Err (List (Nat × Str))
  | slot, pending =>
    if slot = last_slot then .ok []
    else
      match pending with
      | [] => .ok []
      | nxt :: rest => do
          let v ← get_value st did slot
          let tailp ← gavSlotsLoop st did last_slot nxt rest
          pure ((slot, v) :: tailp)

/-- Structural helper for `bitmapSlots`; fuel exceeding the bitmap value is
always enough because the value halves each step. -/
def bitmapSlotsFuel : Nat → Nat → Nat → List Nat
  | 0, _, _ => []
  | fuel + 1, b, slot =>
      if b = 0 then []
      else (if b % 2 = 1 then [slot] else []) ++
        bitmapSlotsFuel fuel (b / 2) (slot + 1)

/-- Ascending slot numbers of the set bits of a 7-bit bitmap
(lines 554–563). -/
def bitmapSlots (b slot : Nat) : List Nat := bitmapSlotsFuel (b + 1) b slot

/-- `HoneyValueManager::get_all_values` (lines 531–592).  The header read
`*p++` of line 551 on an empty entry reads the string's null terminator,
which `std::string::data()` guarantees to be readable and zero, hence
`headD 0`. -/
def get_all_values (st : MState) (did : Nat) :
    Except Err (List (Nat × Str)) := do
  if st.termOpen = false then
    if st.postOpen = false then .error .databaseClosed
    else .error .featureUnavailable
  else
    match alFind did st.termtable with
    | none => pure []
    | some s => do
        let hdr := s.headD 0
        let p1 := s.tail
        if hdr % 256 < 128 then do
          let slotsList := bitmapSlots (hdr % 256) 0
          slotsList.mapM (fun slot => do
            let v ← get_value st did slot
            pure (slot, v))
        else do
          let (slot_enc_size, p2) ←
            if hdr % 128 = 0 then
              match unpack_uint sizeMax p1 with
              | .error _ => .error Err.corrupt
              | .ok r => pure r
            else pure (hdr % 128, p1)
          if p2.length < slot_enc_size then .error .bufferOverrun
          else do
            let window := p2.take slot_enc_size
            let (last_slot, p3) ←
              match unpack_uint u32Max window with
              | .error _ => .error Err.corrupt
              | .ok r => pure r
            let front ←
              if p3.isEmpty then pure []
              else do
                let rd0 := BitReader.start p3
                let (first_slot, rd1) := rd0.decode last_slot
                let (cnt2, rd2) := rd1.decode (last_slot - first_slot)
                let slot_count := cnt2 + 2
                let rd3 := rd2.decode_interpolative 0 (slot_count - 1)
                  first_slot last_slot
                gavSlotsLoop st did last_slot first_slot rd3.pending
            let vlast ← get_value st did last_slot
            pure (front ++ [(last_slot, vlast)])

/-- `HoneyValueManager::set_value_stats` (lines 642–666): write or delete
each slot's stats entry, empty the caller's map, invalidate the MRU
cache. -/
def set_value_stats (st : MState) (vs : List (Nat × ValueStats)) :
    MState × List (Nat × ValueStats) :=
  let T := vs.foldl (fun T e => set_value_stats_entry T e.1 e.2) st.table
  ({ st with table := T, mru_slot := BAD_VALUENO }, [])

/-! ## Association-list lemmas -/

theorem alFind_alUpsert_self {α : Type} (k : Nat) (v : α)
    (l : List (Nat × α)) : alFind k (alUpsert k v l) = some v := by
  induction l with
  | nil => simp [alUpsert, alFind]
  | cons e t ih =>
    obtain ⟨k', v'⟩ := e
    by_cases h1 : k < k'
    · simp [alUpsert, alFind, h1]
    · by_cases h2 : k' = k
      · simp [alUpsert, alFind, h1, h2]
      · simp [alUpsert, alFind, h1, h2, ih]

theorem alFind_alUpsert_other {α : Type} {k k' : Nat} (h : k' ≠ k)
    (v : α) (l : List (Nat × α)) :
    alFind k (alUpsert k' v l) = alFind k l := by
  induction l with
  | nil => simp [alUpsert, alFind, h]
  | cons e t ih =>
    obtain ⟨k0, v0⟩ := e
    by_cases h1 : k' < k0
    · simp only [alUpsert, if_pos h1, alFind, if_neg h]
    · by_cases h2 : k0 = k'
      · subst h2
        simp only [alUpsert, if_neg h1, if_pos rfl, alFind, if_neg h]
      · simp only [alUpsert, if_neg h1, if_neg h2, alFind]
        by_cases h3 : k0 = k
        · simp [h3]
        · simp [h3, ih]

/-- Parsing a well-formed stats tag. -/
theorem parse_value_stats_wf (f : Nat) (lb r : Str) (hf : f ≤ u32Max)
    (hlb : lb.length ≤ sizeMax) :
    parse_value_stats (pack_uint f ++ pack_string lb ++ r) =
      .ok ⟨f, lb, if r = [] then lb else r⟩ := by
  simp only [parse_value_stats, List.append_assoc,
    unpack_uint_pack u32Max f (pack_string lb ++ r) hf,
    unpack_string_pack lb r hlb]
  cases r <;> simp

/-! ## Claim theorems: statistics -/

/-- C7: `get_value_stats(slot, out)` clears the output when the stats key
is absent; otherwise it unpacks `freq` as a uint and `lower_bound` as a
string, the remaining bytes become `upper_bound` and an empty remainder
makes the bounds equal; truncation raises `DatabaseCorrupt`, overflow
raises `Range`, and no outcome other than these occurs. -/
theorem claim_C7_get_value_stats (T : Table) (slot : Nat) :
    (tableGet (.stats slot) T = none →
      get_value_stats T slot = .ok ValueStats.clear)
    ∧ (∀ f lb r, f ≤ u32Max → lb.length ≤ sizeMax →
        tableGet (.stats slot) T = some (pack_uint f ++ pack_string lb ++ r) →
        get_value_stats T slot = .ok ⟨f, lb, if r = [] then lb else r⟩)
    ∧ (∀ tag, tableGet (.stats slot) T = some tag →
        (unpack_uint u32Max tag = .error .truncated ∨
          (∃ f rest, unpack_uint u32Max tag = .ok (f, rest) ∧
            unpack_string rest = .error .truncated)) →
        get_value_stats T slot = .error .corrupt)
    ∧ (∀ tag, tableGet (.stats slot) T = some tag →
        (unpack_uint u32Max tag = .error .overflow ∨
          (∃ f rest, unpack_uint u32Max tag = .ok (f, rest) ∧
            unpack_string rest = .error .overflow)) →
        get_value_stats T slot = .error .range)
    ∧ (∀ e, get_value_stats T slot = .error e →
        e = .corrupt ∨ e = .range) := by
  refine ⟨?_, ?_, ?_, ?_, ?_⟩
  · intro h
    simp [get_value_stats, h]
  · intro f lb r hf hlb hget
    simp only [get_value_stats, hget]
    exact parse_value_stats_wf f lb r hf hlb
  · intro tag hget hcase
    rcases hcase with h1 | ⟨f, rest, h2, h3⟩
    · simp only [get_value_stats, hget, parse_value_stats, h1]
    · simp only [get_value_stats, hget, parse_value_stats, h2, h3]
  · intro tag hget hcase
    rcases hcase with h1 | ⟨f, rest, h2, h3⟩
    · simp only [get_value_stats, hget, parse_value_stats, h1]
    · simp only [get_value_stats, hget, parse_value_stats, h2, h3]
  · intro e h
    simp only [get_value_stats] at h
    cases hget : tableGet (.stats slot) T with
    | none =>
      simp only [hget] at h
      simp at h
    | some tag =>
      simp only [hget, parse_value_stats] at h
      cases hu : unpack_uint u32Max tag with
      | error ue =>
        simp only [hu] at h
        cases ue
        · simp only [Except.error.injEq] at h
          exact Or.inl h.symm
        · simp only [Except.error.injEq] at h
          exact Or.inr h.symm
      | ok p =>
        obtain ⟨f, rest⟩ := p
        simp only [hu] at h
        cases hs : unpack_string rest with
        | error ue =>
          simp only [hs] at h
          cases ue
          · simp only [Except.error.injEq] at h
            exact Or.inl h.symm
          · simp only [Except.error.injEq] at h
            exact Or.inr h.symm
        | ok q =>
          obtain ⟨lb, rest2⟩ := q
          simp only [hs] at h
          split at h <;> simp at h

/-- C7 witness. -/
theorem claim_C7_get_value_stats_witness :
    get_value_stats [(TKey.stats 3, pack_uint 2 ++ pack_string [97] ++ [98])]
      3 = .ok ⟨2, [97], [98]⟩ := by
  have h :=
    (claim_C7_get_value_stats
      [(TKey.stats 3, pack_uint 2 ++ pack_string [97] ++ [98])] 3).2.1
      2 [97] [98] (by decide) (by decide) (by rfl)
  simpa using h

/-! ## Table lookup lemmas -/

theorem tableGet_tableAdd_self (k : TKey) (v : Str) (T : Table) :
    tableGet k (tableAdd k v T) = some v := by
  induction T with
  | nil => simp [tableAdd, tableGet]
  | cons e t ih =>
    obtain ⟨k', v'⟩ := e
    by_cases h1 : kLt k k' = true
    · simp [tableAdd, h1, tableGet]
    · by_cases h2 : k' = k
      · simp [tableAdd, h1, h2, kLt_irrefl, tableGet]
      · simp [tableAdd, h1, h2, tableGet, ih]

theorem tableGet_tableAdd_other {k k' : TKey} (h : k' ≠ k) (v : Str)
    (T : Table) : tableGet k (tableAdd k' v T) = tableGet k T := by
  induction T with
  | nil => simp [tableAdd, tableGet, h]
  | cons e t ih =>
    obtain ⟨k0, v0⟩ := e
    by_cases h1 : kLt k' k0 = true
    · simp only [tableAdd, if_pos h1, tableGet, if_neg h]
    · by_cases h2 : k0 = k'
      · subst h2
        simp only [tableAdd, if_neg h1, if_pos rfl, tableGet, if_neg h]
    
      · simp only [tableAdd, if_neg h1, if_neg h2, tableGet]
        by_cases h3 : k0 = k
        · simp [h3]
        · simp [h3, ih]

theorem tableGet_tableDel_self (k : TKey) (T : Table) :
    tableGet k (tableDel k T) = none := by
  induction T with
  | nil => simp [tableDel, tableGet]
  | cons e t ih =>
    obtain ⟨k', v'⟩ := e
    by_cases h1 : k' = k
    · simp [tableDel, h1, ih]
    · simp [tableDel, h1, tableGet, ih]

theorem tableGet_tableDel_other {k k' : TKey} (h : k' ≠ k) (T : Table) :
    tableGet k (tableDel k' T) = tableGet k T := by
  induction T with
  | nil => simp [tableDel, tableGet]
  | cons e t ih =>
    obtain ⟨k0, v0⟩ := e
    by_cases h1 : k0 = k'
    · subst h1
      simp [tableDel, tableGet, if_neg h, ih]
    · simp only [tableDel, if_neg h1, tableGet]
      by_cases h3 : k0 = k
      · simp [h3]
      · simp [h3, ih]

/-- The stats key a `set_value_stats` entry leaves for its own slot. -/
theorem set_value_stats_entry_self (T : Table) (slot : Nat)
    (stats : ValueStats) :
    tableGet (.stats slot) (set_value_stats_entry T slot stats) =
      if stats.freq ≠ 0 then some (stats_tag stats) else none := by
  unfold set_value_stats_entry
  by_cases h : stats.freq ≠ 0
  · simp [h, tableGet_tableAdd_self]
  · simp [h, tableGet_tableDel_self]

/-- A `set_value_stats` entry touches no key but its own stats key. -/
theorem set_value_stats_entry_frame {k : TKey} {slot : Nat}
    (h : k ≠ .stats slot) (T : Table) (stats : ValueStats) :
    tableGet k (set_value_stats_entry T slot stats) = tableGet k T := by
  unfold set_value_stats_entry
  by_cases hf : stats.freq ≠ 0
  · simp only [if_pos hf]
    exact tableGet_tableAdd_other (Ne.symm h) _ T
  · simp only [if_neg hf]
    exact tableGet_tableDel_other (Ne.symm h) T

/-- Keys outside the written stats keys survive the `set_value_stats`
fold. -/
theorem svsFold_frame :
    ∀ (vs : List (Nat × ValueStats)) (T : Table) (k : TKey),
      (∀ s ∈ vs.map Prod.fst, k ≠ TKey.stats s) →
      tableGet k
        (vs.foldl (fun T2 e => set_value_stats_entry T2 e.1 e.2) T) =
        tableGet k T := by
  intro vs
  induction vs with
  | nil => intro T k _; rfl
  | cons e t ih =>
    intro T k hk
    obtain ⟨s0, st0⟩ := e
    simp only [List.foldl_cons]
    rw [ih _ k (fun s hs => hk s (by simp [hs]))]
    exact set_value_stats_entry_frame (hk s0 (by simp)) T st0

/-- Each map entry's slot ends with the written (or deleted) stats key
after the `set_value_stats` fold. -/
theorem svsFold_lookup :
    ∀ (vs : List (Nat × ValueStats)) (T : Table) (slot : Nat)
      (stats : ValueStats), (slot, stats) ∈ vs →
      (vs.map Prod.fst).Nodup →
      tableGet (.stats slot)
        (vs.foldl (fun T2 e => set_value_stats_entry T2 e.1 e.2) T) =
        (if stats.freq ≠ 0 then some (stats_tag stats) else none) := by
  intro vs
  induction vs with
  | nil => intro T slot stats h; simp at h
  | cons e t ih =>
    intro T slot stats hmem hnd
    obtain ⟨s0, st0⟩ := e
    simp only [List.map_cons, List.nodup_cons] at hnd
    rcases List.mem_cons.mp hmem with heq | hmem2
    · injection heq with h1 h2
      subst h1
      subst h2
      simp only [List.foldl_cons]
      rw [svsFold_frame t _ _ ?_]
      · exact set_value_stats_entry_self T slot stats
      · intro s hs he
        have hss : slot = s := by injection he
        exact hnd.1 (hss ▸ hs)
    · simp only [List.foldl_cons]
      exact ih _ slot stats hmem2 hnd.2

/-- C9: `set_value_stats` empties the caller's map before returning, in
addition to writing each non-zero-frequency entry, deleting each
zero-frequency key, leaving every other key alone, and invalidating the
MRU stats cache; the pending-change buffer is untouched. -/
theorem claim_C9_set_value_stats_empties_map (st : MState)
    (vs : List (Nat × ValueStats)) (hnd : (vs.map Prod.fst).Nodup) :
    (set_value_stats st vs).2 = []
    ∧ (set_value_stats st vs).1.mru_slot = BAD_VALUENO
    ∧ (∀ slot stats, (slot, stats) ∈ vs →
        tableGet (.stats slot) (set_value_stats st vs).1.table =
          (if stats.freq ≠ 0 then some (stats_tag stats) else none))
    ∧ (∀ k : TKey, (∀ s ∈ vs.map Prod.fst, k ≠ TKey.stats s) →
        tableGet k (set_value_stats st vs).1.table = tableGet k st.table)
    ∧ (set_value_stats st vs).1.changes = st.changes := by
  refine ⟨rfl, rfl, ?_, ?_, rfl⟩
  · intro slot stats hmem
    exact svsFold_lookup vs st.table slot stats hmem hnd
  · intro k hk
    exact svsFold_frame vs st.table k hk

/-- C9 witness. -/
theorem claim_C9_witness :
    (set_value_stats MState.init [(1, ⟨2, [97], [98]⟩), (4, ⟨0, [], []⟩)]).2
        = []
      ∧ tableGet (.stats 1)
          (set_value_stats MState.init
            [(1, ⟨2, [97], [98]⟩), (4, ⟨0, [], []⟩)]).1.table =
          some (stats_tag ⟨2, [97], [98]⟩) := by
  have h := claim_C9_set_value_stats_empties_map MState.init
    [(1, ⟨2, [97], [98]⟩), (4, ⟨0, [], []⟩)] (by decide)
  refine ⟨h.1, ?_⟩
  have h2 := h.2.2.1 1 ⟨2, [97], [98]⟩ (by simp)
  simpa using h2

/-! ## Claim theorems: stats updates on add/delete -/

theorem exBind_err {α β ε : Type} (e : ε) (f : α → Except ε β) :
    (Except.error e >>= f) = Except.error e := rfl

theorem exBind_ok {α β ε : Type} (a : α) (f : α → Except ε β) :
    (Except.ok a >>= f) = f a := rfl

/-- Peel one step off a successful `foldlM` in `Except`. -/
theorem foldlM_cons_ok {α β ε : Type} {f : β → α → Except ε β} {b q : β}
    {a : α} {l : List α}
    (h : List.foldlM f b (a :: l) = .ok q) :
    ∃ b2, f b a = .ok b2 ∧ List.foldlM f b2 l = .ok q := by
  rw [List.foldlM_cons] at h
  cases hf : f b a with
  | error e =>
    rw [hf, exBind_err] at h
    exact absurd h (by simp)
  | ok b2 =>
    rw [hf, exBind_ok] at h
    exact ⟨b2, rfl, h⟩

/-- `addDocStep` in closed form. -/
theorem addDocStep_eq (did : Nat) (p : MState × List (Nat × ValueStats))
    (e : Nat × Str) :
    addDocStep did p e =
      match statsBase p.1.table e.1 p.2 with
      | .error er => .error er
      | .ok b =>
          .ok (add_value p.1 did e.1 e.2,
            alUpsert e.1 (addDocStatsStep e.2 b) p.2) := by
  unfold addDocStep
  cases statsBase p.1.table e.1 p.2 <;> rfl

/-- Destructor for a successful `addDocStep`. -/
theorem addDocStep_ok {did : Nat} {p q : MState × List (Nat × ValueStats)}
    {e : Nat × Str} (h : addDocStep did p e = .ok q) :
    ∃ b, statsBase p.1.table e.1 p.2 = .ok b ∧
      q = (add_value p.1 did e.1 e.2,
        alUpsert e.1 (addDocStatsStep e.2 b) p.2) := by
  rw [addDocStep_eq] at h
  cases hb : statsBase p.1.table e.1 p.2 with
  | error er =>
    simp only [hb] at h
    exact absurd h (by simp)
  | ok b =>
    simp only [hb, Except.ok.injEq] at h
    exact ⟨b, rfl, h.symm⟩

theorem add_value_table (st : MState) (did slot : Nat) (v : Str) :
    (add_value st did slot v).table = st.table := rfl

/-- The `add_document` loop never touches the postlist table. -/
theorem addDocFold_table (did : Nat) :
    ∀ (l : List (Nat × Str)) (p q : MState × List (Nat × ValueStats)),
      List.foldlM (addDocStep did) p l = .ok q → q.1.table = p.1.table := by
  intro l
  induction l with
  | nil => intro p q h; simp only [List.foldlM_nil] at h; cases h; rfl
  | cons e t ih =>
    intro p q h
    obtain ⟨p2, hstep, hrest⟩ := foldlM_cons_ok h
    obtain ⟨b, _, rfl⟩ := addDocStep_ok hstep
    rw [ih _ q hrest]
    rfl

/-- Slots not edited by the loop keep their stats-map entry. -/
theorem addDocFold_stats_frame (did : Nat) :
    ∀ (l : List (Nat × Str)) (p q : MState × List (Nat × ValueStats))
      (s : Nat), (∀ e ∈ l, e.1 ≠ s) →
      List.foldlM (addDocStep did) p l = .ok q →
      alFind s q.2 = alFind s p.2 := by
  intro l
  induction l with
  | nil => intro p q s _ h; simp only [List.foldlM_nil] at h; cases h; rfl
  | cons e t ih =>
    intro p q s hs h
    obtain ⟨p2, hstep, hrest⟩ := foldlM_cons_ok h
    obtain ⟨b, _, rfl⟩ := addDocStep_ok hstep
    rw [ih _ q s (fun x hx => hs x (List.mem_cons_of_mem _ hx)) hrest]
    exact alFind_alUpsert_other (hs e (List.mem_cons_self _ _)) _ _

/-- Each document value ends with its slot's stats entry equal to
`addDocStatsStep` applied to the loaded (or already-batched) stats. -/
theorem addDocFold_stats_lookup (did : Nat) :
    ∀ (l : List (Nat × Str)) (p q : MState × List (Nat × ValueStats))
      (s : Nat) (v : Str) (b : ValueStats),
      l.Pairwise (fun a c => a.1 < c.1) → (s, v) ∈ l →
      statsBase p.1.table s p.2 = .ok b →
      List.foldlM (addDocStep did) p l = .ok q →
      alFind s q.2 = some (addDocStatsStep v b) := by
  intro l
  induction l with
  | nil => intro p q s v b _ hmem; simp at hmem
  | cons e t ih =>
    intro p q s v b hpw hmem hbase h
    obtain ⟨es, ev⟩ := e
    obtain ⟨p2, hstep, hrest⟩ := foldlM_cons_ok h
    obtain ⟨b2, hb2, rfl⟩ := addDocStep_ok hstep
    rcases List.mem_cons.mp hmem with heq | hmem2
    · injection heq with h1 h2
      subst h1
      subst h2
      have hb2b : b2 = b := by
        rw [hbase] at hb2
        injection hb2 with hx
        exact hx.symm
      subst hb2b
      rw [addDocFold_stats_frame did t _ q s
        (fun x hx hxe => by
          have := (List.pairwise_cons.mp hpw).1 x hx
          simp at this
          omega) hrest]
      exact alFind_alUpsert_self _ _ _
    · have hne : es ≠ s := by
        have := (List.pairwise_cons.mp hpw).1 _ hmem2
        simp at this
        omega
      refine ih _ q s v b (List.pairwise_cons.mp hpw).2 hmem2 ?_ hrest
      show statsBase (add_value p.1 did es ev).table s
        (alUpsert es (addDocStatsStep ev b2) p.2) = .ok b
      rw [show (add_value p.1 did es ev).table = p.1.table from rfl]
      unfold statsBase
      rw [alFind_alUpsert_other hne]
      unfold statsBase at hbase
      exact hbase

/-- The behaviour of the per-value stats mutation of `add_document`:
frequency increments; a previously-zero frequency sets both bounds to the
value; otherwise the value is compared to the upper bound first — widened
on a strictly greater value, untouched on an equal one — and only on a
strictly smaller value is the lower bound checked and widened; bounds
never shrink. -/
theorem addDocStatsStep_spec (v : Str) (s : ValueStats)
    (hf : s.freq < u32Max) :
    (addDocStatsStep v s).freq = s.freq + 1
    ∧ (s.freq = 0 →
        (addDocStatsStep v s).lower_bound = v ∧
        (addDocStatsStep v s).upper_bound = v)
    ∧ (s.freq ≠ 0 →
        (strLt s.upper_bound v →
          (addDocStatsStep v s).upper_bound = v ∧
          (addDocStatsStep v s).lower_bound = s.lower_bound)
        ∧ (strCompare v s.upper_bound = .eq →
            (addDocStatsStep v s).upper_bound = s.upper_bound ∧
            (addDocStatsStep v s).lower_bound = s.lower_bound)
        ∧ (strLt v s.upper_bound →
            (addDocStatsStep v s).upper_bound = s.upper_bound
            ∧ (strLt v s.lower_bound →
                (addDocStatsStep v s).lower_bound = v)
            ∧ (¬ strLt v s.lower_bound →
                (addDocStatsStep v s).lower_bound = s.lower_bound))
        ∧ strLe (addDocStatsStep v s).lower_bound s.lower_bound
        ∧ strLe s.upper_bound (addDocStatsStep v s).upper_bound) := by
  have hmod : (s.freq + 1) % 2 ^ 32 = s.freq + 1 := by
    unfold u32Max at hf
    omega
  have hgt_iff : ∀ a b : Str, strCompare a b = .gt ↔ strLt b a := by
    intro a b
    unfold strLt
    rw [strCompare_swap a b]
    cases strCompare a b <;> simp [Ordering.swap]
  by_cases h0 : s.freq = 0
  · refine ⟨by simp [addDocStatsStep, h0, hmod], fun _ => ?_,
      fun hne => absurd h0 hne⟩
    simp [addDocStatsStep, h0]
  · have hstep : addDocStatsStep v s =
        { (match strCompare v s.upper_bound with
          | .gt => { s with upper_bound := v }
          | .eq => s
          | .lt =>
              if strLt v s.lower_bound then { s with lower_bound := v }
              else s) with freq := (s.freq + 1) % 2 ^ 32 } := by
      unfold addDocStatsStep
      rw [if_neg h0]
      cases strCompare v s.upper_bound
      · by_cases hvl : strLt v s.lower_bound <;> simp [hvl]
      · rfl
      · rfl
    cases hc : strCompare v s.upper_bound with
    | gt =>
      have hub : strLt s.upper_bound v := (hgt_iff v s.upper_bound).mp hc
      have hne3 : ¬ strLt v s.upper_bound := by
        unfold strLt
        rw [hc]
        simp
      refine ⟨by simp [hstep, hc]; unfold u32Max at hf; omega,
        fun hz => absurd hz h0,
        fun _ => ⟨fun _ => ⟨by simp [hstep, hc], by simp [hstep, hc]⟩,
          fun he => absurd he (by decide), fun hl => absurd hl hne3, ?_, ?_⟩⟩
      · simp only [hstep, hc]
        exact strLe_refl _
      · simp only [hstep, hc]
        exact strLe_of_lt hub
    | eq =>
      have hne1 : ¬ strLt s.upper_bound v := by
        intro hl
        rw [(hgt_iff v s.upper_bound).mpr hl] at hc
        cases hc
      have hne3 : ¬ strLt v s.upper_bound := by
        unfold strLt
        rw [hc]
        simp
      refine ⟨by simp [hstep, hc]; unfold u32Max at hf; omega,
        fun hz => absurd hz h0,
        fun _ => ⟨fun hl => absurd hl hne1,
          fun _ => ⟨by simp [hstep, hc], by simp [hstep, hc]⟩,
          fun hl => absurd hl hne3, ?_, ?_⟩⟩
      · simp only [hstep, hc]
        exact strLe_refl _
      · simp only [hstep, hc]
        exact strLe_refl _
    | lt =>
      have hne1 : ¬ strLt s.upper_bound v := by
        intro hl
        rw [(hgt_iff v s.upper_bound).mpr hl] at hc
        cases hc
      refine ⟨?_, fun hz => absurd hz h0,
        fun _ => ⟨fun hl => absurd hl hne1, fun he => absurd he (by decide),
          fun _ => ⟨?_, fun hvl => ?_, fun hvl => ?_⟩, ?_, ?_⟩⟩
      · by_cases hvl : strLt v s.lower_bound <;> simp [hstep, hc, hvl] <;>
          (unfold u32Max at hf; omega)
      · by_cases hvl : strLt v s.lower_bound <;> simp [hstep, hc, hvl]
      · simp [hstep, hc, hvl]
      · simp [hstep, hc, hvl]
      · by_cases hvl : strLt v s.lower_bound
        · simp only [hstep, hc, if_pos hvl]
          exact strLe_of_lt hvl
        · simp only [hstep, hc, if_neg hvl]
          exact strLe_refl _
      · by_cases hvl : strLt v s.lower_bound
        · simp only [hstep, hc, if_pos hvl]
          exact strLe_refl _
        · simp only [hstep, hc, if_neg hvl]
          exact strLe_refl _

/-- The behaviour of the per-slot stats mutation of `delete_document`:
decrement the frequency, clear both bounds exactly when it reaches zero,
and leave both bounds untouched otherwise. -/
theorem deleteStatsStep_spec (s : ValueStats) (h1 : 1 ≤ s.freq)
    (h2 : s.freq ≤ u32Max) :
    (deleteStatsStep s).freq = s.freq - 1
    ∧ (s.freq = 1 → deleteStatsStep s = ValueStats.clear)
    ∧ (s.freq ≠ 1 →
        (deleteStatsStep s).lower_bound = s.lower_bound ∧
        (deleteStatsStep s).upper_bound = s.upper_bound) := by
  have hmod : (s.freq + 4294967295) % 4294967296 = s.freq - 1 := by
    unfold u32Max at h2
    omega
  refine ⟨?_, ?_, ?_⟩
  · by_cases h : s.freq - 1 = 0 <;>
      simp [deleteStatsStep, hmod, h]
  · intro h1f
    simp [deleteStatsStep, hmod, h1f, ValueStats.clear]
  · intro hne
    have hf : ¬ (s.freq - 1 = 0) := by omega
    simp [deleteStatsStep, hmod, hf]

/-- A successful `deleteSlotApply` buffers the removal and applies
`deleteStatsStep` to the loaded (or already-batched) stats. -/
theorem deleteSlotApply_spec (st : MState) (did slot : Nat)
    (vs : List (Nat × ValueStats)) (b : ValueStats)
    (hb : statsBase st.table slot vs = .ok b) :
    deleteSlotApply st did slot vs =
      .ok (remove_value st did slot,
        alUpsert slot (deleteStatsStep b) vs) := by
  unfold deleteSlotApply
  rw [hb, exBind_ok]
  rfl

/-- `add_document` leaves each touched slot's stats entry equal to
`addDocStatsStep` applied to the loaded (or already-batched) stats. -/
theorem add_document_stats_entry (st : MState) (did : Nat) (doc : Document)
    (vs : List (Nat × ValueStats)) (s : Nat) (v : Str) (b : ValueStats)
    (hpw : doc.vals.Pairwise (fun a c => a.1 < c.1))
    (hmem : (s, v) ∈ doc.vals)
    (hb : statsBase st.table s vs = .ok b)
    (res : MState × List (Nat × ValueStats) × Str)
    (hok : add_document st did doc vs = .ok res) :
    alFind s res.2.1 = some (addDocStatsStep v b) := by
  cases hv : doc.vals with
  | nil => rw [hv] at hmem; simp at hmem
  | cons e t =>
    obtain ⟨s0, v0⟩ := e
    unfold add_document at hok
    simp only [hv] at hok
    cases hfold : List.foldlM (addDocStep did) (st, vs) ((s0, v0) :: t) with
    | error er =>
      rw [hfold, exBind_err] at hok
      exact absurd hok (by simp)
    | ok p =>
      obtain ⟨st2, vs2⟩ := p
      rw [hfold, exBind_ok] at hok
      have hex : ∃ blob : Str,
          (Except.ok (st2, vs2, blob) :
            Except Err (MState × List (Nat × ValueStats) × Str)) =
            Except.ok res := by
        by_cases ht : st2.termOpen = false
        · rw [if_pos ht] at hok
          exact ⟨[], hok⟩
        · rw [if_neg ht] at hok
          exact ⟨_, hok⟩
      obtain ⟨blob, h2⟩ := hex
      have hvs2 : res.2.1 = vs2 := by
        injection h2 with h3
        rw [← h3]
      rw [hvs2]
      exact addDocFold_stats_lookup did ((s0, v0) :: t) (st, vs) (st2, vs2)
        s v b (hv ▸ hpw) (hv ▸ hmem) hb hfold

/-- C6: `add_document` updates each touched slot's stats through
`addDocStatsStep`: the frequency is incremented, a previously-zero
frequency sets both bounds to the added value, otherwise the value is
compared to `upper_bound` first (widening it when strictly greater) and
only otherwise is `lower_bound` widened when the value is strictly
smaller; bounds never shrink on add.  `delete_document` updates each slot
through `deleteStatsStep`, which never recomputes bounds and only clears
both when the frequency reaches zero. -/
theorem claim_C6_stats_bounds_rules :
    (∀ (st : MState) (did : Nat) (doc : Document)
        (vs : List (Nat × ValueStats)) (s : Nat) (v : Str) (b : ValueStats)
        (res : MState × List (Nat × ValueStats) × Str),
        doc.vals.Pairwise (fun a c => a.1 < c.1) → (s, v) ∈ doc.vals →
        statsBase st.table s vs = .ok b →
        add_document st did doc vs = .ok res →
        alFind s res.2.1 = some (addDocStatsStep v b))
    ∧ (∀ (v : Str) (s : ValueStats), s.freq < u32Max →
        (addDocStatsStep v s).freq = s.freq + 1
        ∧ (s.freq = 0 →
            (addDocStatsStep v s).lower_bound = v ∧
            (addDocStatsStep v s).upper_bound = v)
        ∧ (s.freq ≠ 0 →
            (strLt s.upper_bound v →
              (addDocStatsStep v s).upper_bound = v ∧
              (addDocStatsStep v s).lower_bound = s.lower_bound)
            ∧ (strCompare v s.upper_bound = .eq →
                (addDocStatsStep v s).upper_bound = s.upper_bound ∧
                (addDocStatsStep v s).lower_bound = s.lower_bound)
            ∧ (strLt v s.upper_bound →
                (addDocStatsStep v s).upper_bound = s.upper_bound
                ∧ (strLt v s.lower_bound →
                    (addDocStatsStep v s).lower_bound = v)
                ∧ (¬ strLt v s.lower_bound →
                    (addDocStatsStep v s).lower_bound = s.lower_bound))
            ∧ strLe (addDocStatsStep v s).lower_bound s.lower_bound
            ∧ strLe s.upper_bound (addDocStatsStep v s).upper_bound))
    ∧ (∀ (st : MState) (did slot : Nat) (vs : List (Nat × ValueStats))
        (b : ValueStats), statsBase st.table slot vs = .ok b →
        deleteSlotApply st did slot vs =
          .ok (remove_value st did slot,
            alUpsert slot (deleteStatsStep b) vs))
    ∧ (∀ s : ValueStats, 1 ≤ s.freq → s.freq ≤ u32Max →
        (deleteStatsStep s).freq = s.freq - 1
        ∧ (s.freq = 1 → deleteStatsStep s = ValueStats.clear)
        ∧ (s.freq ≠ 1 →
            (deleteStatsStep s).lower_bound = s.lower_bound ∧
            (deleteStatsStep s).upper_bound = s.upper_bound)) :=
  ⟨fun st did doc vs s v b res hpw hmem hb hok =>
      add_document_stats_entry st did doc vs s v b hpw hmem hb res hok,
    fun v s hf => addDocStatsStep_spec v s hf,
    fun st did slot vs b hb => deleteSlotApply_spec st did slot vs b hb,
    fun s h1 h2 => deleteStatsStep_spec s h1 h2⟩

/-- C6 witness. -/
theorem claim_C6_witness :
    List.Pairwise (fun a c => (a : Nat × Str).1 < c.1) [(2, [97])]
    ∧ alFind 2 ((add_value MState.init 1 2 [97],
        [(2, addDocStatsStep [97] ValueStats.clear)], ([2] : Str)) :
          MState × List (Nat × ValueStats) × Str).2.1 =
        some (addDocStatsStep [97] ValueStats.clear)
    ∧ (addDocStatsStep [97] ValueStats.clear).freq = 1
    ∧ deleteStatsStep ⟨1, [97], [97]⟩ = ValueStats.clear := by
  refine ⟨by decide, ?_, ?_, ?_⟩
  · exact (claim_C6_stats_bounds_rules).1 MState.init 1 ⟨1, [(2, [97])]⟩ []
      2 [97] ValueStats.clear _ (by decide) (by decide) (by rfl) (by rfl)
  · simpa using
      ((claim_C6_stats_bounds_rules).2.1 [97] ValueStats.clear (by decide)).1
  · exact ((claim_C6_stats_bounds_rules).2.2.2 ⟨1, [97], [97]⟩ (by decide)
      (by decide)).2.1 rfl

/-! ## Claim theorems: enumeration, deletion decode, replace -/

/-- C10: a present-but-empty termlist entry makes `get_all_values` return
with the output map empty.  The one-byte header read of line 551 lands on
the entry's null terminator, which `std::string::data()` guarantees to be
readable and zero, so no read past the entry occurs; the zero header is an
empty bitmap and no slot is visited. -/
theorem claim_C10_get_all_values_empty_entry (st : MState) (did : Nat)
    (hterm : st.termOpen = true)
    (hentry : alFind did st.termtable = some []) :
    get_all_values st did = .ok [] := by
  unfold get_all_values
  rw [hterm]
  simp only [hentry]
  rfl

/-- C10 witness. -/
theorem claim_C10_witness :
    get_all_values { MState.init with termtable := [(1, [])] } 1 =
      .ok [] :=
  claim_C10_get_all_values_empty_entry
    { MState.init with termtable := [(1, [])] } 1 rfl rfl

/-- C5, evaluated at the failing input: on the bitmap-form entry `0x05`
(slots {0, 2}) for document 5, `get_all_values` decodes the bitmap and
visits slots 0 and 2, but `delete_document` — which has no branch for the
bitmap header — parses the byte as `slot_enc_size = 5` and moves its end
pointer five bytes past the end of the one-byte entry, an out-of-bounds
read; no slot is processed and no stats are decremented. -/
theorem claim_C5_delete_document_bitmap_mismatch :
    get_all_values { MState.init with termtable := [(5, [5])] } 5 =
        .ok [(0, []), (2, [])]
      ∧ delete_document { MState.init with termtable := [(5, [5])] } 5 [] =
        .error .bufferOverrun := by
  constructor
  · rfl
  · rfl

/-- C8: `replace_document` is observationally the deletion of the old
document followed by the addition of the new one: the same resulting
manager state, the same stats map, the same returned slot blob, for every
document — including one whose docid is the target.  The source's
`ensure_values_fetched` call (taken exactly when the docids match) forces
the document to materialize its values before the delete, which is what
grants documents the value semantics this model gives them; on such a
document the forcing is the identity. -/
theorem claim_C8_replace_is_delete_then_add (st : MState) (did : Nat)
    (doc : Document) (vs : List (Nat × ValueStats)) :
    replace_document st did doc vs =
      (delete_document st did vs).bind
        (fun p => add_document p.1 did doc p.2) := by
  unfold replace_document
  cases delete_document st did vs with
  | error e => rfl
  | ok p => rfl

/-! ## Sorted-table theory

Lemmas about the ordered table used by the chunk updater proofs. -/

theorem kLt_of_not_of_ne {a b : TKey} (h1 : kLt a b = false) (h2 : a ≠ b) :
    kLt b a = true := by
  rcases kLt_total a b with h | h | h
  · rw [h] at h1; cases h1
  · exact absurd h h2
  · exact h

theorem SortedT_cons {e : TKey × Str} {t : Table} (h : SortedT (e :: t)) :
    (∀ e2 ∈ t, kLt e.1 e2.1 = true) ∧ SortedT t := by
  unfold SortedT at h
  rw [List.pairwise_cons] at h
  exact h

theorem mem_tableAdd {k : TKey} {v : Str} {e : TKey × Str} :
    ∀ {T : Table}, e ∈ tableAdd k v T → e = (k, v) ∨ e ∈ T := by
  intro T
  induction T with
  | nil =>
    intro h
    unfold tableAdd at h
    simp at h
    exact Or.inl h
  | cons e0 t ih =>
    intro h
    obtain ⟨k0, v0⟩ := e0
    unfold tableAdd at h
    by_cases h1 : kLt k k0 = true
    · rw [if_pos h1] at h
      rcases List.mem_cons.mp h with rfl | hm
      · exact Or.inl rfl
      · exact Or.inr hm
    · rw [if_neg h1] at h
      by_cases h2 : k0 = k
      · rw [if_pos h2] at h
        rcases List.mem_cons.mp h with rfl | hm
        · exact Or.inl rfl
        · exact Or.inr (List.mem_cons_of_mem _ hm)
      · rw [if_neg h2] at h
        rcases List.mem_cons.mp h with rfl | hm
        · exact Or.inr (List.mem_cons_self _ _)
        · rcases ih hm with he | hm2
          · exact Or.inl he
          · exact Or.inr (List.mem_cons_of_mem _ hm2)

theorem mem_tableDel {k : TKey} {e : TKey × Str} :
    ∀ {T : Table}, e ∈ tableDel k T → e ∈ T := by
  intro T
  induction T with
  | nil => intro h; exact h
  | cons e0 t ih =>
    intro h
    obtain ⟨k0, v0⟩ := e0
    unfold tableDel at h
    by_cases h1 : k0 = k
    · rw [if_pos h1] at h
      exact List.mem_cons_of_mem _ (ih h)
    · rw [if_neg h1] at h
      rcases List.mem_cons.mp h with rfl | hm
      · exact List.mem_cons_self _ _
      · exact List.mem_cons_of_mem _ (ih hm)

theorem SortedT_tableAdd (k : TKey) (v : Str) :
    ∀ (T : Table), SortedT T → SortedT (tableAdd k v T) := by
  intro T
  induction T with
  | nil =>
    intro _
    unfold SortedT tableAdd
    simp
  | cons e t ih =>
    intro hs
    obtain ⟨hhead, htail⟩ := SortedT_cons hs
    obtain ⟨k0, v0⟩ := e
    unfold tableAdd
    by_cases h1 : kLt k k0 = true
    · simp only [if_pos h1]
      unfold SortedT
      rw [List.pairwise_cons]
      refine ⟨?_, hs⟩
      intro e2 he2
      rcases List.mem_cons.mp he2 with rfl | hm
      · exact h1
      · exact kLt_trans h1 (hhead e2 hm)
    · rw [if_neg h1]
      by_cases h2 : k0 = k
      · simp only [if_pos h2]
        unfold SortedT
        rw [List.pairwise_cons]
        subst h2
        exact ⟨hhead, htail⟩
      · simp only [if_neg h2]
        unfold SortedT
        rw [List.pairwise_cons]
        refine ⟨?_, ih htail⟩
        intro e2 he2
        rcases mem_tableAdd he2 with rfl | hm
        · exact kLt_of_not_of_ne (by simpa using h1) (fun he => h2 he.symm)
        · exact hhead e2 hm

theorem SortedT_tableDel (k : TKey) :
    ∀ (T : Table), SortedT T → SortedT (tableDel k T) := by
  intro T
  induction T with
  | nil => intro h; exact h
  | cons e t ih =>
    intro hs
    obtain ⟨hhead, htail⟩ := SortedT_cons hs
    obtain ⟨k0, v0⟩ := e
    unfold tableDel
    by_cases h1 : k0 = k
    · rw [if_pos h1]
      exact ih htail
    · rw [if_neg h1]
      unfold SortedT
      rw [List.pairwise_cons]
      refine ⟨?_, ih htail⟩
      intro e2 he2
      exact hhead e2 (mem_tableDel he2)

theorem tableFindLE_eq_none_iff {k : TKey} :
    ∀ {T : Table}, SortedT T →
      (tableFindLE k T = none ↔ ∀ e ∈ T, kLt k e.1 = true) := by
  intro T
  induction T with
  | nil => intro _; simp [tableFindLE]
  | cons e0 t ih =>
    intro hs
    obtain ⟨hhead, htail⟩ := SortedT_cons hs
    obtain ⟨k0, v0⟩ := e0
    unfold tableFindLE
    by_cases h1 : kLt k k0 = true
    · simp only [if_pos h1]
      constructor
      · intro _ e2 he2
        rcases List.mem_cons.mp he2 with rfl | hm
        · exact h1
        · exact kLt_trans h1 (hhead e2 hm)
      · intro _; trivial
    · simp only [if_neg h1]
      constructor
      · intro h
        cases hrec : tableFindLE k t <;> rw [hrec] at h <;> cases h
      · intro h
        exact absurd (h (k0, v0) (List.mem_cons_self _ _)) h1

theorem tableFindLE_some_spec {k : TKey} {e : TKey × Str} :
    ∀ {T : Table}, SortedT T → tableFindLE k T = some e →
      e ∈ T ∧ kLt k e.1 = false ∧
        ∀ e2 ∈ T, kLt k e2.1 = false → kLt e.1 e2.1 = false := by
  intro T
  induction T with
  | nil => intro _ h; cases h
  | cons e0 t ih =>
    intro hs h
    obtain ⟨hhead, htail⟩ := SortedT_cons hs
    obtain ⟨k0, v0⟩ := e0
    unfold tableFindLE at h
    by_cases h1 : kLt k k0 = true
    · rw [if_pos h1] at h; cases h
    · rw [if_neg h1] at h
      cases hrec : tableFindLE k t with
      | some e2 =>
        rw [hrec] at h
        cases h
        obtain ⟨hm, hle, hmax⟩ := ih htail hrec
        refine ⟨List.mem_cons_of_mem _ hm, hle, ?_⟩
        intro e3 he3 hle3
        rcases List.mem_cons.mp he3 with rfl | hm3
        · exact kLt_asymm (hhead e hm)
        · exact hmax e3 hm3 hle3
      | none =>
        rw [hrec] at h
        cases h
        refine ⟨List.mem_cons_self _ _, by simpa using h1, ?_⟩
        intro e3 he3 hle3
        rcases List.mem_cons.mp he3 with rfl | hm3
        · exact kLt_irrefl _
        · exact absurd ((tableFindLE_eq_none_iff htail).mp hrec e3 hm3)
            (by simp [hle3])

theorem tableFindLE_eq_some {k : TKey} {e : TKey × Str} :
    ∀ {T : Table}, SortedT T → e ∈ T → kLt k e.1 = false →
      (∀ e2 ∈ T, kLt k e2.1 = false → kLt e.1 e2.1 = false) →
      tableFindLE k T = some e := by
  intro T
  induction T with
  | nil => intro _ hm; simp at hm
  | cons e0 t ih =>
    intro hs hm hle hmax
    obtain ⟨hhead, htail⟩ := SortedT_cons hs
    obtain ⟨k0, v0⟩ := e0
    unfold tableFindLE
    by_cases h1 : kLt k k0 = true
    · exfalso
      rcases List.mem_cons.mp hm with rfl | hm2
      · rw [h1] at hle; cases hle
      · have := kLt_trans h1 (hhead e hm2)
        rw [this] at hle; cases hle
    · rw [if_neg h1]
      rcases List.mem_cons.mp hm with rfl | hm2
      · have hrec : tableFindLE k t = none := by
          rw [tableFindLE_eq_none_iff htail]
          intro e2 he2
          by_contra hne
          have h2 := hmax e2 (List.mem_cons_of_mem _ he2) (by simpa using hne)
          have h3 := hhead e2 he2
          rw [h3] at h2
          cases h2
        rw [hrec]
      · have hrec := ih htail hm2 hle
          (fun e2 he2 hle2 => hmax e2 (List.mem_cons_of_mem _ he2) hle2)
        rw [hrec]

theorem tableFindGT_eq_none_iff {k : TKey} :
    ∀ {T : Table}, tableFindGT k T = none ↔ ∀ e ∈ T, kLt k e.1 = false := by
  intro T
  induction T with
  | nil => simp [tableFindGT]
  | cons e0 t ih =>
    obtain ⟨k0, v0⟩ := e0
    unfold tableFindGT
    by_cases h1 : kLt k k0 = true
    · simp only [if_pos h1]
      constructor
      · intro h; cases h
      · intro h
        exact absurd (h (k0, v0) (List.mem_cons_self _ _)) (by simp [h1])
    · simp only [if_neg h1]
      constructor
      · intro h e2 he2
        rcases List.mem_cons.mp he2 with rfl | hm
        · simpa using h1
        · exact ih.mp h e2 hm
      · intro h
        exact ih.mpr (fun e2 he2 => h e2 (List.mem_cons_of_mem _ he2))

theorem tableFindGT_eq_some {k : TKey} {e : TKey × Str} :
    ∀ {T : Table}, SortedT T → e ∈ T → kLt k e.1 = true →
      (∀ e2 ∈ T, kLt k e2.1 = true → kLt e2.1 e.1 = false) →
      tableFindGT k T = some e := by
  intro T
  induction T with
  | nil => intro _ hm; simp at hm
  | cons e0 t ih =>
    intro hs hm hgt hmin
    obtain ⟨hhead, htail⟩ := SortedT_cons hs
    obtain ⟨k0, v0⟩ := e0
    unfold tableFindGT
    by_cases h1 : kLt k k0 = true
    · rw [if_pos h1]
      rcases List.mem_cons.mp hm with rfl | hm2
      · rfl
      · exfalso
        have h2 := hmin (k0, v0) (List.mem_cons_self _ _) h1
        have h3 := hhead e hm2
        rw [h3] at h2
        cases h2
    · rw [if_neg h1]
      rcases List.mem_cons.mp hm with rfl | hm2
      · rw [hgt] at h1; exact absurd rfl h1
      · exact ih htail hm2 hgt
          (fun e2 he2 hgt2 => hmin e2 (List.mem_cons_of_mem _ he2) hgt2)

theorem tableFindGT_ext {p q : TKey} :
    ∀ {T : Table}, (∀ e ∈ T, kLt p e.1 = kLt q e.1) →
      tableFindGT p T = tableFindGT q T := by
  intro T
  induction T with
  | nil => intro _; rfl
  | cons e0 t ih =>
    intro h
    obtain ⟨k0, v0⟩ := e0
    unfold tableFindGT
    rw [h (k0, v0) (List.mem_cons_self _ _)]
    by_cases h1 : kLt q k0 = true
    · simp only [if_pos h1]
    · simp only [if_neg h1]
      exact ih (fun e2 he2 => h e2 (List.mem_cons_of_mem _ he2))

/-- After `find_entry k` on a sorted table, `next()` reaches the least
entry with key strictly greater than `k`. -/
theorem cursorNextAfter_eq_findGT {k : TKey} {T : Table}
    (hs : SortedT T) : cursorNextAfter k T = tableFindGT k T := by
  unfold cursorNextAfter
  cases hfe : tableFindLE k T with
  | none =>
    have hall := (tableFindLE_eq_none_iff hs).mp hfe
    cases T with
    | nil => rfl
    | cons e0 t =>
      unfold tableFindGT
      rw [if_pos (hall e0 (List.mem_cons_self _ _))]
      rfl
  | some p =>
    obtain ⟨hpmem, hple, hpmax⟩ := tableFindLE_some_spec hs hfe
    refine tableFindGT_ext ?_
    intro e he
    cases hpe : kLt p.1 e.1 with
    | true =>
      cases hke : kLt k e.1 with
      | true => rfl
      | false =>
        exfalso
        have := hpmax e he hke
        rw [hpe] at this
        cases this
    | false =>
      cases hke : kLt k e.1 with
      | false => rfl
      | true =>
        exfalso
        rcases kLt_total p.1 e.1 with h2 | h2 | h2
        · rw [h2] at hpe; cases hpe
        · rw [h2] at hple
          rw [hke] at hple
          cases hple
        · have h3 := kLt_trans hke h2
          rw [h3] at hple
          cases hple

/-- Entries of a sorted table are determined by their keys. -/
theorem SortedT_mem_unique {T : Table} (hs : SortedT T) {k : TKey}
    {v1 v2 : Str} (h1 : (k, v1) ∈ T) (h2 : (k, v2) ∈ T) : v1 = v2 := by
  induction T with
  | nil => simp at h1
  | cons e0 t ih =>
    obtain ⟨hhead, htail⟩ := SortedT_cons hs
    rcases List.mem_cons.mp h1 with he1 | hm1 <;>
      rcases List.mem_cons.mp h2 with he2 | hm2
    · rw [← he2] at he1
      exact (Prod.mk.injEq .. ▸ he1).2
    · exfalso
      have := hhead _ hm2
      rw [← he1] at this
      simp only [kLt_irrefl] at this
      cases this
    · exfalso
      have := hhead _ hm1
      rw [← he2] at this
      simp only [kLt_irrefl] at this
      cases this
    · exact ih htail hm1 hm2

/-! ## Per-slot chunk sequences -/

/-- The (first docid, tag) pairs of one slot's value chunks, in table
order. -/
def slotChunks (slot : Nat) : Table → List (Nat × Str)
  | [] => []
  | (TKey.chunk s d, tag) :: t =>
      if s = slot then (d, tag) :: slotChunks slot t else slotChunks slot t
  | (TKey.stats _, _) :: t => slotChunks slot t

theorem mem_slotChunks {slot f : Nat} {tag : Str} :
    ∀ {T : Table}, ((f, tag) ∈ slotChunks slot T ↔
      (TKey.chunk slot f, tag) ∈ T) := by
  intro T
  induction T with
  | nil => simp [slotChunks]
  | cons e0 t ih =>
    obtain ⟨k0, v0⟩ := e0
    cases k0 with
    | stats s2 => simp [slotChunks, ih]
    | chunk s2 d2 =>
      by_cases hs2 : s2 = slot
      · subst hs2
        simp [slotChunks, ih, Prod.ext_iff]
      · have hns : slot ≠ s2 := fun h => hs2 h.symm
        simp [slotChunks, hs2, ih, hns, Prod.ext_iff]

theorem slotChunks_pairwise (slot : Nat) :
    ∀ {T : Table}, SortedT T →
      (slotChunks slot T).Pairwise (fun a b => a.1 < b.1) := by
  intro T
  induction T with
  | nil => intro _; simp [slotChunks]
  | cons e0 t ih =>
    intro hs
    obtain ⟨hhead, htail⟩ := SortedT_cons hs
    obtain ⟨k0, v0⟩ := e0
    cases k0 with
    | stats s2 => exact ih htail
    | chunk s2 d2 =>
      by_cases hs2 : s2 = slot
      · subst hs2
        simp only [slotChunks, eq_self_iff_true, if_true]
        rw [List.pairwise_cons]
        refine ⟨?_, ih htail⟩
        intro c hc
        obtain ⟨f2, tag2⟩ := c
        have hmem := mem_slotChunks.mp hc
        have := hhead _ hmem
        simpa [kLt] using this
      · simp only [slotChunks, if_neg hs2]
        exact ih htail

/-- The greatest chunk of the slot whose first docid is at most `did`. -/
def predChunk (slot did : Nat) (T : Table) : Option (Nat × Str) :=
  ((slotChunks slot T).filter (fun c => c.1 ≤ did)).getLast?

/-- The first docid of the earliest chunk of the slot beyond `did`. -/
def nextChunkFirst (slot did : Nat) (T : Table) : Option (Nat × Str) :=
  ((slotChunks slot T).filter (fun c => did < c.1)).head?

theorem mem_of_getLast?_eq {α : Type} {l : List α} {m : α}
    (hm : l.getLast? = some m) : m ∈ l := by
  have hx : m ∈ l.getLast? := by rw [hm]; rfl
  obtain ⟨h, heq⟩ := List.mem_getLast?_eq_getLast hx
  rw [heq]
  exact List.getLast_mem h

theorem pairwise_getLast_le {l : List (Nat × Str)} :
    l.Pairwise (fun a b => a.1 < b.1) → ∀ {x m : Nat × Str},
      x ∈ l → l.getLast? = some m → x.1 ≤ m.1 := by
  induction l with
  | nil => intro _ x m hx; simp at hx
  | cons e t ih =>
    intro hp x m hx hm
    rw [List.pairwise_cons] at hp
    cases t with
    | nil =>
      simp at hm hx
      subst hm
      subst hx
      exact le_refl _
    | cons e2 t2 =>
      rw [List.getLast?_cons_cons] at hm
      have hmmem : m ∈ e2 :: t2 := mem_of_getLast?_eq hm
      rcases List.mem_cons.mp hx with rfl | hx2
      · exact le_of_lt (hp.1 m hmmem)
      · exact ih hp.2 hx2 hm

theorem pairwise_head_le {l : List (Nat × Str)}
    (hp : l.Pairwise (fun a b => a.1 < b.1)) {x m : Nat × Str}
    (hx : x ∈ l) (hm : l.head? = some m) : m.1 ≤ x.1 := by
  cases l with
  | nil => simp at hx
  | cons e t =>
    simp only [List.head?_cons, Option.some.injEq] at hm
    subst hm
    rw [List.pairwise_cons] at hp
    rcases List.mem_cons.mp hx with rfl | hx2
    · exact le_refl _
    · exact le_of_lt (hp.1 x hx2)

theorem kLt_chunk_chunk_same {s a b : Nat} :
    kLt (.chunk s a) (.chunk s b) = decide (a < b) := by
  simp [kLt]

theorem kLt_chunk_false_cases {s did s2 d2 : Nat}
    (h : kLt (.chunk s did) (.chunk s2 d2) = false) :
    s2 < s ∨ (s2 = s ∧ d2 ≤ did) := by
  simp [kLt] at h
  omega

/-- When the slot has a chunk at or below `did`, `find_entry` lands on the
greatest such chunk. -/
theorem findLE_of_predChunk_some {slot did : Nat} {T : Table}
    {f : Nat} {tag : Str} (hs : SortedT T)
    (hp : predChunk slot did T = some (f, tag)) :
    tableFindLE (.chunk slot did) T = some (.chunk slot f, tag) ∧ f ≤ did := by
  have hmem0 : (f, tag) ∈ (slotChunks slot T).filter (fun c => c.1 ≤ did) :=
    mem_of_getLast?_eq hp
  have hmem1 := List.mem_of_mem_filter hmem0
  have hfle : f ≤ did := by
    have := List.of_mem_filter hmem0
    simpa using this
  have hmemT : (TKey.chunk slot f, tag) ∈ T := mem_slotChunks.mp hmem1
  refine ⟨tableFindLE_eq_some hs hmemT (by simp [kLt]; omega) ?_, hfle⟩
  intro e2 he2 hle2
  obtain ⟨k2, v2⟩ := e2
  cases k2 with
  | stats s2 => rfl
  | chunk s2 d2 =>
    rcases kLt_chunk_false_cases hle2 with h | ⟨heq, hd2⟩
    · simp [kLt]
      omega
    · rw [heq] at he2 ⊢
      have hm2 : (d2, v2) ∈ (slotChunks slot T).filter (fun c => c.1 ≤ did) := by
        rw [List.mem_filter]
        exact ⟨mem_slotChunks.mpr he2, by simpa using hd2⟩
      have := pairwise_getLast_le
        (List.Pairwise.sublist (List.filter_sublist _)
          (slotChunks_pairwise slot hs)) hm2 hp
      simp only at this
      simp [kLt]
      omega

/-- When the slot has no chunk at or below `did`, whatever `find_entry`
lands on (if anything) is not a value chunk of this slot and is not the
sought key. -/
theorem findLE_of_predChunk_none {slot did : Nat} {T : Table}
    (hs : SortedT T) (hp : predChunk slot did T = none) :
    ∀ e, tableFindLE (.chunk slot did) T = some e →
      e.1 ≠ TKey.chunk slot did ∧ docid_from_key slot e.1 = 0 := by
  intro e hfe
  obtain ⟨hmem, hle, _⟩ := tableFindLE_some_spec hs hfe
  have hnomem : ∀ d2 v2, (TKey.chunk slot d2, v2) ∈ T → ¬ d2 ≤ did := by
    intro d2 v2 hm2 hd2
    have hfm : (d2, v2) ∈ (slotChunks slot T).filter (fun c => c.1 ≤ did) := by
      rw [List.mem_filter]
      exact ⟨mem_slotChunks.mpr hm2, by simpa using hd2⟩
    unfold predChunk at hp
    rw [List.getLast?_eq_none_iff] at hp
    rw [hp] at hfm
    simp at hfm
  obtain ⟨k2, v2⟩ := e
  cases k2 with
  | stats s2 => exact ⟨by simp, rfl⟩
  | chunk s2 d2 =>
    rcases kLt_chunk_false_cases hle with h | ⟨rfl, hd2⟩
    · refine ⟨?_, ?_⟩
      · intro he
        injection he with h1 h2
        omega
      · simp only [docid_from_key]
        rw [if_neg (by omega)]
    · exact absurd hd2 (hnomem d2 v2 hmem)

/-- The cursor's `next()` after the seek: the next chunk of this slot when
one exists beyond `did`, otherwise nothing this slot owns. -/
theorem nextAfter_of_nextChunkFirst_some {slot did : Nat} {T : Table}
    {f2 : Nat} {tag2 : Str} (hs : SortedT T)
    (hn : nextChunkFirst slot did T = some (f2, tag2)) :
    cursorNextAfter (.chunk slot did) T = some (.chunk slot f2, tag2)
      ∧ did < f2 := by
  have hmem0 : (f2, tag2) ∈ (slotChunks slot T).filter (fun c => did < c.1) := by
    unfold nextChunkFirst at hn
    exact List.mem_of_mem_head? hn
  have hmem1 := List.mem_of_mem_filter hmem0
  have hgt : did < f2 := by
    have := List.of_mem_filter hmem0
    simpa using this
  have hmemT : (TKey.chunk slot f2, tag2) ∈ T := mem_slotChunks.mp hmem1
  rw [cursorNextAfter_eq_findGT hs]
  refine ⟨tableFindGT_eq_some hs hmemT (by simp [kLt]; omega) ?_, hgt⟩
  intro e2 he2 hgt2
  obtain ⟨k2, v2⟩ := e2
  cases k2 with
  | stats s2 => simp [kLt] at hgt2
  | chunk s2 d2 =>
    simp only [kLt] at hgt2 ⊢
    simp at hgt2
    rcases hgt2 with h | ⟨rfl, hd2⟩
    · simp
      omega
    · have hm2 : (d2, v2) ∈ (slotChunks slot T).filter (fun c => did < c.1) := by
        rw [List.mem_filter]
        exact ⟨mem_slotChunks.mpr he2, by simpa using hd2⟩
      have := pairwise_head_le
        (List.Pairwise.sublist (List.filter_sublist _)
          (slotChunks_pairwise slot hs)) hm2 hn
      simp only at this
      simp
      omega

theorem tableFindGT_some_spec {k : TKey} {e : TKey × Str} :
    ∀ {T : Table}, tableFindGT k T = some e →
      e ∈ T ∧ kLt k e.1 = true := by
  intro T
  induction T with
  | nil => intro h; cases h
  | cons e0 t ih =>
    intro h
    obtain ⟨k0, v0⟩ := e0
    unfold tableFindGT at h
    by_cases h1 : kLt k k0 = true
    · rw [if_pos h1] at h
      cases h
      exact ⟨List.mem_cons_self _ _, h1⟩
    · rw [if_neg h1] at h
      obtain ⟨hm, hgt⟩ := ih h
      exact ⟨List.mem_cons_of_mem _ hm, hgt⟩

/-- With no later chunk of this slot, whatever `next()` reaches does not
decode to a chunk of this slot. -/
theorem nextAfter_of_nextChunkFirst_none {slot did : Nat} {T : Table}
    (hs : SortedT T) (hn : nextChunkFirst slot did T = none) :
    ∀ e, cursorNextAfter (.chunk slot did) T = some e →
      docid_from_key slot e.1 = 0 := by
  intro e he
  rw [cursorNextAfter_eq_findGT hs] at he
  obtain ⟨hmem, hgt⟩ := tableFindGT_some_spec he
  have hnomem : ∀ d2 v2, (TKey.chunk slot d2, v2) ∈ T → ¬ did < d2 := by
    intro d2 v2 hm2 hd2
    have hfm : (d2, v2) ∈ (slotChunks slot T).filter (fun c => did < c.1) := by
      rw [List.mem_filter]
      exact ⟨mem_slotChunks.mpr hm2, by simpa using hd2⟩
    unfold nextChunkFirst at hn
    rw [List.head?_eq_none_iff] at hn
    rw [hn] at hfm
    simp at hfm
  obtain ⟨k2, v2⟩ := e
  cases k2 with
  | stats s2 => rfl
  | chunk s2 d2 =>
    simp only [docid_from_key]
    by_cases hs2 : s2 = slot
    · subst hs2
      exfalso
      have hd2 : did < d2 := by
        simp [kLt] at hgt
        omega
      exact hnomem d2 v2 hmem hd2
    · rw [if_neg hs2]

/-! ## Reader correctness over encoded chunks -/

/-- The reader is positioned on `cur` with `rest` still encoded ahead of
it. -/
def Represents (r : ValueChunkReader) (cur : Entry) (rest : List Entry) :
    Prop :=
  r.did = cur.1 ∧ r.value = cur.2 ∧ r.rem = some (encodeRest cur.1 rest)

theorem Represents.not_at_end {r : ValueChunkReader} {cur : Entry}
    {rest : List Entry} (h : Represents r cur rest) : r.at_end = false := by
  unfold ValueChunkReader.at_end
  rw [h.2.2]
  rfl

theorem assign_encodeChunk {d : Nat} {v : Str} {es : List Entry}
    (hv : v.length ≤ sizeMax) :
    ValueChunkReader.assign (encodeChunk ((d, v) :: es)) d =
      .ok ⟨some (encodeRest d es), d, v⟩ := by
  unfold ValueChunkReader.assign encodeChunk
  rw [unpack_string_pack v (encodeRest d es) hv]

theorem Represents_assign {d : Nat} {v : Str} {es : List Entry}
    (hv : v.length ≤ sizeMax) :
    ∃ r, ValueChunkReader.assign (encodeChunk ((d, v) :: es)) d = .ok r
      ∧ Represents r (d, v) es := by
  exact ⟨_, assign_encodeChunk hv, rfl, rfl, rfl⟩

theorem next_Represents_nil {r : ValueChunkReader} {cur : Entry}
    (h : Represents r cur []) :
    r.next = .ok ⟨none, r.did, r.value⟩ := by
  unfold ValueChunkReader.next
  rw [h.2.2]
  rfl

theorem next_Represents_cons {r : ValueChunkReader} {cur : Entry}
    {d : Nat} {v : Str} {es : List Entry}
    (h : Represents r cur ((d, v) :: es)) (hlt : cur.1 < d)
    (hd : d ≤ u32Max) (hv : v.length ≤ sizeMax) :
    ∃ r2, r.next = .ok r2 ∧ Represents r2 (d, v) es := by
  obtain ⟨hdid, hval, hrem⟩ := h
  have henc : encodeRest cur.1 ((d, v) :: es) =
      pack_uint (d - cur.1 - 1) ++ (pack_string v ++ encodeRest d es) := by
    rw [show encodeRest cur.1 ((d, v) :: es) =
      pack_uint (d - cur.1 - 1) ++ pack_string v ++ encodeRest d es from rfl]
    rw [List.append_assoc]
  obtain ⟨b, bs, hpu⟩ : ∃ b bs, pack_uint (d - cur.1 - 1) = b :: bs := by
    cases hq : pack_uint (d - cur.1 - 1) with
    | nil => exact absurd hq (pack_uint_ne_nil _)
    | cons b bs => exact ⟨b, bs, rfl⟩
  have hdelta : d - cur.1 - 1 ≤ u32Max := by
    unfold u32Max at hd ⊢
    omega
  have hu : unpack_uint u32Max (b :: bs ++ (pack_string v ++ encodeRest d es)) =
      .ok (d - cur.1 - 1, pack_string v ++ encodeRest d es) := by
    rw [← hpu]
    exact unpack_uint_pack _ _ _ hdelta
  refine ⟨⟨some (encodeRest d es), (r.did + (d - cur.1 - 1) + 1) % 2 ^ 32, v⟩,
    ?_, ?_, rfl, rfl⟩
  · have hrem2 : r.rem =
        some (b :: (bs ++ (pack_string v ++ encodeRest d es))) := by
      rw [hrem, henc, hpu]
      rfl
    have hu2 : unpack_uint u32Max (b :: (bs ++ (pack_string v ++ encodeRest d es))) =
        Except.ok (d - cur.1 - 1, pack_string v ++ encodeRest d es) := by
      rw [← List.cons_append]
      exact hu
    simp only [ValueChunkReader.next, hrem2, hu2,
      unpack_string_pack v (encodeRest d es) hv]
  · show (r.did + (d - cur.1 - 1) + 1) % 2 ^ 32 = d
    rw [hdid]
    have : cur.1 + (d - cur.1 - 1) + 1 = d := by omega
    rw [this]
    unfold u32Max at hd
    omega

/-! ## The writer layer: the tag built by `append_to_stream` -/

/-- The docid of the last of `es`, or `p` when `es` is empty. -/
def lastDidFrom (p : Nat) (es : List Entry) : Nat :=
  (es.getLast?.map Prod.fst).getD p

/-- The docid of a chunk's last entry (`prev_did` after the writer has
emitted the chunk so far). -/
def chunkLast (c : List Entry) : Nat := lastDidFrom 0 c

/-- The docid of a chunk's first entry (the docid carried by its key). -/
def chunkFirst (c : List Entry) : Nat := (c.head?.map Prod.fst).getD 0

theorem lastDidFrom_cons (p : Nat) (e : Entry) (es : List Entry) :
    lastDidFrom p (e :: es) = lastDidFrom e.1 es := by
  cases es with
  | nil => rfl
  | cons e2 t =>
    cases hL : (e2 :: t).getLast? with
    | none => simp at hL
    | some x =>
      unfold lastDidFrom
      rw [List.getLast?_cons_cons, hL]
      rfl

theorem chunkLast_cons (e : Entry) (es : List Entry) :
    chunkLast (e :: es) = lastDidFrom e.1 es := lastDidFrom_cons 0 e es

theorem encodeRest_append :
    ∀ (es : List Entry) (p d : Nat) (v : Str),
      encodeRest p (es ++ [(d, v)]) =
        encodeRest p es ++
          (pack_uint (d - lastDidFrom p es - 1) ++ pack_string v) := by
  intro es
  induction es with
  | nil =>
    intro p d v
    simp [encodeRest, lastDidFrom]
  | cons e t ih =>
    intro p d v
    obtain ⟨d0, v0⟩ := e
    have h1 : encodeRest p (((d0, v0) :: t) ++ [(d, v)]) =
        pack_uint (d0 - p - 1) ++ pack_string v0 ++
          encodeRest d0 (t ++ [(d, v)]) := rfl
    have h2 : encodeRest p ((d0, v0) :: t) =
        pack_uint (d0 - p - 1) ++ pack_string v0 ++ encodeRest d0 t := rfl
    rw [h1, h2, ih d0 d v, lastDidFrom_cons]
    simp [List.append_assoc]

theorem encodeChunk_append {c : List Entry} (hc : c ≠ []) (d : Nat) (v : Str) :
    encodeChunk (c ++ [(d, v)]) =
      encodeChunk c ++ (pack_uint (d - chunkLast c - 1) ++ pack_string v) := by
  obtain ⟨e0, t, rfl⟩ : ∃ e0 t, c = e0 :: t := by
    cases c with
    | nil => exact absurd rfl hc
    | cons e0 t => exact ⟨e0, t, rfl⟩
  obtain ⟨d0, v0⟩ := e0
  have h1 : encodeChunk (((d0, v0) :: t) ++ [(d, v)]) =
      pack_string v0 ++ encodeRest d0 (t ++ [(d, v)]) := rfl
  have h2 : encodeChunk ((d0, v0) :: t) =
      pack_string v0 ++ encodeRest d0 t := rfl
  rw [h1, h2, encodeRest_append t d0 d v, chunkLast_cons]
  simp [List.append_assoc]

theorem encodeChunk_singleton (d : Nat) (v : Str) :
    encodeChunk [(d, v)] = pack_string v := by
  simp [encodeChunk, encodeRest]

theorem pack_string_ne_nil (v : Str) : pack_string v ≠ [] := by
  unfold pack_string
  intro h
  rcases List.append_eq_nil.mp h with ⟨h1, _⟩
  exact pack_uint_ne_nil _ h1

theorem encodeChunk_ne_nil {c : List Entry} (hc : c ≠ []) :
    encodeChunk c ≠ [] := by
  obtain ⟨e0, t, rfl⟩ : ∃ e0 t, c = e0 :: t := by
    cases c with
    | nil => exact absurd rfl hc
    | cons e0 t => exact ⟨e0, t, rfl⟩
  show pack_string e0.2 ++ encodeRest e0.1 t ≠ []
  intro h
  rcases List.append_eq_nil.mp h with ⟨h1, _⟩
  exact pack_string_ne_nil _ h1

/-- The writer's invariant between appends: the tag is the encoding of the
open chunk `c`, it is still below the flush threshold, and the recorded
first/previous docids agree with `c`. -/
def WChunk (u : UpdState) (c : List Entry) : Prop :=
  u.tag = encodeChunk c ∧ u.tag.length < CHUNK_SIZE_THRESHOLD ∧
    (c ≠ [] → u.new_first_did = chunkFirst c ∧ u.prev_did = chunkLast c)

theorem WChunk_nil_tag {u : UpdState} (h : WChunk u []) : u.tag = [] := h.1

/-- `append_to_stream` below the threshold: the entry joins the open chunk
and nothing is written. -/
theorem append_to_stream_small {u : UpdState} {c : List Entry}
    (slot did : Nat) (value : Str) (T : Table)
    (hw : WChunk u c) (hgt : c ≠ [] → chunkLast c < did)
    (hlen : (encodeChunk (c ++ [(did, value)])).length < CHUNK_SIZE_THRESHOLD) :
    append_to_stream slot did value u T =
      ({ u with new_first_did := chunkFirst (c ++ [(did, value)]),
                prev_did := did,
                tag := encodeChunk (c ++ [(did, value)]) }, T) ∧
    WChunk { u with new_first_did := chunkFirst (c ++ [(did, value)]),
                    prev_did := did,
                    tag := encodeChunk (c ++ [(did, value)]) }
      (c ++ [(did, value)]) := by
  obtain ⟨htag, hlt, hfd⟩ := hw
  constructor
  case right =>
    refine ⟨rfl, hlen, fun _ => ⟨rfl, ?_⟩⟩
    show did = chunkLast (c ++ [(did, value)])
    simp [chunkLast, lastDidFrom, List.getLast?_concat]
  unfold append_to_stream
  cases c with
  | nil =>
    have hemp : u.tag.isEmpty = true := by rw [htag]; rfl
    rw [if_pos hemp]
    rw [if_neg (by
      simp only [List.nil_append, encodeChunk_singleton] at hlen ⊢
      omega)]
    simp only [List.nil_append, encodeChunk_singleton]
    rfl
  | cons e0 t =>
    have hnn : (e0 :: t) ≠ ([] : List Entry) := by simp
    have hemp : u.tag.isEmpty = false := by
      rw [htag]
      cases hx : encodeChunk (e0 :: t) with
      | nil => exact absurd hx (encodeChunk_ne_nil hnn)
      | cons a b => rfl
    have hne : ¬ (u.tag.isEmpty = true) := by rw [hemp]; simp
    rw [if_neg hne]
    have htag2 : u.tag ++ pack_uint (did - u.prev_did - 1) ++
        pack_string value = encodeChunk ((e0 :: t) ++ [(did, value)]) := by
      rw [htag, (hfd hnn).2, encodeChunk_append hnn, List.append_assoc]
    rw [if_neg (by
      show ¬ CHUNK_SIZE_THRESHOLD ≤ (u.tag ++ _ ++ _).length
      rw [htag2]
      omega)]
    have hfst : chunkFirst ((e0 :: t) ++ [(did, value)]) = chunkFirst (e0 :: t) := by
      simp [chunkFirst]
    rw [htag2, hfst, ← (hfd hnn).1]

theorem isEmpty_false_of_ne_nil {l : Str} (h : l ≠ []) : l.isEmpty = false := by
  cases l with
  | nil => exact absurd rfl h
  | cons a t => rfl

/-- `write_tag` with a non-empty tag stores it under `new_first_did`. -/
theorem write_tag_nonempty {u : UpdState} (slot : Nat) (T : Table)
    (h : u.tag ≠ []) :
    write_tag slot u T =
      ({ u with first_did := 0, tag := [] },
       tableAdd (.chunk slot u.new_first_did) u.tag
         (if u.first_did ≠ 0 ∧ u.new_first_did ≠ u.first_did
          then tableDel (.chunk slot u.first_did) T else T)) := by
  unfold write_tag
  simp [isEmpty_false_of_ne_nil h]

/-- `write_tag` with an empty tag stores nothing. -/
theorem write_tag_empty {u : UpdState} (slot : Nat) (T : Table)
    (h : u.tag = []) :
    write_tag slot u T =
      ({ u with first_did := 0, tag := [] },
       if u.first_did ≠ 0 ∧ u.new_first_did ≠ u.first_did
       then tableDel (.chunk slot u.first_did) T else T) := by
  unfold write_tag
  simp [h]

/-- `append_to_stream` at or above the threshold: the join is immediately
flushed through `write_tag`. -/
theorem append_to_stream_big {u : UpdState} {c : List Entry}
    (slot did : Nat) (value : Str) (T : Table)
    (hw : WChunk u c) (hgt : c ≠ [] → chunkLast c < did)
    (hlen : CHUNK_SIZE_THRESHOLD ≤ (encodeChunk (c ++ [(did, value)])).length) :
    append_to_stream slot did value u T =
      write_tag slot { u with new_first_did := chunkFirst (c ++ [(did, value)]),
                              prev_did := did,
                              tag := encodeChunk (c ++ [(did, value)]) } T := by
  obtain ⟨htag, hlt, hfd⟩ := hw
  unfold append_to_stream
  cases c with
  | nil =>
    have hemp : u.tag.isEmpty = true := by rw [htag]; rfl
    rw [if_pos hemp]
    rw [if_pos (by
      simp only [List.nil_append, encodeChunk_singleton] at hlen ⊢
      omega)]
    simp only [List.nil_append, encodeChunk_singleton]
    rfl
  | cons e0 t =>
    have hnn : (e0 :: t) ≠ ([] : List Entry) := by simp
    have hemp : u.tag.isEmpty = false := by
      rw [htag]
      exact isEmpty_false_of_ne_nil (encodeChunk_ne_nil hnn)
    have hne : ¬ (u.tag.isEmpty = true) := by rw [hemp]; simp
    rw [if_neg hne]
    have htag2 : u.tag ++ pack_uint (did - u.prev_did - 1) ++
        pack_string value = encodeChunk ((e0 :: t) ++ [(did, value)]) := by
      rw [htag, (hfd hnn).2, encodeChunk_append hnn, List.append_assoc]
    rw [if_pos (by
      show CHUNK_SIZE_THRESHOLD ≤ (u.tag ++ _ ++ _).length
      rw [htag2]
      omega)]
    have hfst : chunkFirst ((e0 :: t) ++ [(did, value)]) =
        chunkFirst (e0 :: t) := by
      simp [chunkFirst]
    rw [htag2, hfst, ← (hfd hnn).1]

/-! ## The greedy chunking performed by the writer -/

/-- Push one entry onto the open chunk; a result of `some full` means the
grown chunk reached the threshold and was flushed. -/
def chunkPush (c : List Entry) (e : Entry) :
    List Entry × Option (List Entry) :=
  let c2 := c ++ [e]
  if (encodeChunk c2).length < CHUNK_SIZE_THRESHOLD then (c2, none)
  else ([], some c2)

/-- One step of the writer's greedy chunking. -/
def chunkStep (acc : List (List Entry) × List Entry) (e : Entry) :
    List (List Entry) × List Entry :=
  match chunkPush acc.2 e with
  | (c2, none) => (acc.1, c2)
  | (_, some full) => (acc.1 ++ [full], [])

/-- The flushed chunks and final open chunk after feeding `es` to the
writer whose open chunk is `c`. -/
def chunkFoldFrom (c : List Entry) (es : List Entry) :
    List (List Entry) × List Entry :=
  es.foldl chunkStep ([], c)

/-- All chunks after the writer is destroyed: the final open chunk joins
the flushed ones when non-empty. -/
def chunkifyFrom (c : List Entry) (es : List Entry) : List (List Entry) :=
  let r := chunkFoldFrom c es
  if r.2.isEmpty then r.1 else r.1 ++ [r.2]

/-- Insert one chunk of the slot into the table. -/
def addChunk (slot : Nat) (T : Table) (c : List Entry) : Table :=
  tableAdd (.chunk slot (chunkFirst c)) (encodeChunk c) T

/-- Insert a list of chunks of the slot into the table. -/
def addChunks (slot : Nat) (cs : List (List Entry)) (T : Table) : Table :=
  cs.foldl (addChunk slot) T

theorem chunkStep_none {c c2 : List Entry} {e : Entry}
    (h : chunkPush c e = (c2, none)) (cs0 : List (List Entry)) :
    chunkStep (cs0, c) e = (cs0, c2) := by
  unfold chunkStep
  simp only [h]

theorem chunkStep_some {c x full : List Entry} {e : Entry}
    (h : chunkPush c e = (x, some full)) (cs0 : List (List Entry)) :
    chunkStep (cs0, c) e = (cs0 ++ [full], []) := by
  unfold chunkStep
  simp only [h]

theorem chunkFoldFrom_acc :
    ∀ (es : List Entry) (cs0 : List (List Entry)) (c : List Entry),
      es.foldl chunkStep (cs0, c) =
        (cs0 ++ (chunkFoldFrom c es).1, (chunkFoldFrom c es).2) := by
  intro es
  induction es with
  | nil => intro cs0 c; simp [chunkFoldFrom]
  | cons e t ih =>
    intro cs0 c
    rw [List.foldl_cons]
    have hcf : chunkFoldFrom c (e :: t) =
        t.foldl chunkStep (chunkStep ([], c) e) := by
      unfold chunkFoldFrom
      rw [List.foldl_cons]
    cases hp : chunkPush c e with
    | mk c2 o =>
      cases o with
      | none =>
        rw [chunkStep_none hp cs0, ih]
        rw [hcf, chunkStep_none hp [], ih]
        simp
      | some full =>
        rw [chunkStep_some hp cs0, ih]
        rw [hcf, chunkStep_some hp [], ih]
        simp

theorem chunkPush_none {c c2 : List Entry} {e : Entry}
    (h : chunkPush c e = (c2, none)) :
    c2 = c ++ [e] ∧ (encodeChunk (c ++ [e])).length < CHUNK_SIZE_THRESHOLD := by
  simp only [chunkPush] at h
  split at h
  · rename_i hl
    injection h with h1 h2
    exact ⟨h1.symm, hl⟩
  · injection h with h1 h2
    exact absurd h2 (by simp)

theorem chunkPush_some {c x full : List Entry} {e : Entry}
    (h : chunkPush c e = (x, some full)) :
    full = c ++ [e] ∧
      CHUNK_SIZE_THRESHOLD ≤ (encodeChunk (c ++ [e])).length ∧ x = [] := by
  simp only [chunkPush] at h
  split at h
  · injection h with h1 h2
    exact absurd h2 (by simp)
  · rename_i hl
    injection h with h1 h2
    injection h2 with h3
    exact ⟨h3.symm, by omega, h1.symm⟩

theorem chunkFoldFrom_cons_none {c c2 : List Entry} {e : Entry}
    (t : List Entry) (h : chunkPush c e = (c2, none)) :
    chunkFoldFrom c (e :: t) = chunkFoldFrom c2 t := by
  show (e :: t).foldl chunkStep ([], c) = _
  rw [List.foldl_cons, chunkStep_none h []]
  rfl

theorem chunkFoldFrom_cons_some {c x full : List Entry} {e : Entry}
    (t : List Entry) (h : chunkPush c e = (x, some full)) :
    chunkFoldFrom c (e :: t) =
      (full :: (chunkFoldFrom [] t).1, (chunkFoldFrom [] t).2) := by
  show (e :: t).foldl chunkStep ([], c) = _
  rw [List.foldl_cons, chunkStep_some h [], chunkFoldFrom_acc]
  simp

theorem chunkLast_mem {c : List Entry} (hc : c ≠ []) :
    ∃ x ∈ c, x.1 = chunkLast c := by
  cases hL : c.getLast? with
  | none =>
    rw [List.getLast?_eq_none_iff] at hL
    exact absurd hL hc
  | some x =>
    refine ⟨x, mem_of_getLast?_eq hL, ?_⟩
    unfold chunkLast lastDidFrom
    rw [hL]
    rfl

/-- One append in the fresh-writer regime (`first_did = 0`): the table
gains exactly the chunks that the greedy fold flushes, and the writer
invariant continues with the fold's open chunk. -/
theorem append_to_stream_WChunk {u : UpdState} {c : List Entry}
    (slot : Nat) (e : Entry) (T : Table)
    (hw : WChunk u c) (hfd0 : u.first_did = 0)
    (hgt : c ≠ [] → chunkLast c < e.1) :
    ∃ u2, append_to_stream slot e.1 e.2 u T =
        (u2, addChunks slot (chunkFoldFrom c [e]).1 T) ∧
      WChunk u2 (chunkFoldFrom c [e]).2 ∧
      u2.reader = u.reader ∧ u2.ctag = u.ctag ∧
      u2.last_allowed_did = u.last_allowed_did ∧ u2.first_did = 0 := by
  cases hp : chunkPush c e with
  | mk c2 o =>
    cases o with
    | none =>
      obtain ⟨rfl, hlen⟩ := chunkPush_none hp
      obtain ⟨heq, hW⟩ := append_to_stream_small slot e.1 e.2 T hw hgt hlen
      rw [chunkFoldFrom_cons_none [] hp]
      refine ⟨(append_to_stream slot e.1 e.2 u T).1, ?_, ?_, ?_, ?_, ?_, ?_⟩
      · rw [heq]
        rfl
      · rw [heq]
        exact hW
      · rw [heq]
      · rw [heq]
      · rw [heq]
      · rw [heq]
        exact hfd0
    | some full =>
      obtain ⟨rfl, hlen, rfl⟩ := chunkPush_some hp
      have heq := append_to_stream_big slot e.1 e.2 T hw hgt hlen
      rw [chunkFoldFrom_cons_some [] hp]
      have hwt := @write_tag_nonempty
        { u with new_first_did := chunkFirst (c ++ [(e.1, e.2)]),
                 prev_did := e.1, tag := encodeChunk (c ++ [(e.1, e.2)]) }
        slot T (encodeChunk_ne_nil (by simp))
      refine ⟨(append_to_stream slot e.1 e.2 u T).1, ?_, ?_, ?_, ?_, ?_, ?_⟩
      · rw [heq, hwt]
        rw [if_neg (by simp [hfd0])]
        rfl
      · rw [heq, hwt]
        exact ⟨rfl, by show 0 < CHUNK_SIZE_THRESHOLD; decide,
          fun h => absurd rfl h⟩
      · rw [heq, hwt]
      · rw [heq, hwt]
      · rw [heq, hwt]
      · rw [heq, hwt]

theorem exBind_pure {α β ε : Type} (a : α) (f : α → Except ε β) :
    ((pure a : Except ε α) >>= f) = f a := rfl

theorem copyLoop_at_end {u : UpdState} (slot target : Nat) (T : Table)
    (h : u.reader.at_end = true) : copyLoop slot target u T = .ok (u, T) := by
  show copyLoopF (readerMeasure u.reader + 1) slot target u T = _
  simp only [copyLoopF]
  rw [if_pos h]

theorem drainLoop_at_end {u : UpdState} (slot : Nat) (T : Table)
    (h : u.reader.at_end = true) : drainLoop slot u T = .ok (u, T) := by
  show drainLoopF (readerMeasure u.reader + 1) slot u T = _
  simp only [drainLoopF]
  rw [if_pos h]

/-- `update` in the append regime: the reader is exhausted and the region
extends to `HONEY_MAX_DOCID`, so an edit only appends (or, when empty, does
nothing). -/
theorem update_append_regime {u : UpdState} (slot did : Nat) (value : Str)
    (T : Table) (hend : u.reader.at_end = true)
    (hla : u.last_allowed_did = u32Max) (hdid : did ≤ u32Max) :
    update slot did value u T =
      .ok (if value.isEmpty then (u, T)
           else append_to_stream slot did value u T) := by
  unfold update
  have hc1 : ¬ (u.last_allowed_did ≠ 0 ∧ u.last_allowed_did < did) := by
    rw [hla]
    intro hc
    omega
  have hc2 : ¬ (u.last_allowed_did = 0) := by
    rw [hla]
    simp only [u32Max]
    omega
  have hc3 : ¬ (u.reader.at_end = false ∧ u.reader.did = did) := by
    rw [hend]
    simp
  rw [if_neg hc1, exBind_pure]
  simp only []
  rw [if_neg hc2, exBind_pure]
  simp only []
  rw [copyLoop_at_end slot did T hend, exBind_ok]
  simp only []
  rw [if_neg hc3, exBind_pure]
  by_cases hv : value.isEmpty
  · rw [if_pos hv, if_pos hv]
    rfl
  · rw [if_neg hv, if_neg hv]
    rfl

/-- The first `update` on a slot with no stored chunks: the seek finds no
chunk of the slot, so the region becomes `[0, HONEY_MAX_DOCID]` with a
still-exhausted reader, and the edit at most appends. -/
theorem update_fresh_seek {u : UpdState} {T : Table} (slot did : Nat)
    (value : Str) (hs : SortedT T) (hend : u.reader.at_end = true)
    (hla : u.last_allowed_did = 0)
    (hpred : predChunk slot did T = none)
    (hnext : nextChunkFirst slot did T = none) :
    update slot did value u T =
      .ok (if value.isEmpty
           then ({ u with last_allowed_did := HONEY_MAX_DOCID,
                          new_first_did := 0, first_did := 0 }, T)
           else append_to_stream slot did value
             { u with last_allowed_did := HONEY_MAX_DOCID,
                      new_first_did := 0, first_did := 0 } T) := by
  unfold update
  have hc1 : ¬ (u.last_allowed_did ≠ 0 ∧ u.last_allowed_did < did) := by
    rw [hla]
    intro hc
    exact hc.1 rfl
  rw [if_neg hc1, exBind_pure]
  simp only []
  rw [if_pos hla]
  have hla2 : ∀ e2, cursorNextAfter (TKey.chunk slot did) T = some e2 →
      (if docid_from_key slot e2.1 ≠ 0 then docid_from_key slot e2.1 - 1
       else HONEY_MAX_DOCID) = HONEY_MAX_DOCID := by
    intro e2 he2
    rw [if_neg (by
      have := nextAfter_of_nextChunkFirst_none hs hnext e2 he2
      rw [this]
      simp)]
  cases hfe : tableFindLE (.chunk slot did) T with
  | none =>
    cases hca : cursorNextAfter (TKey.chunk slot did) T with
    | none =>
      simp only [hfe, hca, exBind_pure]
      generalize hu1 : ({ u with last_allowed_did := HONEY_MAX_DOCID, new_first_did := 0, first_did := 0 } : UpdState) = u1
      have hend1 : u1.reader.at_end = true := by rw [← hu1]; exact hend
      rw [copyLoop_at_end slot did T hend1, exBind_ok]
      simp only []
      have hc3 : ¬ (u1.reader.at_end = false ∧ u1.reader.did = did) := by
        rw [hend1]
        simp
      rw [if_neg hc3]
      by_cases hv : value.isEmpty
      · rw [if_pos hv, if_pos hv]
        rfl
      · rw [if_neg hv, if_neg hv]
        rfl
    | some e2 =>
      simp only [hfe, hca, hla2 e2 hca, exBind_pure]
      generalize hu1 : ({ u with last_allowed_did := HONEY_MAX_DOCID, new_first_did := 0, first_did := 0 } : UpdState) = u1
      have hend1 : u1.reader.at_end = true := by rw [← hu1]; exact hend
      rw [copyLoop_at_end slot did T hend1, exBind_ok]
      simp only []
      have hc3 : ¬ (u1.reader.at_end = false ∧ u1.reader.did = did) := by
        rw [hend1]
        simp
      rw [if_neg hc3]
      by_cases hv : value.isEmpty
      · rw [if_pos hv, if_pos hv]
        rfl
      · rw [if_neg hv, if_neg hv]
        rfl
  | some e =>
    obtain ⟨hne, hdk⟩ := findLE_of_predChunk_none hs hpred e hfe
    have hfirst : (if e.1 = TKey.chunk slot did then did
        else docid_from_key slot e.1) = 0 := by
      rw [if_neg hne, hdk]
    have hz : ¬ ((0 : Nat) ≠ 0) := by simp
    cases hca : cursorNextAfter (TKey.chunk slot did) T with
    | none =>
      simp only [hfe, hfirst, hca, if_neg hz, exBind_pure]
      generalize hu1 : ({ u with last_allowed_did := HONEY_MAX_DOCID, new_first_did := 0, first_did := 0 } : UpdState) = u1
      have hend1 : u1.reader.at_end = true := by rw [← hu1]; exact hend
      rw [copyLoop_at_end slot did T hend1, exBind_ok]
      simp only []
      have hc3 : ¬ (u1.reader.at_end = false ∧ u1.reader.did = did) := by
        rw [hend1]
        simp
      rw [if_neg hc3]
      by_cases hv : value.isEmpty
      · rw [if_pos hv, if_pos hv]
        rfl
      · rw [if_neg hv, if_neg hv]
        rfl
    | some e2 =>
      simp only [hfe, hfirst, hca, if_neg hz, hla2 e2 hca, exBind_pure]
      generalize hu1 : ({ u with last_allowed_did := HONEY_MAX_DOCID, new_first_did := 0, first_did := 0 } : UpdState) = u1
      have hend1 : u1.reader.at_end = true := by rw [← hu1]; exact hend
      rw [copyLoop_at_end slot did T hend1, exBind_ok]
      simp only []
      have hc3 : ¬ (u1.reader.at_end = false ∧ u1.reader.did = did) := by
        rw [hend1]
        simp
      rw [if_neg hc3]
      by_cases hv : value.isEmpty
      · rw [if_pos hv, if_pos hv]
        rfl
      · rw [if_neg hv, if_neg hv]
        rfl

/-- Destroying the updater in the fresh regime writes out just the open
chunk (if any). -/
theorem updaterFinish_WChunk {u : UpdState} {c : List Entry} (slot : Nat)
    (T : Table) (hend : u.reader.at_end = true) (hw : WChunk u c)
    (hfd0 : u.first_did = 0) :
    updaterFinish slot u T = .ok (addChunks slot (chunkifyFrom c []) T) := by
  unfold updaterFinish
  rw [drainLoop_at_end slot T hend, exBind_ok]
  simp only []
  cases c with
  | nil =>
    have htag : u.tag = [] := hw.1
    rw [write_tag_empty slot T htag]
    rw [if_neg (by simp [hfd0])]
    rfl
  | cons e0 t =>
    have hnn : (e0 :: t) ≠ ([] : List Entry) := by simp
    have htag : u.tag ≠ [] := by
      rw [hw.1]
      exact encodeChunk_ne_nil hnn
    rw [write_tag_nonempty slot T htag]
    rw [if_neg (by simp [hfd0])]
    show Except.ok (tableAdd (.chunk slot u.new_first_did) u.tag T) = _
    rw [hw.1, (hw.2.2 hnn).1]
    rfl

theorem chunkFoldFrom_assoc (c : List Entry) (e : Entry) (es : List Entry) :
    chunkFoldFrom c (e :: es) =
      ((chunkFoldFrom c [e]).1 ++
        (chunkFoldFrom (chunkFoldFrom c [e]).2 es).1,
       (chunkFoldFrom (chunkFoldFrom c [e]).2 es).2) := by
  show (e :: es).foldl chunkStep ([], c) = _
  rw [List.foldl_cons]
  have h1 : chunkStep ([], c) e =
      ((chunkFoldFrom c [e]).1, (chunkFoldFrom c [e]).2) := rfl
  rw [h1]
  exact chunkFoldFrom_acc es _ _

theorem addChunks_append (slot : Nat) (a b : List (List Entry)) (T : Table) :
    addChunks slot (a ++ b) T = addChunks slot b (addChunks slot a T) := by
  unfold addChunks
  rw [List.foldl_append]

theorem chunkFoldFrom_snd_single (c : List Entry) (e : Entry) :
    (chunkFoldFrom c [e]).2 = c ++ [e] ∨ (chunkFoldFrom c [e]).2 = [] := by
  cases hp : chunkPush c e with
  | mk c2 o =>
    cases o with
    | none =>
      obtain ⟨rfl, _⟩ := chunkPush_none hp
      left
      rw [chunkFoldFrom_cons_none [] hp]
      rfl
    | some full =>
      right
      rw [chunkFoldFrom_cons_some [] hp]
      rfl

/-- Feeding a batch of edits to `update` in the fresh-writer regime: empty
values do nothing, non-empty values run the greedy chunk fold. -/
theorem updateFold_fresh (slot : Nat) :
    ∀ (edits : List (Nat × Str)) (u : UpdState) (T : Table) (c : List Entry),
      u.reader.at_end = true → u.last_allowed_did = u32Max →
      u.first_did = 0 → WChunk u c →
      List.Pairwise (fun a b : Entry => a.1 < b.1)
        (c ++ edits.filter (fun e => !e.2.isEmpty)) →
      (∀ e ∈ edits, e.1 ≤ u32Max) →
      ∃ u2, edits.foldlM (fun p e => update slot e.1 e.2 p.1 p.2) (u, T) =
          .ok (u2, addChunks slot
            (chunkFoldFrom c (edits.filter (fun e => !e.2.isEmpty))).1 T) ∧
        WChunk u2 (chunkFoldFrom c (edits.filter (fun e => !e.2.isEmpty))).2 ∧
        u2.reader = u.reader ∧ u2.last_allowed_did = u.last_allowed_did ∧
        u2.first_did = 0 := by
  intro edits
  induction edits with
  | nil =>
    intro u T c hend hla hfd hw hpw hdid
    exact ⟨u, rfl, hw, rfl, rfl, hfd⟩
  | cons e t ih =>
    intro u T c hend hla hfd hw hpw hdid
    have hdid1 : e.1 ≤ u32Max := hdid e (List.mem_cons_self e t)
    rw [List.foldlM_cons]
    simp only []
    rw [update_append_regime slot e.1 e.2 T hend hla hdid1, exBind_ok]
    by_cases hv : e.2.isEmpty
    · have hfil : (e :: t).filter (fun x => !x.2.isEmpty) =
          t.filter (fun x => !x.2.isEmpty) := by
        simp [List.filter_cons, hv]
      rw [if_pos hv, hfil]
      rw [hfil] at hpw
      exact ih u T c hend hla hfd hw hpw
        (fun x hx => hdid x (List.mem_cons_of_mem _ hx))
    · have hfil : (e :: t).filter (fun x => !x.2.isEmpty) =
          e :: t.filter (fun x => !x.2.isEmpty) := by
        simp [List.filter_cons, hv]
      rw [if_neg hv, hfil]
      rw [hfil] at hpw
      have hgt : c ≠ [] → chunkLast c < e.1 := by
        intro hc
        obtain ⟨x, hxmem, hxeq⟩ := chunkLast_mem hc
        rw [List.pairwise_append] at hpw
        have := hpw.2.2 x hxmem e (by simp)
        omega
      obtain ⟨u2, hstep, hw2, hrd2, hct2, hlaq2, hfd2⟩ :=
        append_to_stream_WChunk slot e T hw hfd hgt
      rw [hstep]
      have hend2 : u2.reader.at_end = true := by rw [hrd2]; exact hend
      have hla2 : u2.last_allowed_did = u32Max := by rw [hlaq2]; exact hla
      have hpw3 : List.Pairwise (fun a b : Entry => a.1 < b.1)
          ((chunkFoldFrom c [e]).2 ++ t.filter (fun x => !x.2.isEmpty)) := by
        rcases chunkFoldFrom_snd_single c e with h | h
        · rw [h]
          have : (c ++ [e]) ++ t.filter (fun x => !x.2.isEmpty) =
              c ++ e :: t.filter (fun x => !x.2.isEmpty) := by
            simp
          rw [this]
          exact hpw
        · rw [h]
          simp only [List.nil_append]
          have hsub : List.Sublist (t.filter (fun x => !x.2.isEmpty))
              (c ++ e :: t.filter (fun x => !x.2.isEmpty)) := by
            refine List.Sublist.trans ?_ (List.sublist_append_right c _)
            exact List.sublist_cons_self _ _
          exact hpw.sublist hsub
      obtain ⟨u3, h1, h2, h3, h4, h5⟩ := ih u2
        (addChunks slot (chunkFoldFrom c [e]).1 T) (chunkFoldFrom c [e]).2
        hend2 hla2 hfd2 hw2 hpw3
        (fun x hx => hdid x (List.mem_cons_of_mem _ hx))
      refine ⟨u3, ?_, ?_, ?_, ?_, h5⟩
      · rw [chunkFoldFrom_assoc c e (t.filter (fun x => !x.2.isEmpty)),
          addChunks_append]
        exact h1
      · rw [chunkFoldFrom_assoc c e (t.filter (fun x => !x.2.isEmpty))]
        exact h2
      · rw [h3]
        exact hrd2
      · rw [h4]
        exact hlaq2

theorem chunkify_split (c es : List Entry) :
    chunkifyFrom c es =
      (chunkFoldFrom c es).1 ++ chunkifyFrom (chunkFoldFrom c es).2 [] := by
  unfold chunkifyFrom
  by_cases h : (chunkFoldFrom c es).2.isEmpty
  · rw [if_pos h]
    rw [if_pos (show (chunkFoldFrom (chunkFoldFrom c es).2 []).2.isEmpty =
      true from h)]
    rw [show (chunkFoldFrom (chunkFoldFrom c es).2 []).1 = [] from rfl,
      List.append_nil]
  · rw [if_neg h]
    rw [if_neg (show ¬ ((chunkFoldFrom (chunkFoldFrom c es).2 []).2.isEmpty =
      true) from h)]
    rw [show (chunkFoldFrom (chunkFoldFrom c es).2 []).1 = [] from rfl,
      show (chunkFoldFrom (chunkFoldFrom c es).2 []).2 =
        (chunkFoldFrom c es).2 from rfl]
    simp

/-- One whole updater run over a slot with no stored chunks: the final
table gains exactly the greedy chunking of the non-empty edits. -/
theorem mergeSlot_fresh (slot : Nat) (edits : List (Nat × Str)) (T : Table)
    (hs : SortedT T) (hnoc : slotChunks slot T = [])
    (hpw : List.Pairwise (fun a b : Nat × Str => a.1 < b.1) edits)
    (hdid : ∀ e ∈ edits, e.1 ≤ u32Max) :
    mergeSlot slot edits T =
      .ok (addChunks slot
        (chunkifyFrom [] (edits.filter (fun e => !e.2.isEmpty))) T) := by
  unfold mergeSlot
  have hwInit : WChunk UpdState.init [] :=
    ⟨rfl, by decide, fun h => absurd rfl h⟩
  cases edits with
  | nil =>
    rw [List.foldlM_nil, exBind_pure]
    simp only []
    rw [updaterFinish_WChunk slot T
      (show UpdState.init.reader.at_end = true from rfl) hwInit rfl]
    rfl
  | cons e t =>
    have hpred : predChunk slot e.1 T = none := by
      unfold predChunk
      rw [hnoc]
      rfl
    have hnext : nextChunkFirst slot e.1 T = none := by
      unfold nextChunkFirst
      rw [hnoc]
      rfl
    rw [List.foldlM_cons]
    simp only []
    rw [update_fresh_seek slot e.1 e.2 hs
      (show UpdState.init.reader.at_end = true from rfl)
      (show UpdState.init.last_allowed_did = 0 from rfl) hpred hnext,
      exBind_ok]
    generalize hu1 : ({ UpdState.init with last_allowed_did := HONEY_MAX_DOCID, new_first_did := 0, first_did := 0 } : UpdState) = u1
    have hend1 : u1.reader.at_end = true := by rw [← hu1]; rfl
    have hla1 : u1.last_allowed_did = u32Max := by rw [← hu1]; rfl
    have hfd1 : u1.first_did = 0 := by rw [← hu1]
    have hw1 : WChunk u1 [] := by
      rw [← hu1]
      exact ⟨rfl, by decide, fun h => absurd rfl h⟩
    by_cases hv : e.2.isEmpty
    · have hfil : (e :: t).filter (fun x => !x.2.isEmpty) =
          t.filter (fun x => !x.2.isEmpty) := by
        simp [List.filter_cons, hv]
      rw [if_pos hv, hfil]
      have hpw2 : List.Pairwise (fun a b : Entry => a.1 < b.1)
          (([] : List Entry) ++ t.filter (fun x => !x.2.isEmpty)) := by
        simp only [List.nil_append]
        exact (hpw.sublist (List.sublist_cons_self e t)).sublist
          (List.filter_sublist t)
      obtain ⟨u2, h1, h2, h3, h4, h5⟩ := updateFold_fresh slot t u1 T []
        hend1 hla1 hfd1 hw1 hpw2
        (fun x hx => hdid x (List.mem_cons_of_mem _ hx))
      rw [h1, exBind_ok]
      simp only []
      have hend2 : u2.reader.at_end = true := by rw [h3]; exact hend1
      rw [updaterFinish_WChunk slot _ hend2 h2 h5]
      rw [chunkify_split [] (t.filter (fun x => !x.2.isEmpty)),
        addChunks_append]
    · have hfil : (e :: t).filter (fun x => !x.2.isEmpty) =
          e :: t.filter (fun x => !x.2.isEmpty) := by
        simp [List.filter_cons, hv]
      rw [if_neg hv, hfil]
      obtain ⟨u2, hstep, hw2, hrd2, hct2, hlaq2, hfd2⟩ :=
        append_to_stream_WChunk slot e T hw1 hfd1 (fun h => absurd rfl h)
      rw [hstep]
      have hend2 : u2.reader.at_end = true := by rw [hrd2]; exact hend1
      have hla2 : u2.last_allowed_did = u32Max := by rw [hlaq2]; exact hla1
      have hpw3 : List.Pairwise (fun a b : Entry => a.1 < b.1)
          ((chunkFoldFrom [] [e]).2 ++ t.filter (fun x => !x.2.isEmpty)) := by
        have hbase : List.Pairwise (fun a b : Entry => a.1 < b.1)
            (e :: t.filter (fun x => !x.2.isEmpty)) := by
          refine hpw.sublist ?_
          exact List.Sublist.cons₂ e (List.filter_sublist t)
        rcases chunkFoldFrom_snd_single [] e with h | h
        · rw [h]
          simpa using hbase
        · rw [h]
          simp only [List.nil_append]
          exact hbase.sublist (List.sublist_cons_self e _)
      obtain ⟨u3, h1, h2, h3, h4, h5⟩ := updateFold_fresh slot t u2
        (addChunks slot (chunkFoldFrom [] [e]).1 T) (chunkFoldFrom [] [e]).2
        hend2 hla2 hfd2 hw2 hpw3
        (fun x hx => hdid x (List.mem_cons_of_mem _ hx))
      rw [h1, exBind_ok]
      simp only []
      have hend3 : u3.reader.at_end = true := by rw [h3]; exact hend2
      rw [updaterFinish_WChunk slot _ hend3 h2 h5]
      rw [chunkify_split [] (e :: t.filter (fun x => !x.2.isEmpty)),
        chunkFoldFrom_assoc [] e (t.filter (fun x => !x.2.isEmpty)),
        addChunks_append, addChunks_append]

/-! ## Reading back: `skip_to` over an encoded entry stream -/

/-- The functional content of the skip loop: stop at the first entry whose
docid reaches the target, else run off the end keeping the accumulated
docid and the old value. -/
def skipSpec (target : Nat) (value : Str) (did0 : Nat) :
    List Entry → ValueChunkReader
  | [] => ⟨none, did0, value⟩
  | (d, v) :: es =>
      if target ≤ d then ⟨some (encodeRest d es), d, v⟩
      else skipSpec target value d es

theorem skipLoopF_spec :
    ∀ (es : List Entry) (fuel target did0 : Nat) (value : Str),
      (encodeRest did0 es).length < fuel →
      (∀ e ∈ es, e.1 ≤ u32Max ∧ e.2.length ≤ sizeMax) →
      List.Pairwise (fun a b => a < b) (did0 :: es.map Prod.fst) →
      skipLoopF fuel target did0 value (encodeRest did0 es) =
        .ok (skipSpec target value did0 es) := by
  intro es
  induction es with
  | nil =>
    intro fuel target did0 value hf hb hasc
    obtain ⟨f, rfl⟩ : ∃ f, fuel = f + 1 := ⟨fuel - 1, by omega⟩
    rfl
  | cons e es ih =>
    intro fuel target did0 value hf hb hasc
    obtain ⟨d, v⟩ := e
    obtain ⟨f, rfl⟩ : ∃ f, fuel = f + 1 := ⟨fuel - 1, by omega⟩
    have hdmax : d ≤ u32Max := (hb (d, v) (List.mem_cons_self _ _)).1
    have hvmax : v.length ≤ sizeMax := (hb (d, v) (List.mem_cons_self _ _)).2
    have hdgt : did0 < d := by
      rw [List.pairwise_cons] at hasc
      exact hasc.1 d (by simp)
    have henc : encodeRest did0 ((d, v) :: es) =
        pack_uint (d - did0 - 1) ++
          (pack_string v ++ encodeRest d es) := by
      show pack_uint (d - did0 - 1) ++ pack_string v ++ encodeRest d es = _
      rw [List.append_assoc]
    obtain ⟨b, bs, hpu⟩ : ∃ b bs, pack_uint (d - did0 - 1) = b :: bs := by
      cases hq : pack_uint (d - did0 - 1) with
      | nil => exact absurd hq (pack_uint_ne_nil _)
      | cons b bs => exact ⟨b, bs, rfl⟩
    have hu1 : unpack_uint u32Max (b :: (bs ++
        (pack_string v ++ encodeRest d es))) =
        .ok (d - did0 - 1, pack_string v ++ encodeRest d es) := by
      rw [← List.cons_append, ← hpu]
      exact unpack_uint_pack _ _ _ (by unfold u32Max at hdmax ⊢; omega)
    have hps : pack_string v ++ encodeRest d es =
        pack_uint v.length ++ (v ++ encodeRest d es) := by
      show pack_uint v.length ++ v ++ encodeRest d es = _
      rw [List.append_assoc]
    have hu2 : unpack_uint sizeMax (pack_string v ++ encodeRest d es) =
        .ok (v.length, v ++ encodeRest d es) := by
      rw [hps]
      exact unpack_uint_pack _ _ _ hvmax
    have hdid2 : (did0 + (d - did0 - 1) + 1) % 2 ^ 32 = d := by
      have h1 : did0 + (d - did0 - 1) + 1 = d := by omega
      rw [h1]
      unfold u32Max at hdmax
      omega
    have hrem : encodeRest did0 ((d, v) :: es) =
        b :: (bs ++ (pack_string v ++ encodeRest d es)) := by
      rw [henc, hpu]
      rfl
    rw [hrem]
    show skipLoopF (f + 1) target did0 value _ = _
    simp only [skipLoopF]
    rw [if_neg (by simp)]
    rw [hu1]
    simp only []
    rw [hu2]
    simp only []
    rw [if_neg (by simp)]
    rw [hdid2]
    by_cases ht : target ≤ d
    · rw [if_pos ht]
      rw [List.drop_left, List.take_left]
      simp only [skipSpec]
      rw [if_pos ht]
    · rw [if_neg ht]
      rw [List.drop_left]
      have hlen : (encodeRest d es).length < f := by
        rw [hrem] at hf
        simp only [List.length_cons, List.length_append] at hf
        have : 1 ≤ (pack_string v).length := by
          unfold pack_string
          simp only [List.length_append]
          have := pack_uint_length_pos v.length
          omega
        omega
      rw [ih f target d value hlen
        (fun x hx => hb x (List.mem_cons_of_mem _ hx))
        (by
          rw [List.pairwise_cons] at hasc
          simpa using hasc.2)]
      simp only [skipSpec]
      rw [if_neg ht]

/-- The skip loop computes `skipSpec`. -/
theorem skipLoop_spec (es : List Entry) (target did0 : Nat) (value : Str)
    (hb : ∀ e ∈ es, e.1 ≤ u32Max ∧ e.2.length ≤ sizeMax)
    (hasc : List.Pairwise (fun a b => a < b) (did0 :: es.map Prod.fst)) :
    skipLoop target did0 value (encodeRest did0 es) =
      .ok (skipSpec target value did0 es) := by
  unfold skipLoop
  exact skipLoopF_spec es _ target did0 value (Nat.lt_succ_self _) hb hasc

/-! ## A represented slot: chunks in the table and their flat contents -/

/-- The key/tag pairs a chunk list occupies in the table. -/
def chunkPairs (cs : List (List Entry)) : List (Nat × Str) :=
  cs.map (fun c => (chunkFirst c, encodeChunk c))

/-- All entries of a chunk list in stream order. -/
def flatEntries (cs : List (List Entry)) : List Entry := cs.join

/-- A well-formed chunk list: chunks are non-empty, the flat docids are
strictly increasing, and every entry is storable. -/
def GoodChunks (cs : List (List Entry)) : Prop :=
  (∀ c ∈ cs, c ≠ []) ∧
  List.Pairwise (fun a b : Entry => a.1 < b.1) (flatEntries cs) ∧
  (∀ e ∈ flatEntries cs, 1 ≤ e.1 ∧ e.1 ≤ u32Max ∧ e.2.length ≤ sizeMax)

/-- The slot's chunks in the table are exactly `cs`. -/
def SlotRepr (slot : Nat) (T : Table) (cs : List (List Entry)) : Prop :=
  slotChunks slot T = chunkPairs cs ∧ GoodChunks cs

theorem alFind_eq_none_of_ne {α : Type} {k : Nat} :
    ∀ {l : List (Nat × α)}, (∀ e ∈ l, e.1 ≠ k) → alFind k l = none := by
  intro l
  induction l with
  | nil => intro _; rfl
  | cons e t ih =>
    intro h
    obtain ⟨k', v'⟩ := e
    show (if k' = k then some v' else alFind k t) = none
    rw [if_neg (h (k', v') (List.mem_cons_self _ _))]
    exact ih (fun x hx => h x (List.mem_cons_of_mem _ hx))

theorem alFind_append_left_none {α : Type} {k : Nat} :
    ∀ {A : List (Nat × α)} (B : List (Nat × α)), (∀ e ∈ A, e.1 ≠ k) →
      alFind k (A ++ B) = alFind k B := by
  intro A
  induction A with
  | nil => intro B _; rfl
  | cons e t ih =>
    intro B h
    obtain ⟨k', v'⟩ := e
    show (if k' = k then some v' else alFind k (t ++ B)) = _
    rw [if_neg (h (k', v') (List.mem_cons_self _ _))]
    exact ih B (fun x hx => h x (List.mem_cons_of_mem _ hx))

theorem alFind_of_mem_pairwise {α : Type} {k : Nat} {v : α} :
    ∀ {l : List (Nat × α)},
      List.Pairwise (fun a b => a.1 < b.1) l → (k, v) ∈ l →
      alFind k l = some v := by
  intro l
  induction l with
  | nil => intro _ h; simp at h
  | cons e t ih =>
    intro hp hm
    obtain ⟨k', v'⟩ := e
    rw [List.pairwise_cons] at hp
    rcases List.mem_cons.mp hm with heq | hmem
    · injection heq with h1 h2
      subst h1
      subst h2
      show (if k = k then some v else alFind k t) = some v
      rw [if_pos rfl]
    · have hk : k' ≠ k := by
        have := hp.1 (k, v) hmem
        simp only at this
        omega
      show (if k' = k then some v' else alFind k t) = some v
      rw [if_neg hk]
      exact ih hp.2 hmem

/-- `skipSpec` followed by the bail-out checks of `get_value` computes the
association-list lookup. -/
theorem skipSpec_correct (target : Nat) (value : Str) :
    ∀ (es : List Entry) (did0 : Nat), did0 < target →
      List.Pairwise (fun a b : Entry => a.1 < b.1) es →
      (if (skipSpec target value did0 es).at_end then []
       else if (skipSpec target value did0 es).did ≠ target then []
       else (skipSpec target value did0 es).value) =
        (alFind target es).getD [] := by
  intro es
  induction es with
  | nil =>
    intro did0 hlt hp
    rfl
  | cons e t ih =>
    intro did0 hlt hp
    obtain ⟨d, v⟩ := e
    rw [List.pairwise_cons] at hp
    simp only [skipSpec]
    by_cases ht : target ≤ d
    · rw [if_pos ht]
      by_cases hdt : d = target
      · subst hdt
        show (if (false : Bool) then _ else _) = _
        rw [if_neg (by simp)]
        rw [if_neg (by simp)]
        show _ = (alFind d ((d, v) :: t)).getD []
        rw [show alFind d ((d, v) :: t) = some v from by
          show (if d = d then some v else alFind d t) = some v
          rw [if_pos rfl]]
        rfl
      · show (if (false : Bool) then _ else _) = _
        rw [if_neg (by simp)]
        rw [if_pos (by simp only []; exact fun hc => hdt hc)]
        have hnone : alFind target ((d, v) :: t) = none := by
          refine alFind_eq_none_of_ne ?_
          intro x hx
          rcases List.mem_cons.mp hx with rfl | hmem
          · simp only []
            omega
          · have := hp.1 x hmem
            simp only at this
            omega
        rw [hnone]
        rfl
    · rw [if_neg ht]
      have hne : d ≠ target := by omega
      have hfind : alFind target ((d, v) :: t) = alFind target t := by
        show (if d = target then some v else alFind target t) = _
        rw [if_neg hne]
      rw [hfind]
      exact ih d (by omega) hp.2

theorem chunkFirst_le_mem {c : List Entry}
    (hp : List.Pairwise (fun a b : Entry => a.1 < b.1) c) {e : Entry}
    (he : e ∈ c) : chunkFirst c ≤ e.1 := by
  cases c with
  | nil => simp at he
  | cons h t =>
    rw [List.pairwise_cons] at hp
    rcases List.mem_cons.mp he with rfl | hmem
    · exact le_refl _
    · exact le_of_lt (hp.1 e hmem)

theorem alFind_append_right_none {α : Type} {k : Nat} :
    ∀ {A : List (Nat × α)} {B : List (Nat × α)}, (∀ e ∈ B, e.1 ≠ k) →
      alFind k (A ++ B) = alFind k A := by
  intro A
  induction A with
  | nil =>
    intro B h
    exact alFind_eq_none_of_ne h
  | cons e t ih =>
    intro B h
    obtain ⟨k', v'⟩ := e
    show (if k' = k then some v' else alFind k (t ++ B)) = _
    by_cases hk : k' = k
    · rw [if_pos hk]
      show _ = (if k' = k then some v' else alFind k t)
      rw [if_pos hk]
    · rw [if_neg hk, ih h]
      show _ = (if k' = k then some v' else alFind k t)
      rw [if_neg hk]

theorem ite_pure_eq (c1 c2 : Prop) [Decidable c1] [Decidable c2]
    (a b r : Str) :
    (if c1 then (pure a : Except Err Str) else if c2 then pure b else pure r)
      = .ok (if c1 then a else if c2 then b else r) := by
  by_cases h1 : c1
  · rw [if_pos h1, if_pos h1]
    rfl
  · rw [if_neg h1, if_neg h1]
    by_cases h2 : c2
    · rw [if_pos h2, if_pos h2]
      rfl
    · rw [if_neg h2, if_neg h2]
      rfl

/-- The pairwise facts of a represented slot, unpacked from the flat
pairwise order via `List.pairwise_join`. -/
theorem GoodChunks_within {cs : List (List Entry)} (h : GoodChunks cs) :
    ∀ c ∈ cs, List.Pairwise (fun a b : Entry => a.1 < b.1) c := by
  have := (List.pairwise_join.mp h.2.1).1
  exact this

theorem GoodChunks_cross {cs : List (List Entry)} (h : GoodChunks cs) :
    List.Pairwise (fun a b : List Entry =>
      ∀ x ∈ a, ∀ y ∈ b, x.1 < y.1) cs := by
  have := (List.pairwise_join.mp h.2.1).2
  exact this

/-- `get_value`'s table path on a represented slot is the association-list
lookup over the flat entries. -/
theorem get_value_from_table_spec (slot did : Nat) (T : Table)
    (cs : List (List Entry)) (hs : SortedT T) (hrep : SlotRepr slot T cs) :
    get_value_from_table T did slot =
      .ok ((alFind did (flatEntries cs)).getD []) := by
  obtain ⟨hsc, hne, hpw, hbnd⟩ := hrep
  have hgood : GoodChunks cs := ⟨hne, hpw, hbnd⟩
  cases hpc : predChunk slot did T with
  | none =>
    have hflatgt : ∀ e ∈ flatEntries cs, did < e.1 := by
      intro e he
      obtain ⟨c, hc, hec⟩ := List.mem_join.mp he
      have hfc : did < chunkFirst c := by
        have hmemp : (chunkFirst c, encodeChunk c) ∈ slotChunks slot T := by
          rw [hsc]
          exact List.mem_map_of_mem _ hc
        by_contra hnot
        push_neg at hnot
        have hmf : (chunkFirst c, encodeChunk c) ∈
            (slotChunks slot T).filter (fun p => p.1 ≤ did) := by
          rw [List.mem_filter]
          exact ⟨hmemp, by simpa using hnot⟩
        unfold predChunk at hpc
        rw [List.getLast?_eq_none_iff] at hpc
        rw [hpc] at hmf
        simp at hmf
      exact lt_of_lt_of_le hfc
        (chunkFirst_le_mem (GoodChunks_within hgood c hc) hec)
    have hrhs : alFind did (flatEntries cs) = none :=
      alFind_eq_none_of_ne (fun e he => by have := hflatgt e he; omega)
    rw [hrhs]
    unfold get_value_from_table get_chunk_containing_did
    cases hfe : tableFindLE (.chunk slot did) T with
    | none =>
      simp only [hfe]
      rfl
    | some e =>
      obtain ⟨hneq, hdk⟩ := findLE_of_predChunk_none hs hpc e hfe
      simp only [hfe]
      rw [if_neg hneq]
      obtain ⟨k2, v2⟩ := e
      cases k2 with
      | stats s2 => rfl
      | chunk s2 d2 =>
        by_cases hs2 : s2 = slot
        · subst hs2
          have hd2 : d2 = 0 := by simpa [docid_from_key] using hdk
          subst hd2
          simp only []
          rw [if_pos (trivial : True)]
          rw [if_pos (show ((0 : Nat), v2).1 = 0 from rfl)]
          rfl
        · simp only []
          rw [if_neg hs2]
          rfl
  | some p =>
    obtain ⟨f, tag⟩ := p
    have hmem0 : (f, tag) ∈
        (slotChunks slot T).filter (fun c => c.1 ≤ did) :=
      mem_of_getLast?_eq hpc
    have hfled : f ≤ did := by
      have := List.of_mem_filter hmem0
      simpa using this
    have hmax : ∀ x ∈ (slotChunks slot T).filter (fun c => c.1 ≤ did),
        x.1 ≤ f :=
      fun x hx => pairwise_getLast_le
        (List.Pairwise.sublist (List.filter_sublist _)
          (slotChunks_pairwise slot hs)) hx hpc
    have hmemsc : (f, tag) ∈ slotChunks slot T := List.mem_of_mem_filter hmem0
    have hfe := (findLE_of_predChunk_some hs hpc).1
    have hmemcp : (f, tag) ∈ chunkPairs cs := by rw [← hsc]; exact hmemsc
    obtain ⟨ci, hci, hcieq⟩ := List.mem_map.mp hmemcp
    obtain ⟨hf1, hf2⟩ : chunkFirst ci = f ∧ encodeChunk ci = tag := by
      injection hcieq with h1 h2
      exact ⟨h1, h2⟩
    obtain ⟨csA, csB, hcs⟩ := List.append_of_mem hci
    obtain ⟨e0, es, rfl⟩ : ∃ e0 es, ci = e0 :: es := by
      cases hciq : ci with
      | nil =>
        exact absurd hciq (hne ci hci)
      | cons e0 es => exact ⟨e0, es, rfl⟩
    obtain ⟨f0, v0⟩ := e0
    have hf0 : f0 = f := by
      simpa [chunkFirst] using hf1
    subst hf0
    subst hcs
    have hflat : flatEntries (csA ++ ((f0, v0) :: es) :: csB) =
        csA.join ++ (((f0, v0) :: es) ++ csB.join) := by
      show (csA ++ ((f0, v0) :: es) :: csB).flatten =
        csA.flatten ++ (((f0, v0) :: es) ++ csB.flatten)
      rw [List.flatten_append, List.flatten_cons]
    have hpwflat := hpw
    rw [hflat] at hpwflat
    rw [List.pairwise_append] at hpwflat
    have hAlt : ∀ e ∈ csA.join, e.1 < f0 := by
      intro e he
      have := hpwflat.2.2 e he (f0, v0) (by simp)
      simpa using this
    have hpwR := hpwflat.2.1
    rw [List.pairwise_append] at hpwR
    have hciPW : List.Pairwise (fun a b : Entry => a.1 < b.1)
        ((f0, v0) :: es) := hpwR.1
    have hfltB : ∀ b ∈ csB.join, f0 < b.1 := by
      intro b hb
      have := hpwR.2.2 (f0, v0) (by simp) b hb
      simpa using this
    have hBgt : ∀ b ∈ csB.join, did < b.1 := by
      intro b hb
      obtain ⟨cB, hcB, hbcB⟩ := List.mem_join.mp hb
      have hcBmem : cB ∈ csA ++ ((f0, v0) :: es) :: csB :=
        List.mem_append_right _ (List.mem_cons_of_mem _ hcB)
      have hheadB : did < chunkFirst cB := by
        by_contra hnot
        push_neg at hnot
        have hpair : (chunkFirst cB, encodeChunk cB) ∈ slotChunks slot T := by
          rw [hsc]
          exact List.mem_map_of_mem _ hcBmem
        have hinf : (chunkFirst cB, encodeChunk cB) ∈
            (slotChunks slot T).filter (fun c => c.1 ≤ did) := by
          rw [List.mem_filter]
          exact ⟨hpair, by simpa using hnot⟩
        have hle := hmax _ hinf
        simp only at hle
        have hcb0 : cB ≠ [] := hne cB hcBmem
        obtain ⟨eh, et, rfl⟩ : ∃ eh et, cB = eh :: et := by
          cases hq : cB with
          | nil => exact absurd hq hcb0
          | cons eh et => exact ⟨eh, et, rfl⟩
        have hgt := hfltB eh (List.mem_join.mpr ⟨eh :: et, hcB, by simp⟩)
        simp [chunkFirst] at hle
        omega
      exact lt_of_lt_of_le hheadB
        (chunkFirst_le_mem
          (GoodChunks_within hgood cB hcBmem) hbcB)
    have hmemflat : (f0, v0) ∈ flatEntries (csA ++ ((f0, v0) :: es) :: csB) := by
      rw [hflat]
      exact List.mem_append_right _ (by simp)
    have hf1le : 1 ≤ f0 := (hbnd (f0, v0) hmemflat).1
    have hv0max : v0.length ≤ sizeMax := (hbnd (f0, v0) hmemflat).2.2
    have halA : alFind did (flatEntries (csA ++ ((f0, v0) :: es) :: csB)) =
        alFind did (((f0, v0) :: es) ++ csB.join) := by
      rw [hflat]
      exact alFind_append_left_none _
        (fun e he => by have := hAlt e he; omega)
    unfold get_value_from_table get_chunk_containing_did
    simp only [hfe]
    by_cases hfd : f0 = did
    · subst hfd
      rw [if_pos rfl]
      rw [if_neg (show ¬ (((f0, tag) : Nat × Str).1 = 0) from by
        simp only []
        omega)]
      rw [← hf2]
      rw [assign_encodeChunk hv0max, exBind_ok]
      show (ValueChunkReader.skip_to ⟨some (encodeRest f0 es), f0, v0⟩ f0 >>= _)
        = _
      unfold ValueChunkReader.skip_to
      simp only []
      rw [if_pos (le_refl f0), exBind_ok]
      simp only []
      rw [if_neg (show ¬ ((ValueChunkReader.at_end
        ⟨some (encodeRest f0 es), f0, v0⟩) = true) from by
        unfold ValueChunkReader.at_end
        simp)]
      rw [if_neg (show ¬ ((⟨some (encodeRest f0 es), f0, v0⟩ :
        ValueChunkReader).did ≠ f0) from by simp)]
      rw [halA]
      rw [show alFind f0 (((f0, v0) :: es) ++ csB.join) = some v0 from by
        show (if f0 = f0 then some v0 else _) = some v0
        rw [if_pos rfl]]
      rfl
    · have hkeyne : TKey.chunk slot f0 ≠ TKey.chunk slot did := by
        intro hc
        injection hc with h1 h2
        exact hfd h2
      rw [if_neg hkeyne]
      rw [if_pos (trivial : True)]
      rw [if_neg (show ¬ (((f0, tag) : Nat × Str).1 = 0) from by
        simp only []
        omega)]
      rw [← hf2]
      rw [assign_encodeChunk hv0max, exBind_ok]
      show (ValueChunkReader.skip_to ⟨some (encodeRest f0 es), f0, v0⟩ did >>= _)
        = _
      unfold ValueChunkReader.skip_to
      simp only []
      rw [if_neg (show ¬ (did ≤ (⟨some (encodeRest f0 es), f0, v0⟩ :
        ValueChunkReader).did) from by
        simp only []
        omega)]
      have hesb : ∀ e ∈ es, e.1 ≤ u32Max ∧ e.2.length ≤ sizeMax := by
        intro e he
        have hm : e ∈ flatEntries (csA ++ ((f0, v0) :: es) :: csB) := by
          rw [hflat]
          exact List.mem_append_right _
            (List.mem_append_left _ (List.mem_cons_of_mem _ he))
        exact ⟨(hbnd e hm).2.1, (hbnd e hm).2.2⟩
      have hasc : List.Pairwise (fun a b => a < b)
          (f0 :: es.map Prod.fst) := by
        rw [List.pairwise_cons] at hciPW ⊢
        constructor
        · intro y hy
          obtain ⟨e, he, rfl⟩ := List.mem_map.mp hy
          exact hciPW.1 e he
        · rw [List.pairwise_map]
          exact hciPW.2
      rw [skipLoop_spec es did f0 v0 hesb hasc, exBind_ok]
      rw [ite_pure_eq]
      rw [halA]
      rw [show alFind did (((f0, v0) :: es) ++ csB.join) =
          alFind did (es ++ csB.join) from by
        show (if f0 = did then some v0 else _) = _
        rw [if_neg hfd]
        rfl]
      rw [alFind_append_right_none
        (fun e he => by have := hBgt e he; omega)]
      have hfd2 : f0 < did := by omega
      rw [skipSpec_correct did v0 es f0 hfd2
        (List.Pairwise.sublist (List.sublist_cons_self (f0, v0) es) hciPW)]

/-! ## Adding chunks to the table, slot by slot -/

theorem slotChunks_tableAdd_other {slot s2 : Nat} (h : s2 ≠ slot)
    (f : Nat) (v : Str) :
    ∀ (T : Table),
      slotChunks slot (tableAdd (.chunk s2 f) v T) = slotChunks slot T := by
  intro T
  induction T with
  | nil =>
    show slotChunks slot [(TKey.chunk s2 f, v)] = []
    simp [slotChunks, h]
  | cons e0 t ih =>
    obtain ⟨k0, v0⟩ := e0
    unfold tableAdd
    by_cases h1 : kLt (.chunk s2 f) k0 = true
    · rw [if_pos h1]
      show slotChunks slot ((TKey.chunk s2 f, v) :: (k0, v0) :: t) = _
      simp [slotChunks, h]
    · rw [if_neg h1]
      by_cases h2 : k0 = (TKey.chunk s2 f)
      · rw [if_pos h2]
        subst h2
        simp [slotChunks, h]
      · rw [if_neg h2]
        cases k0 with
        | stats s3 => simp [slotChunks, ih]
        | chunk s3 d3 =>
          by_cases h3 : s3 = slot
          · simp [slotChunks, h3, ih]
          · simp [slotChunks, h3, ih]

theorem slotChunks_tableAdd_self {slot : Nat} (f : Nat) (v : Str) :
    ∀ (T : Table), SortedT T →
      (∀ p ∈ slotChunks slot T, p.1 < f) →
      slotChunks slot (tableAdd (.chunk slot f) v T) =
        slotChunks slot T ++ [(f, v)] := by
  intro T
  induction T with
  | nil =>
    intro _ _
    show slotChunks slot [(TKey.chunk slot f, v)] = _
    simp [slotChunks]
  | cons e0 t ih =>
    intro hs hlt
    obtain ⟨k0, v0⟩ := e0
    obtain ⟨hhead, htail⟩ := SortedT_cons hs
    unfold tableAdd
    by_cases h1 : kLt (.chunk slot f) k0 = true
    · rw [if_pos h1]
      have hnone : slotChunks slot ((k0, v0) :: t) = [] := by
        cases hq : slotChunks slot ((k0, v0) :: t) with
        | nil => rfl
        | cons p ps =>
          exfalso
          have hpmem : p ∈ slotChunks slot ((k0, v0) :: t) := by
            rw [hq]
            exact List.mem_cons_self _ _
          obtain ⟨pf, ptag⟩ := p
          have hmemT : (TKey.chunk slot pf, ptag) ∈ (k0, v0) :: t :=
            mem_slotChunks.mp hpmem
          have hplt : pf < f := hlt (pf, ptag) hpmem
          rcases List.mem_cons.mp hmemT with heq | hmem2
          · have : kLt (.chunk slot f) (.chunk slot pf) = true := by
              rw [show k0 = TKey.chunk slot pf from by
                injection heq with ha hb
                rw [← ha]] at h1
              exact h1
            rw [kLt_chunk_chunk_same] at this
            simp at this
            omega
          · have hk2 := hhead _ hmem2
            have htr := kLt_trans h1 hk2
            rw [kLt_chunk_chunk_same] at htr
            simp at htr
            omega
      show slotChunks slot ((TKey.chunk slot f, v) :: (k0, v0) :: t) = _
      rw [show slotChunks slot ((TKey.chunk slot f, v) :: (k0, v0) :: t) =
        (f, v) :: slotChunks slot ((k0, v0) :: t) from by
        simp [slotChunks]]
      rw [hnone]
      rfl
    · rw [if_neg h1]
      by_cases h2 : k0 = (TKey.chunk slot f)
      · exfalso
        subst h2
        have : (f, v0) ∈ slotChunks slot ((TKey.chunk slot f, v0) :: t) := by
          rw [show slotChunks slot ((TKey.chunk slot f, v0) :: t) =
            (f, v0) :: slotChunks slot t from by simp [slotChunks]]
          exact List.mem_cons_self _ _
        have := hlt _ this
        simp at this
      · rw [if_neg h2]
        cases k0 with
        | stats s3 =>
          show slotChunks slot ((TKey.stats s3, v0) ::
            tableAdd (.chunk slot f) v t) = _
          rw [show ∀ l, slotChunks slot ((TKey.stats s3, v0) :: l) =
            slotChunks slot l from fun l => rfl]
          rw [show slotChunks slot ((TKey.stats s3, v0) :: t) =
            slotChunks slot t from rfl]
          exact ih htail (fun p hp => hlt p (by
            rw [show slotChunks slot ((TKey.stats s3, v0) :: t) =
              slotChunks slot t from rfl]
            exact hp))
        | chunk s3 d3 =>
          by_cases h3 : s3 = slot
          · subst h3
            show slotChunks s3 ((TKey.chunk s3 d3, v0) ::
              tableAdd (.chunk s3 f) v t) = _
            rw [show ∀ l, slotChunks s3 ((TKey.chunk s3 d3, v0) :: l) =
              (d3, v0) :: slotChunks s3 l from fun l => by simp [slotChunks]]
            rw [show slotChunks s3 ((TKey.chunk s3 d3, v0) :: t) =
              (d3, v0) :: slotChunks s3 t from by simp [slotChunks]]
            rw [ih htail (fun p hp => hlt p (by
              rw [show slotChunks s3 ((TKey.chunk s3 d3, v0) :: t) =
                (d3, v0) :: slotChunks s3 t from by simp [slotChunks]]
              exact List.mem_cons_of_mem _ hp))]
            rfl
          · show slotChunks slot ((TKey.chunk s3 d3, v0) ::
              tableAdd (.chunk slot f) v t) = _
            rw [show ∀ l, slotChunks slot ((TKey.chunk s3 d3, v0) :: l) =
              slotChunks slot l from fun l => by simp [slotChunks, h3]]
            rw [show slotChunks slot ((TKey.chunk s3 d3, v0) :: t) =
              slotChunks slot t from by simp [slotChunks, h3]]
            exact ih htail (fun p hp => hlt p (by
              rw [show slotChunks slot ((TKey.chunk s3 d3, v0) :: t) =
                slotChunks slot t from by simp [slotChunks, h3]]
              exact hp))

theorem SortedT_addChunks (slot : Nat) :
    ∀ (cs : List (List Entry)) (T : Table), SortedT T →
      SortedT (addChunks slot cs T) := by
  intro cs
  induction cs with
  | nil => intro T hs; exact hs
  | cons c t ih =>
    intro T hs
    show SortedT (addChunks slot t (addChunk slot T c))
    exact ih _ (SortedT_tableAdd _ _ _ hs)

theorem slotChunks_addChunks_frame {slot s2 : Nat} (h : s2 ≠ slot) :
    ∀ (cs : List (List Entry)) (T : Table),
      slotChunks s2 (addChunks slot cs T) = slotChunks s2 T := by
  intro cs
  induction cs with
  | nil => intro T; rfl
  | cons c t ih =>
    intro T
    show slotChunks s2 (addChunks slot t (addChunk slot T c)) = _
    rw [ih (addChunk slot T c)]
    exact slotChunks_tableAdd_other (Ne.symm h) _ _ T

theorem chunkFirst_mem {c : List Entry} (hc : c ≠ []) :
    ∃ x ∈ c, x.1 = chunkFirst c := by
  cases c with
  | nil => exact absurd rfl hc
  | cons e t => exact ⟨e, List.mem_cons_self _ _, rfl⟩

theorem slotChunks_addChunks_self (slot : Nat) :
    ∀ (cs : List (List Entry)) (T : Table), SortedT T →
      List.Pairwise (fun a b => chunkFirst a < chunkFirst b) cs →
      (∀ p ∈ slotChunks slot T, ∀ c ∈ cs, p.1 < chunkFirst c) →
      slotChunks slot (addChunks slot cs T) =
        slotChunks slot T ++ chunkPairs cs := by
  intro cs
  induction cs with
  | nil =>
    intro T _ _ _
    show slotChunks slot T = slotChunks slot T ++ []
    rw [List.append_nil]
  | cons c t ih =>
    intro T hs hpw hlt
    rw [List.pairwise_cons] at hpw
    show slotChunks slot (addChunks slot t (addChunk slot T c)) = _
    have hstep : slotChunks slot (addChunk slot T c) =
        slotChunks slot T ++ [(chunkFirst c, encodeChunk c)] :=
      slotChunks_tableAdd_self _ _ T hs
        (fun p hp => hlt p hp c (List.mem_cons_self _ _))
    rw [ih (addChunk slot T c) (SortedT_tableAdd _ _ _ hs) hpw.2
      (fun p hp c2 hc2 => by
        rw [hstep] at hp
        rcases List.mem_append.mp hp with hold | hnew
        · exact hlt p hold c2 (List.mem_cons_of_mem _ hc2)
        · have : p = (chunkFirst c, encodeChunk c) := by simpa using hnew
          rw [this]
          exact hpw.1 c2 hc2)]
    rw [hstep]
    show (slotChunks slot T ++ [(chunkFirst c, encodeChunk c)]) ++
      chunkPairs t = slotChunks slot T ++ chunkPairs (c :: t)
    rw [List.append_assoc]
    rfl

theorem chunkFoldFrom_flat :
    ∀ (es c : List Entry),
      (chunkFoldFrom c es).1.join ++ (chunkFoldFrom c es).2 = c ++ es := by
  intro es
  induction es with
  | nil =>
    intro c
    show ([] : List (List Entry)).join ++ c = c ++ []
    simp
  | cons e t ih =>
    intro c
    cases hp : chunkPush c e with
    | mk c2 o =>
      cases o with
      | none =>
        obtain ⟨rfl, _⟩ := chunkPush_none hp
        rw [chunkFoldFrom_cons_none t hp, ih]
        simp
      | some full =>
        obtain ⟨rfl, _, rfl⟩ := chunkPush_some hp
        rw [chunkFoldFrom_cons_some t hp]
        show ((c ++ [e]) :: (chunkFoldFrom [] t).1).flatten ++ _ = _
        rw [List.flatten_cons, List.append_assoc]
        rw [show (chunkFoldFrom [] t).1.flatten ++ (chunkFoldFrom [] t).2 =
          [] ++ t from ih []]
        simp

theorem chunkFoldFrom_chunks_ne :
    ∀ (es c : List Entry), ∀ ch ∈ (chunkFoldFrom c es).1, ch ≠ [] := by
  intro es
  induction es with
  | nil =>
    intro c ch hch
    simp [chunkFoldFrom] at hch
  | cons e t ih =>
    intro c ch hch
    cases hp : chunkPush c e with
    | mk c2 o =>
      cases o with
      | none =>
        rw [chunkFoldFrom_cons_none t hp] at hch
        exact ih c2 ch hch
      | some full =>
        obtain ⟨rfl, _, rfl⟩ := chunkPush_some hp
        rw [chunkFoldFrom_cons_some t hp] at hch
        rcases List.mem_cons.mp hch with rfl | hmem
        · simp
        · exact ih [] ch hmem

theorem chunkifyFrom_nil_flat (es : List Entry) :
    flatEntries (chunkifyFrom [] es) = es := by
  unfold chunkifyFrom flatEntries
  by_cases h : (chunkFoldFrom [] es).2.isEmpty
  · rw [if_pos h]
    have h2 : (chunkFoldFrom [] es).2 = [] := by
      cases hq : (chunkFoldFrom [] es).2 with
      | nil => rfl
      | cons a b => rw [hq] at h; simp at h
    have := chunkFoldFrom_flat es []
    rw [h2, List.append_nil] at this
    simpa using this
  · rw [if_neg h]
    have := chunkFoldFrom_flat es []
    show ((chunkFoldFrom [] es).1 ++ [(chunkFoldFrom [] es).2]).flatten = es
    rw [List.flatten_append]
    simpa using this

theorem chunkifyFrom_nil_ne (es : List Entry) :
    ∀ ch ∈ chunkifyFrom [] es, ch ≠ [] := by
  intro ch hch
  unfold chunkifyFrom at hch
  by_cases h : (chunkFoldFrom [] es).2.isEmpty
  · rw [if_pos h] at hch
    exact chunkFoldFrom_chunks_ne es [] ch hch
  · rw [if_neg h] at hch
    rcases List.mem_append.mp hch with hmem | hlast
    · exact chunkFoldFrom_chunks_ne es [] ch hmem
    · have : ch = (chunkFoldFrom [] es).2 := by simpa using hlast
      rw [this]
      intro hc
      rw [hc] at h
      exact h rfl

/-- The greedy chunking of a good edit stream is a good chunk list. -/
theorem GoodChunks_chunkifyFrom (es : List Entry)
    (hpw : List.Pairwise (fun a b : Entry => a.1 < b.1) es)
    (hbnd : ∀ e ∈ es, 1 ≤ e.1 ∧ e.1 ≤ u32Max ∧ e.2.length ≤ sizeMax) :
    GoodChunks (chunkifyFrom [] es) := by
  refine ⟨chunkifyFrom_nil_ne es, ?_, ?_⟩
  · rw [chunkifyFrom_nil_flat es]
    exact hpw
  · rw [chunkifyFrom_nil_flat es]
    exact hbnd

theorem chunkFirst_pairwise_of_good {cs : List (List Entry)}
    (hgood : GoodChunks cs) :
    List.Pairwise (fun a b => chunkFirst a < chunkFirst b) cs := by
  have hcross := GoodChunks_cross hgood
  refine List.Pairwise.imp_of_mem ?_ hcross
  intro a b ha hb hr
  obtain ⟨xa, hxa, hxa2⟩ := chunkFirst_mem (hgood.1 a ha)
  obtain ⟨xb, hxb, hxb2⟩ := chunkFirst_mem (hgood.1 b hb)
  rw [← hxa2, ← hxb2]
  exact hr xa hxa xb hxb

/-! ## The pending-change buffer under `add_value` / `remove_value` -/

theorem mem_alUpsert {α : Type} {k : Nat} {v : α} {x : Nat × α} :
    ∀ {l : List (Nat × α)}, x ∈ alUpsert k v l → x = (k, v) ∨ x ∈ l := by
  intro l
  induction l with
  | nil =>
    intro h
    simp [alUpsert] at h
    left
    exact h
  | cons e t ih =>
    intro h
    obtain ⟨k', v'⟩ := e
    unfold alUpsert at h
    by_cases h1 : k < k'
    · rw [if_pos h1] at h
      rcases List.mem_cons.mp h with rfl | hm
      · left; rfl
      · right; exact hm
    · rw [if_neg h1] at h
      by_cases h2 : k' = k
      · rw [if_pos h2] at h
        rcases List.mem_cons.mp h with rfl | hm
        · left; rfl
        · right; exact List.mem_cons_of_mem _ hm
      · rw [if_neg h2] at h
        rcases List.mem_cons.mp h with rfl | hm
        · right; exact List.mem_cons_self _ _
        · rcases ih hm with h3 | h3
          · left; exact h3
          · right; exact List.mem_cons_of_mem _ h3

theorem alUpsert_pairwise {α : Type} (k : Nat) (v : α) :
    ∀ {l : List (Nat × α)}, List.Pairwise (fun a b => a.1 < b.1) l →
      List.Pairwise (fun a b => a.1 < b.1) (alUpsert k v l) := by
  intro l
  induction l with
  | nil => intro _; simp [alUpsert]
  | cons e t ih =>
    intro hp
    obtain ⟨k', v'⟩ := e
    rw [List.pairwise_cons] at hp
    unfold alUpsert
    by_cases h1 : k < k'
    · rw [if_pos h1]
      rw [List.pairwise_cons]
      refine ⟨?_, List.pairwise_cons.mpr hp⟩
      intro x hx
      rcases List.mem_cons.mp hx with rfl | hm
      · exact h1
      · have := hp.1 x hm
        simp only at this ⊢
        omega
    · rw [if_neg h1]
      by_cases h2 : k' = k
      · rw [if_pos h2]
        rw [List.pairwise_cons]
        refine ⟨?_, hp.2⟩
        intro x hx
        have := hp.1 x hx
        simp only at this ⊢
        omega
      · rw [if_neg h2]
        rw [List.pairwise_cons]
        refine ⟨?_, ih hp.2⟩
        intro x hx
        rcases mem_alUpsert hx with rfl | hm
        · simp only
          omega
        · exact hp.1 x hm

theorem alFind_mem {α : Type} {k : Nat} {v : α} :
    ∀ {l : List (Nat × α)}, alFind k l = some v → (k, v) ∈ l := by
  intro l
  induction l with
  | nil => intro h; cases h
  | cons e t ih =>
    intro h
    obtain ⟨k', v'⟩ := e
    unfold alFind at h
    by_cases h1 : k' = k
    · rw [if_pos h1] at h
      injection h with h2
      subst h1
      subst h2
      exact List.mem_cons_self _ _
    · rw [if_neg h1] at h
      exact List.mem_cons_of_mem _ (ih h)

/-- One buffered write (`add_value` buffers `val`, `remove_value` buffers
the empty string). -/
inductive VOp where
  | add (did slot : Nat) (v : Str)
  | rem (did slot : Nat)
deriving DecidableEq, Repr

def VOp.did : VOp → Nat
  | .add d _ _ => d
  | .rem d _ => d

def VOp.val : VOp → Str
  | .add _ _ v => v
  | .rem _ _ => []

def applyOp (st : MState) : VOp → MState
  | .add did slot v => add_value st did slot v
  | .rem did slot => remove_value st did slot

/-- Run a batch of buffered writes on a fresh manager. -/
def runOps (ops : List VOp) : MState := ops.foldl applyOp MState.init

/-- The value the last operation targeting `(did, slot)` wrote: `some v`
for an add, `some []` for a remove, `none` when untargeted. -/
def lastWritten (did slot : Nat) (ops : List VOp) : Option Str :=
  ops.foldl
    (fun acc op =>
      match op with
      | .add d s v => if d = did ∧ s = slot then some v else acc
      | .rem d s => if d = did ∧ s = slot then some [] else acc) none

/-- What the pending-change buffer holds for `(did, slot)`. -/
def bufLookup (chs : List (Nat × List (Nat × Str))) (did slot : Nat) :
    Option Str :=
  match alFind slot chs with
  | some m => alFind did m
  | none => none

/-- Well-formedness of the pending-change buffer: slots ascending, inner
docids ascending and storable. -/
def ChangesWF (chs : List (Nat × List (Nat × Str))) : Prop :=
  List.Pairwise (fun a b => a.1 < b.1) chs ∧
  ∀ p ∈ chs, List.Pairwise (fun a b : Nat × Str => a.1 < b.1) p.2 ∧
    ∀ e ∈ p.2, 1 ≤ e.1 ∧ e.1 ≤ u32Max ∧ e.2.length ≤ sizeMax

/-- The effect of one buffered write on the change map. -/
theorem upsert_changes_spec (chs : List (Nat × List (Nat × Str)))
    (slot did : Nat) (val : Str) (hwf : ChangesWF chs) (hd1 : 1 ≤ did)
    (hd2 : did ≤ u32Max) (hv : val.length ≤ sizeMax) :
    ChangesWF (alUpsert slot
      (alUpsert did val ((alFind slot chs).getD [])) chs) ∧
    ∀ did' slot',
      bufLookup (alUpsert slot
        (alUpsert did val ((alFind slot chs).getD [])) chs) did' slot' =
      if did' = did ∧ slot' = slot then some val
      else bufLookup chs did' slot' := by
  have hmWF : List.Pairwise (fun a b : Nat × Str => a.1 < b.1)
      ((alFind slot chs).getD []) ∧
      ∀ e ∈ (alFind slot chs).getD [],
        1 ≤ e.1 ∧ e.1 ≤ u32Max ∧ e.2.length ≤ sizeMax := by
    cases hfind : alFind slot chs with
    | none => simp
    | some m =>
      have hmem := alFind_mem hfind
      have := hwf.2 (slot, m) hmem
      simpa using this
  constructor
  · constructor
    · exact alUpsert_pairwise _ _ hwf.1
    · intro p hp
      rcases mem_alUpsert hp with rfl | hm
      · constructor
        · exact alUpsert_pairwise _ _ hmWF.1
        · intro e he
          rcases mem_alUpsert he with rfl | hm2
          · exact ⟨hd1, hd2, hv⟩
          · exact hmWF.2 e hm2
      · exact hwf.2 p hm
  · intro did' slot'
    by_cases hsl : slot' = slot
    · subst hsl
      unfold bufLookup
      rw [alFind_alUpsert_self]
      simp only []
      by_cases hdd : did' = did
      · subst hdd
        rw [alFind_alUpsert_self]
        rw [if_pos ⟨rfl, trivial⟩]
      · rw [alFind_alUpsert_other (Ne.symm hdd)]
        rw [if_neg (fun hc => hdd hc.1)]
        cases hfind : alFind slot' chs with
        | none => rfl
        | some m => rfl
    · unfold bufLookup
      rw [alFind_alUpsert_other (Ne.symm hsl)]
      rw [if_neg (fun hc => hsl hc.2)]

/-- Running buffered writes: the table is untouched, the buffer stays
well-formed, and each `(did, slot)` holds the last write targeting it. -/
theorem opsFold_spec :
    ∀ (ops : List VOp) (st : MState),
      (∀ op ∈ ops, 1 ≤ op.did ∧ op.did ≤ u32Max ∧
        op.val.length ≤ sizeMax) →
      ChangesWF st.changes →
      (ops.foldl applyOp st).table = st.table ∧
      ChangesWF ((ops.foldl applyOp st).changes) ∧
      ∀ did slot, bufLookup ((ops.foldl applyOp st).changes) did slot =
        ops.foldl
          (fun acc op =>
            match op with
            | .add d s v => if d = did ∧ s = slot then some v else acc
            | .rem d s => if d = did ∧ s = slot then some [] else acc)
          (bufLookup st.changes did slot) := by
  intro ops
  induction ops with
  | nil =>
    intro st _ hwf
    exact ⟨rfl, hwf, fun _ _ => rfl⟩
  | cons op t ih =>
    intro st hok hwf
    have hop := hok op (List.mem_cons_self _ _)
    have hokt : ∀ x ∈ t, 1 ≤ x.did ∧ x.did ≤ u32Max ∧
        x.val.length ≤ sizeMax :=
      fun x hx => hok x (List.mem_cons_of_mem _ hx)
    cases op with
    | add d s v =>
      have hop2 : 1 ≤ d ∧ d ≤ u32Max ∧ v.length ≤ sizeMax := hop
      obtain ⟨hwf2, hbuf⟩ := upsert_changes_spec st.changes s d v hwf
        hop2.1 hop2.2.1 hop2.2.2
      have hstep : (t.foldl applyOp (applyOp st (.add d s v))) =
          t.foldl applyOp (add_value st d s v) := rfl
      obtain ⟨ht, hw, hb⟩ := ih (add_value st d s v) hokt hwf2
      refine ⟨ht, hw, ?_⟩
      intro did slot
      rw [List.foldl_cons]
      rw [show (t.foldl applyOp (applyOp st (VOp.add d s v))).changes =
        (t.foldl applyOp (add_value st d s v)).changes from rfl]
      rw [hb did slot]
      rw [show bufLookup (add_value st d s v).changes did slot =
        bufLookup (alUpsert s (alUpsert d v
          ((alFind s st.changes).getD [])) st.changes) did slot from rfl]
      rw [hbuf did slot]
      have hinit : (if did = d ∧ slot = s then some v
            else bufLookup st.changes did slot) =
          (if d = did ∧ s = slot then some v
            else bufLookup st.changes did slot) := by
        by_cases h1 : d = did
        · by_cases h2 : s = slot
          · subst h1
            subst h2
            rfl
          · rw [if_neg (fun hc => h2 hc.2.symm), if_neg (fun hc => h2 hc.2)]
        · rw [if_neg (fun hc => h1 hc.1.symm), if_neg (fun hc => h1 hc.1)]
      rw [hinit, List.foldl_cons]
    | rem d s =>
      have hop2 : 1 ≤ d ∧ d ≤ u32Max := ⟨hop.1, hop.2.1⟩
      obtain ⟨hwf2, hbuf⟩ := upsert_changes_spec st.changes s d [] hwf
        hop2.1 hop2.2 (by simp [sizeMax])
      obtain ⟨ht, hw, hb⟩ := ih (remove_value st d s) hokt hwf2
      refine ⟨ht, hw, ?_⟩
      intro did slot
      rw [List.foldl_cons]
      rw [show (t.foldl applyOp (applyOp st (VOp.rem d s))).changes =
        (t.foldl applyOp (remove_value st d s)).changes from rfl]
      rw [hb did slot]
      rw [show bufLookup (remove_value st d s).changes did slot =
        bufLookup (alUpsert s (alUpsert d []
          ((alFind s st.changes).getD [])) st.changes) did slot from rfl]
      rw [hbuf did slot]
      have hinit : (if did = d ∧ slot = s then some []
            else bufLookup st.changes did slot) =
          (if d = did ∧ s = slot then some []
            else bufLookup st.changes did slot) := by
        by_cases h1 : d = did
        · by_cases h2 : s = slot
          · subst h1
            subst h2
            rfl
          · rw [if_neg (fun hc => h2 hc.2.symm), if_neg (fun hc => h2 hc.2)]
        · rw [if_neg (fun hc => h1 hc.1.symm), if_neg (fun hc => h1 hc.1)]
      rw [hinit, List.foldl_cons]

theorem alFind_none_imp {α : Type} {k : Nat} :
    ∀ {l : List (Nat × α)}, alFind k l = none → ∀ p ∈ l, p.1 ≠ k := by
  intro l
  induction l with
  | nil => intro _ p hp; simp at hp
  | cons e t ih =>
    intro h p hp
    obtain ⟨k', v'⟩ := e
    unfold alFind at h
    by_cases h1 : k' = k
    · rw [if_pos h1] at h
      cases h
    · rw [if_neg h1] at h
      rcases List.mem_cons.mp hp with rfl | hm
      · exact h1
      · exact ih h p hm

theorem alFind_filter_getD (did : Nat) :
    ∀ (m : List (Nat × Str)),
      List.Pairwise (fun a b : Nat × Str => a.1 < b.1) m →
      (alFind did (m.filter (fun e => !e.2.isEmpty))).getD [] =
        (alFind did m).getD [] := by
  intro m
  induction m with
  | nil => intro _; rfl
  | cons e t ih =>
    intro hp
    obtain ⟨d, v⟩ := e
    rw [List.pairwise_cons] at hp
    by_cases hv : v.isEmpty
    · have hfil : ((d, v) :: t).filter (fun e => !e.2.isEmpty) =
          t.filter (fun e => !e.2.isEmpty) := by
        simp [List.filter_cons, hv]
      rw [hfil]
      by_cases hd : d = did
      · subst hd
        have hveq : v = [] := by
          cases v with
          | nil => rfl
          | cons a b => simp at hv
        subst hveq
        have hnone : alFind d (t.filter (fun e => !e.2.isEmpty)) = none := by
          refine alFind_eq_none_of_ne ?_
          intro x hx
          have := hp.1 x (List.mem_of_mem_filter hx)
          simp only at this
          omega
        rw [hnone]
        rw [show alFind d ((d, []) :: t) = some [] from by
          show (if d = d then some [] else _) = _
          rw [if_pos rfl]]
        rfl
      · rw [ih hp.2]
        rw [show alFind did ((d, v) :: t) = alFind did t from by
          show (if d = did then some v else _) = _
          rw [if_neg hd]]
    · have hfil : ((d, v) :: t).filter (fun e => !e.2.isEmpty) =
          (d, v) :: t.filter (fun e => !e.2.isEmpty) := by
        simp [List.filter_cons, hv]
      rw [hfil]
      by_cases hd : d = did
      · subst hd
        rw [show alFind d ((d, v) :: t.filter (fun e => !e.2.isEmpty)) =
            some v from by
          show (if d = d then some v else _) = _
          rw [if_pos rfl]]
        rw [show alFind d ((d, v) :: t) = some v from by
          show (if d = d then some v else _) = _
          rw [if_pos rfl]]
      · rw [show alFind did ((d, v) :: t.filter (fun e => !e.2.isEmpty)) =
            alFind did (t.filter (fun e => !e.2.isEmpty)) from by
          show (if d = did then some v else _) = _
          rw [if_neg hd]]
        rw [show alFind did ((d, v) :: t) = alFind did t from by
          show (if d = did then some v else _) = _
          rw [if_neg hd]]
        exact ih hp.2

/-- `merge_changes`'s fold over the slots, from a table holding none of
their chunks. -/
theorem mergeFold_fresh :
    ∀ (chs : List (Nat × List (Nat × Str))) (T : Table),
      SortedT T →
      (∀ p ∈ chs, slotChunks p.1 T = []) →
      (∀ p ∈ chs, List.Pairwise (fun a b : Nat × Str => a.1 < b.1) p.2 ∧
        ∀ e ∈ p.2, 1 ≤ e.1 ∧ e.1 ≤ u32Max ∧ e.2.length ≤ sizeMax) →
      List.Pairwise (fun a b => a.1 < b.1) chs →
      ∃ T2, chs.foldlM (fun T p => mergeSlot p.1 p.2 T) T = .ok T2 ∧
        SortedT T2 ∧
        (∀ s, (∀ p ∈ chs, p.1 ≠ s) → slotChunks s T2 = slotChunks s T) ∧
        (∀ p ∈ chs, slotChunks p.1 T2 =
          chunkPairs (chunkifyFrom [] (p.2.filter (fun e => !e.2.isEmpty)))) := by
  intro chs
  induction chs with
  | nil =>
    intro T hs _ _ _
    exact ⟨T, rfl, hs, fun _ _ => rfl, fun p hp => by simp at hp⟩
  | cons c t ih =>
    intro T hs hnoc hwf hpw
    obtain ⟨s0, ed⟩ := c
    rw [List.pairwise_cons] at hpw
    have hwf0 := hwf (s0, ed) (List.mem_cons_self _ _)
    have hed : ∀ e ∈ ed, e.1 ≤ u32Max := fun e he => (hwf0.2 e he).2.1
    have hms := mergeSlot_fresh s0 ed T hs
      (hnoc (s0, ed) (List.mem_cons_self _ _)) hwf0.1 hed
    have hgoodCS : GoodChunks
        (chunkifyFrom [] (ed.filter (fun e => !e.2.isEmpty))) :=
      GoodChunks_chunkifyFrom _
        (hwf0.1.sublist (List.filter_sublist ed))
        (fun e he => hwf0.2 e (List.mem_of_mem_filter he))
    have hT1sorted : SortedT (addChunks s0
        (chunkifyFrom [] (ed.filter (fun e => !e.2.isEmpty))) T) :=
      SortedT_addChunks s0 _ T hs
    have hT1self : slotChunks s0 (addChunks s0
        (chunkifyFrom [] (ed.filter (fun e => !e.2.isEmpty))) T) =
        chunkPairs (chunkifyFrom [] (ed.filter (fun e => !e.2.isEmpty))) := by
      rw [slotChunks_addChunks_self s0 _ T hs
        (chunkFirst_pairwise_of_good hgoodCS)
        (fun p hp => by
          rw [hnoc (s0, ed) (List.mem_cons_self _ _)] at hp
          simp at hp)]
      rw [hnoc (s0, ed) (List.mem_cons_self _ _)]
      rfl
    have hT1frame : ∀ s, s ≠ s0 → slotChunks s (addChunks s0
        (chunkifyFrom [] (ed.filter (fun e => !e.2.isEmpty))) T) =
        slotChunks s T :=
      fun s hss => slotChunks_addChunks_frame hss _ T
    obtain ⟨T2, hfold, hsorted2, hframe2, hself2⟩ := ih _ hT1sorted
      (fun p hp => by
        have hne0 : p.1 ≠ s0 := by
          have := hpw.1 p hp
          simp only at this
          omega
        rw [hT1frame p.1 hne0]
        exact hnoc p (List.mem_cons_of_mem _ hp))
      (fun p hp => hwf p (List.mem_cons_of_mem _ hp)) hpw.2
    refine ⟨T2, ?_, hsorted2, ?_, ?_⟩
    · rw [List.foldlM_cons]
      simp only []
      rw [hms, exBind_ok]
      exact hfold
    · intro s hns
      rw [hframe2 s (fun p hp => hns p (List.mem_cons_of_mem _ hp))]
      exact hT1frame s (fun hc =>
        hns (s0, ed) (List.mem_cons_self _ _) (by rw [hc]))
    · intro p hp
      rcases List.mem_cons.mp hp with heq | hm
      · rw [heq]
        show slotChunks s0 T2 =
          chunkPairs (chunkifyFrom [] (ed.filter (fun e => !e.2.isEmpty)))
        rw [hframe2 s0 (fun q hq => by
          have := hpw.1 q hq
          simp only at this
          omega)]
        exact hT1self
      · exact hself2 p hm

/-- C1: for every finite sequence of `add_value`/`remove_value` calls on a
fresh manager followed by one `merge_changes`, `get_value(did, slot)`
returns the value of the last `add_value` for that pair, or the empty
string if the last operation was a `remove_value` or no operation targeted
the pair. -/
theorem claim_C1_last_write_wins (ops : List VOp) (did slot : Nat)
    (hok : ∀ op ∈ ops, 1 ≤ op.did ∧ op.did ≤ u32Max ∧
      op.val.length ≤ sizeMax) :
    ∃ st2, merge_changes (runOps ops) = .ok st2 ∧
      get_value st2 did slot = .ok ((lastWritten did slot ops).getD []) := by
  obtain ⟨ht, hwf, hb⟩ := opsFold_spec ops MState.init hok
    ⟨List.Pairwise.nil, fun p hp => absurd hp (List.not_mem_nil p)⟩
  have htable : (runOps ops).table = [] := ht
  have hlast : bufLookup (runOps ops).changes did slot =
      lastWritten did slot ops := hb did slot
  obtain ⟨T2, hfold, hsorted2, hframe2, hself2⟩ :=
    mergeFold_fresh (runOps ops).changes (runOps ops).table
      (by rw [htable]; exact List.Pairwise.nil)
      (fun p hp => by rw [htable]; rfl)
      hwf.2 hwf.1
  refine ⟨{ runOps ops with table := T2, changes := [] }, ?_, ?_⟩
  · unfold merge_changes
    rw [hfold, exBind_ok]
    rfl
  · show get_value_from_table T2 did slot = _
    cases hfind : alFind slot (runOps ops).changes with
    | some m =>
      have hmem := alFind_mem hfind
      have hwfm := hwf.2 (slot, m) hmem
      have hwfm1 : List.Pairwise (fun a b : Nat × Str => a.1 < b.1) m :=
        hwfm.1
      have hwfm2 : ∀ e ∈ m, 1 ≤ e.1 ∧ e.1 ≤ u32Max ∧
          e.2.length ≤ sizeMax := hwfm.2
      have hrepr : SlotRepr slot T2
          (chunkifyFrom [] (m.filter (fun e => !e.2.isEmpty))) := by
        refine ⟨?_, GoodChunks_chunkifyFrom _
          (hwfm1.sublist (List.filter_sublist m))
          (fun e he => hwfm2 e (List.mem_of_mem_filter he))⟩
        exact hself2 (slot, m) hmem
      rw [get_value_from_table_spec slot did T2 _ hsorted2 hrepr]
      rw [chunkifyFrom_nil_flat]
      rw [alFind_filter_getD did m hwfm1]
      rw [show (lastWritten did slot ops) = alFind did m from by
        rw [← hlast]
        unfold bufLookup
        rw [hfind]]
    | none =>
      have hnomem : ∀ p ∈ (runOps ops).changes, p.1 ≠ slot :=
        alFind_none_imp hfind
      have hrepr : SlotRepr slot T2 [] := by
        constructor
        · rw [hframe2 slot hnomem, htable]
          rfl
        · exact ⟨fun c hc => by simp at hc, List.Pairwise.nil,
            fun e he => by simp [flatEntries] at he⟩
      rw [get_value_from_table_spec slot did T2 [] hsorted2 hrepr]
      rw [show (lastWritten did slot ops) = none from by
        rw [← hlast]
        unfold bufLookup
        rw [hfind]]
      rfl

/-- Witness for C1: a concrete batch with two adds and a remove; the
surviving add is returned after the merge. -/
theorem claim_C1_witness :
    (∀ op ∈ ([VOp.add 3 1 [10], VOp.add 5 1 [20], VOp.rem 3 1] : List VOp),
      1 ≤ op.did ∧ op.did ≤ u32Max ∧ op.val.length ≤ sizeMax) ∧
    ∃ st2, merge_changes (runOps [VOp.add 3 1 [10], VOp.add 5 1 [20],
        VOp.rem 3 1]) = .ok st2 ∧
      get_value st2 5 1 = .ok ((lastWritten 5 1 [VOp.add 3 1 [10],
        VOp.add 5 1 [20], VOp.rem 3 1]).getD []) :=
  ⟨by decide, claim_C1_last_write_wins
    [VOp.add 3 1 [10], VOp.add 5 1 [20], VOp.rem 3 1] 5 1 (by decide)⟩

theorem append_new_first_of_empty_tag {u : UpdState} (slot did : Nat)
    (v : Str) (T : Table) (h : u.tag = []) :
    (append_to_stream slot did v u T).1.new_first_did = did := by
  unfold append_to_stream
  have hemp : u.tag.isEmpty = true := by rw [h]; rfl
  rw [if_pos hemp]
  by_cases hth : CHUNK_SIZE_THRESHOLD ≤ (pack_string v).length
  · rw [if_pos hth]
    rfl
  · rw [if_neg hth]

/-- C3: at `write_tag` time an empty tag stores no key and a non-empty tag
is stored under its first encoded docid, which its reader hands back; the
tag is below `CHUNK_SIZE_THRESHOLD` before every append, so at most the
final append straddles the threshold, and an append that reaches it forces
the chunk out at once, making the next appended docid open a fresh chunk
keyed by itself. -/
theorem claim_C3_chunk_boundaries (slot did did2 : Nat) (value v2 : Str)
    (u : UpdState) (T : Table) (c : List Entry) (hw : WChunk u c)
    (hgt : c ≠ [] → chunkLast c < did)
    (hbc : ∀ e ∈ c, e.2.length ≤ sizeMax) :
    u.tag.length < CHUNK_SIZE_THRESHOLD ∧
    (c = [] → (write_tag slot u T).2 =
      (if u.first_did ≠ 0 ∧ u.new_first_did ≠ u.first_did
       then tableDel (.chunk slot u.first_did) T else T)) ∧
    (c ≠ [] → tableGet (.chunk slot (chunkFirst c)) (write_tag slot u T).2 =
      some (encodeChunk c)) ∧
    (c ≠ [] → ∃ r, ValueChunkReader.assign (encodeChunk c) (chunkFirst c) =
      .ok r ∧ r.did = chunkFirst c ∧ r.value = (c.headD (0, [])).2) ∧
    ((encodeChunk (c ++ [(did, value)])).length < CHUNK_SIZE_THRESHOLD →
      (append_to_stream slot did value u T).2 = T ∧
      WChunk (append_to_stream slot did value u T).1 (c ++ [(did, value)])) ∧
    (CHUNK_SIZE_THRESHOLD ≤ (encodeChunk (c ++ [(did, value)])).length →
      tableGet (.chunk slot (chunkFirst (c ++ [(did, value)])))
        (append_to_stream slot did value u T).2 =
        some (encodeChunk (c ++ [(did, value)])) ∧
      (append_to_stream slot did value u T).1.tag = [] ∧
      ∀ (T3 : Table),
        (append_to_stream slot did2 v2
          (append_to_stream slot did value u T).1 T3).1.new_first_did =
          did2) := by
  refine ⟨hw.2.1, ?_, ?_, ?_, ?_, ?_⟩
  · intro hc
    subst hc
    rw [write_tag_empty slot T hw.1]
  · intro hc
    rw [write_tag_nonempty slot T (by rw [hw.1]; exact encodeChunk_ne_nil hc)]
    show tableGet (.chunk slot (chunkFirst c))
      (tableAdd (.chunk slot u.new_first_did) u.tag _) = _
    rw [(hw.2.2 hc).1, hw.1]
    exact tableGet_tableAdd_self _ _ _
  · intro hc
    obtain ⟨e0, es, rfl⟩ : ∃ e0 es, c = e0 :: es := by
      cases hq : c with
      | nil => exact absurd hq hc
      | cons e0 es => exact ⟨e0, es, rfl⟩
    obtain ⟨f, v0⟩ := e0
    refine ⟨⟨some (encodeRest f es), chunkFirst ((f, v0) :: es), v0⟩, ?_,
      rfl, rfl⟩
    have hass := @assign_encodeChunk f v0 es
      (hbc (f, v0) (List.mem_cons_self _ _))
    show ValueChunkReader.assign (encodeChunk ((f, v0) :: es)) f = _
    rw [hass]
    rfl
  · intro hlen
    obtain ⟨heq, hWC⟩ := append_to_stream_small slot did value T hw hgt hlen
    rw [heq]
    exact ⟨rfl, hWC⟩
  · intro hlen
    have heq := append_to_stream_big slot did value T hw hgt hlen
    have hwt := @write_tag_nonempty
      { u with new_first_did := chunkFirst (c ++ [(did, value)]),
               prev_did := did, tag := encodeChunk (c ++ [(did, value)]) }
      slot T (encodeChunk_ne_nil (by simp))
    refine ⟨?_, ?_, ?_⟩
    · rw [heq, hwt]
      exact tableGet_tableAdd_self _ _ _
    · rw [heq, hwt]
    · intro T3
      have htag : (append_to_stream slot did value u T).1.tag = [] := by
        rw [heq, hwt]
      exact append_new_first_of_empty_tag slot did2 v2 T3 htag

/-- Witness for C3: the fresh writer satisfies the invariant, and a small
first append joins the open chunk without touching the table. -/
theorem claim_C3_witness :
    WChunk UpdState.init [] ∧
    ((encodeChunk (([] : List Entry) ++ [(1, [7])])).length <
        CHUNK_SIZE_THRESHOLD →
      (append_to_stream 0 1 [7] UpdState.init []).2 = [] ∧
      WChunk (append_to_stream 0 1 [7] UpdState.init []).1
        (([] : List Entry) ++ [(1, [7])])) :=
  ⟨⟨rfl, by decide, fun h => absurd rfl h⟩,
   (claim_C3_chunk_boundaries 0 1 2 [7] [8] UpdState.init [] []
     ⟨rfl, by decide, fun h => absurd rfl h⟩ (fun h => absurd rfl h)
     (fun e he => absurd he (List.not_mem_nil e))).2.2.2.2.1⟩

theorem copyLoop_stop {u : UpdState} (slot target : Nat) (T : Table)
    (h : ¬ u.reader.did < target) : copyLoop slot target u T = .ok (u, T) := by
  show copyLoopF (readerMeasure u.reader + 1) slot target u T = _
  simp only [copyLoopF]
  by_cases hend : u.reader.at_end = true
  · rw [if_pos hend]
  · rw [if_neg hend, if_neg h]

/-- `update` with an empty value whose docid is an existing chunk's first
docid: the chunk is opened, the first entry is superseded, and nothing is
appended. -/
theorem update_remove_first (slot did : Nat) (v0 : Str) (es : List Entry)
    {T : Table} (hs : SortedT T)
    (hpred : predChunk slot did T = some (did, encodeChunk ((did, v0) :: es)))
    (hd1 : 1 ≤ did) (hv0 : v0.length ≤ sizeMax)
    (hbnd : ∀ e ∈ (did, v0) :: es, 1 ≤ e.1 ∧ e.1 ≤ u32Max ∧
      e.2.length ≤ sizeMax)
    (hpw : List.Pairwise (fun a b : Entry => a.1 < b.1) ((did, v0) :: es)) :
    ∃ la r2, update slot did [] UpdState.init T =
      .ok ({ UpdState.init with last_allowed_did := la, new_first_did := 0, first_did := did, ctag := encodeChunk ((did, v0) :: es), reader := r2 }, T) ∧
      (es = [] → r2 = ⟨none, did, v0⟩) ∧
      (∀ e1 es2, es = e1 :: es2 → Represents r2 e1 es2) := by
  have hfe := (findLE_of_predChunk_some hs hpred).1
  have hrep0 : Represents ⟨some (encodeRest did es), did, v0⟩ (did, v0) es :=
    ⟨rfl, rfl, rfl⟩
  obtain ⟨r2, hnext, hr2⟩ : ∃ r2,
      ValueChunkReader.next ⟨some (encodeRest did es), did, v0⟩ = .ok r2 ∧
      ((es = [] → r2 = ⟨none, did, v0⟩) ∧
       (∀ e1 es2, es = e1 :: es2 → Represents r2 e1 es2)) := by
    cases es with
    | nil =>
      refine ⟨⟨none, did, v0⟩, ?_, fun _ => rfl,
        fun e1 es2 hc => absurd hc (by simp)⟩
      exact @next_Represents_nil ⟨some (encodeRest did []), did, v0⟩
        (did, v0) ⟨rfl, rfl, rfl⟩
    | cons e1 es2 =>
      rw [List.pairwise_cons] at hpw
      obtain ⟨d1, v1⟩ := e1
      have hb1 := hbnd (d1, v1) (by simp)
      obtain ⟨r2, hn, hr⟩ := next_Represents_cons
        (show Represents ⟨some (encodeRest did ((d1, v1) :: es2)), did, v0⟩
          ((did, v0) : Entry) ((d1, v1) :: es2) from ⟨rfl, rfl, rfl⟩)
        (by
          have := hpw.1 (d1, v1) (by simp)
          simpa using this)
        hb1.2.1 hb1.2.2
      refine ⟨r2, hn, fun hc => absurd hc (by simp), ?_⟩
      intro e1' es2' hc
      injection hc with hc1 hc2
      rw [← hc1, ← hc2]
      exact hr
  refine ⟨(match cursorNextAfter (TKey.chunk slot did) T with
    | some e2 =>
        if docid_from_key slot e2.1 ≠ 0 then docid_from_key slot e2.1 - 1
        else HONEY_MAX_DOCID
    | none => HONEY_MAX_DOCID), r2, ?_, hr2.1, hr2.2⟩
  unfold update
  rw [if_neg (show ¬ (UpdState.init.last_allowed_did ≠ 0 ∧
    UpdState.init.last_allowed_did < did) from fun hc => hc.1 rfl),
    exBind_pure]
  simp only []
  rw [if_pos (show UpdState.init.last_allowed_did = 0 from rfl)]
  simp only [hfe]
  rw [if_pos (trivial : True)]
  rw [if_pos (show did ≠ 0 from by omega)]
  rw [assign_encodeChunk hv0, exBind_ok, exBind_pure]
  simp only []
  rw [exBind_pure]
  simp only []
  rw [copyLoop_stop slot did T (by
    show ¬ (did < did)
    omega), exBind_ok]
  simp only []
  rw [if_pos (show (ValueChunkReader.at_end
      ⟨some (encodeRest did es), did, v0⟩) = false ∧ True from
      ⟨rfl, trivial⟩)]
  rw [hnext, exBind_ok, exBind_pure]
  rw [if_pos (show ([] : Str).isEmpty = true from rfl)]
  rfl

theorem readerMeasure_some {r : ValueChunkReader} {l : Str}
    (h : r.rem = some l) : readerMeasure r = l.length + 1 := by
  unfold readerMeasure
  rw [h]

theorem encodeRest_split (y : List Entry) :
    ∀ (x : List Entry) (p : Nat),
      encodeRest p (x ++ y) =
        encodeRest p x ++ encodeRest (lastDidFrom p x) y := by
  intro x
  induction x with
  | nil => intro p; rfl
  | cons e t ih =>
    intro p
    obtain ⟨d, v⟩ := e
    show pack_uint (d - p - 1) ++ pack_string v ++ encodeRest d (t ++ y) = _
    rw [ih d, lastDidFrom_cons]
    have h2 : encodeRest p ((d, v) :: t) =
        pack_uint (d - p - 1) ++ pack_string v ++ encodeRest d t := rfl
    rw [h2]
    simp [List.append_assoc]

theorem encodeChunk_append_le {a : List Entry} (ha : a ≠ [])
    (b : List Entry) :
    (encodeChunk a).length ≤ (encodeChunk (a ++ b)).length := by
  obtain ⟨e0, t, rfl⟩ : ∃ e0 t, a = e0 :: t := by
    cases hq : a with
    | nil => exact absurd hq ha
    | cons e0 t => exact ⟨e0, t, rfl⟩
  obtain ⟨d0, v0⟩ := e0
  show (pack_string v0 ++ encodeRest d0 t).length ≤
    (pack_string v0 ++ encodeRest d0 (t ++ b)).length
  rw [encodeRest_split b t d0]
  simp only [List.length_append]
  omega

/-- Draining a represented reader appends every remaining entry to the
open chunk; with the total size below threshold nothing is flushed. -/
theorem drainLoop_represents :
    ∀ (rest : List Entry) (slot : Nat) (u : UpdState) (T : Table)
      (cur : Entry) (c : List Entry),
      Represents u.reader cur rest →
      WChunk u c →
      List.Pairwise (fun a b : Entry => a.1 < b.1) (c ++ cur :: rest) →
      (∀ e ∈ cur :: rest, e.1 ≤ u32Max ∧ e.2.length ≤ sizeMax) →
      (encodeChunk (c ++ cur :: rest)).length < CHUNK_SIZE_THRESHOLD →
      ∃ u2, drainLoop slot u T = .ok (u2, T) ∧
        WChunk u2 (c ++ cur :: rest) ∧ u2.reader.at_end = true ∧
        u2.first_did = u.first_did ∧ u2.ctag = u.ctag ∧
        u2.last_allowed_did = u.last_allowed_did := by
  intro rest
  induction rest with
  | nil =>
    intro slot u T cur c hrep hw hpw hbnd hlen
    have hend := hrep.not_at_end
    have hnext := next_Represents_nil hrep
    have hgt : c ≠ [] → chunkLast c < cur.1 := by
      intro hc
      obtain ⟨x, hxmem, hxeq⟩ := chunkLast_mem hc
      rw [List.pairwise_append] at hpw
      have := hpw.2.2 x hxmem cur (by simp)
      omega
    obtain ⟨heq, hW⟩ := append_to_stream_small slot cur.1 cur.2 T hw hgt
      (by
        have h2 : c ++ [(cur.1, cur.2)] = c ++ cur :: [] := by simp
        rw [h2]
        exact hlen)
    have hun : drainLoop slot u T =
        drainLoopF (readerMeasure u.reader) slot
          { (append_to_stream slot u.reader.did u.reader.value u T).1 with
            reader := ⟨none, u.reader.did, u.reader.value⟩ }
          (append_to_stream slot u.reader.did u.reader.value u T).2 := by
      show drainLoopF (readerMeasure u.reader + 1) slot u T = _
      simp only [drainLoopF]
      rw [if_neg (by rw [hend]; simp), hnext]
    rw [hun]
    have hm0 : 0 < readerMeasure u.reader := by
      rw [readerMeasure_some hrep.2.2]
      omega
    rw [drainLoopF_congr (show readerMeasure (⟨none, u.reader.did,
      u.reader.value⟩ : ValueChunkReader) < readerMeasure u.reader from hm0)
      (Nat.lt_succ_self _)]
    rw [show u.reader.did = cur.1 from hrep.1,
      show u.reader.value = cur.2 from hrep.2.1, heq]
    refine ⟨{ ({ u with new_first_did := chunkFirst (c ++ [(cur.1, cur.2)]), prev_did := cur.1, tag := encodeChunk (c ++ [(cur.1, cur.2)]) } : UpdState) with reader := ⟨none, cur.1, cur.2⟩ }, rfl, ?_, rfl, rfl, rfl, rfl⟩
    have h2 : c ++ cur :: [] = c ++ [(cur.1, cur.2)] := by simp
    rw [h2]
    exact hW
  | cons e2 rest2 ih =>
    intro slot u T cur c hrep hw hpw hbnd hlen
    have hend := hrep.not_at_end
    have hcur2 : cur.1 < e2.1 := by
      rw [List.pairwise_append] at hpw
      have := hpw.2.1
      rw [List.pairwise_cons] at this
      have h3 := this.1 e2 (by simp)
      obtain ⟨d2, v2⟩ := e2
      simpa using h3
    obtain ⟨d2, v2⟩ := e2
    have hb2 := hbnd (d2, v2) (by simp)
    obtain ⟨r2, hnext, hrep2⟩ := next_Represents_cons hrep hcur2
      hb2.1 hb2.2
    have hgt : c ≠ [] → chunkLast c < cur.1 := by
      intro hc
      obtain ⟨x, hxmem, hxeq⟩ := chunkLast_mem hc
      rw [List.pairwise_append] at hpw
      have := hpw.2.2 x hxmem cur (by simp)
      omega
    have hassoc : (c ++ [cur]) ++ (d2, v2) :: rest2 =
        c ++ cur :: (d2, v2) :: rest2 := by simp
    obtain ⟨heq, hW⟩ := append_to_stream_small slot cur.1 cur.2 T hw hgt
      (by
        have hle := encodeChunk_append_le
          (show c ++ [cur] ≠ [] from by simp) ((d2, v2) :: rest2)
        rw [hassoc] at hle
        have h2 : c ++ [(cur.1, cur.2)] = c ++ [cur] := by simp
        rw [h2]
        omega)
    have hun : drainLoop slot u T =
        drainLoopF (readerMeasure u.reader) slot
          { (append_to_stream slot u.reader.did u.reader.value u T).1 with
            reader := r2 }
          (append_to_stream slot u.reader.did u.reader.value u T).2 := by
      show drainLoopF (readerMeasure u.reader + 1) slot u T = _
      simp only [drainLoopF]
      rw [if_neg (by rw [hend]; simp), hnext]
    rw [hun]
    have hdec : readerMeasure r2 < readerMeasure u.reader :=
      readerMeasure_next (by rw [hend]) hnext
    rw [drainLoopF_congr
      (show readerMeasure ({ (append_to_stream slot u.reader.did
        u.reader.value u T).1 with reader := r2 } : UpdState).reader <
        readerMeasure u.reader from hdec)
      (Nat.lt_succ_self _)]
    rw [show u.reader.did = cur.1 from hrep.1,
      show u.reader.value = cur.2 from hrep.2.1, heq]
    obtain ⟨u2, heq2, hW2, hend2, hfd2, hct2, hla2⟩ := ih slot
      ({ ({ u with new_first_did := chunkFirst (c ++ [(cur.1, cur.2)]), prev_did := cur.1, tag := encodeChunk (c ++ [(cur.1, cur.2)]) } : UpdState) with reader := r2 }) T (d2, v2) (c ++ [cur]) hrep2
      (by
        have h2 : c ++ [cur] = c ++ [(cur.1, cur.2)] := by simp
        rw [h2]
        exact hW)
      (by rw [hassoc]; exact hpw)
      (fun e he => hbnd e (List.mem_cons_of_mem _ he))
      (by rw [hassoc]; exact hlen)
    refine ⟨u2, heq2, ?_, hend2, ?_, ?_, ?_⟩
    · have h2 : c ++ cur :: (d2, v2) :: rest2 =
          (c ++ [cur]) ++ (d2, v2) :: rest2 := by simp
      rw [h2]
      exact hW2
    · rw [hfd2]
    · rw [hct2]
    · rw [hla2]

theorem filter_getLast_exact {did : Nat} {tag : Str} :
    ∀ {l : List (Nat × Str)}, l.Pairwise (fun a b => a.1 < b.1) →
      (did, tag) ∈ l →
      (l.filter (fun c => c.1 ≤ did)).getLast? = some (did, tag) := by
  intro l
  induction l with
  | nil => intro _ h; simp at h
  | cons e t ih =>
    intro hpw hmem
    rw [List.pairwise_cons] at hpw
    rcases List.mem_cons.mp hmem with heq | hmem2
    · have hft : t.filter (fun c => c.1 ≤ did) = [] := by
        rw [List.filter_eq_nil]
        intro x hx
        have := hpw.1 x hx
        rw [← heq] at this
        simp at this ⊢
        omega
      rw [← heq, List.filter_cons_of_pos (by simp), hft]
      rfl
    · have helt : e.1 < did := hpw.1 (did, tag) hmem2
      have hih := ih hpw.2 hmem2
      rw [List.filter_cons_of_pos (by simp; omega)]
      cases hl2 : t.filter (fun c => c.1 ≤ did) with
      | nil => rw [hl2] at hih; simp at hih
      | cons b tb =>
        rw [List.getLast?_cons_cons]
        rw [hl2] at hih
        exact hih

/-- A chunk key present in a sorted table is its own exact predecessor. -/
theorem predChunk_exact {slot did : Nat} {tag : Str} {T : Table}
    (hs : SortedT T) (hmem : (TKey.chunk slot did, tag) ∈ T) :
    predChunk slot did T = some (did, tag) :=
  filter_getLast_exact (slotChunks_pairwise slot hs) (mem_slotChunks.mpr hmem)

theorem encodeChunk_tail_le (d0 : Nat) (v0 : Str) (e1 : Entry)
    (es2 : List Entry) :
    (encodeChunk (e1 :: es2)).length ≤
      (encodeChunk ((d0, v0) :: e1 :: es2)).length := by
  obtain ⟨d1, v1⟩ := e1
  show (pack_string v1 ++ encodeRest d1 es2).length ≤
    (pack_string v0 ++
      (pack_uint (d1 - d0 - 1) ++ pack_string v1 ++ encodeRest d1 es2)).length
  simp only [List.length_append]
  omega

/-- C4: a merge whose single edit is a removal at an existing chunk's
first docid deletes the old chunk key; the surviving entries, if any, are
re-inserted under the next docid as the new first-did (stated for chunks
below the flush threshold, so the survivors stay in one chunk). -/
theorem claim_C4_remove_first_did (slot did : Nat) (v0 : Str)
    (es : List Entry) {T : Table} (hs : SortedT T)
    (hmem : (TKey.chunk slot did, encodeChunk ((did, v0) :: es)) ∈ T)
    (hd1 : 1 ≤ did)
    (hbnd : ∀ e ∈ (did, v0) :: es, 1 ≤ e.1 ∧ e.1 ≤ u32Max ∧
      e.2.length ≤ sizeMax)
    (hpw : List.Pairwise (fun a b : Entry => a.1 < b.1) ((did, v0) :: es))
    (hlen : (encodeChunk ((did, v0) :: es)).length < CHUNK_SIZE_THRESHOLD) :
    mergeSlot slot [(did, [])] T =
      .ok (match es with
        | [] => tableDel (.chunk slot did) T
        | e1 :: es2 => tableAdd (.chunk slot e1.1) (encodeChunk (e1 :: es2))
            (tableDel (.chunk slot did) T)) := by
  have hv0 : v0.length ≤ sizeMax := (hbnd (did, v0) (by simp)).2.2
  have hpred : predChunk slot did T =
      some (did, encodeChunk ((did, v0) :: es)) :=
    predChunk_exact hs hmem
  obtain ⟨la, r2, hupd, hnil, hcons⟩ :=
    update_remove_first slot did v0 es hs hpred hd1 hv0 hbnd hpw
  cases es with
  | nil =>
    have hr2e : r2 = ⟨none, did, v0⟩ := hnil rfl
    subst hr2e
    unfold mergeSlot
    rw [List.foldlM_cons]
    simp only []
    rw [hupd, exBind_ok]
    simp only []
    rw [List.foldlM_nil, exBind_pure]
    simp only []
    generalize hu1 : ({ UpdState.init with last_allowed_did := la, new_first_did := 0, first_did := did, ctag := encodeChunk [(did, v0)], reader := (⟨none, did, v0⟩ : ValueChunkReader) } : UpdState) = u1
    have hend1 : u1.reader.at_end = true := by rw [← hu1]; rfl
    have htag1 : u1.tag = [] := by rw [← hu1]; rfl
    unfold updaterFinish
    rw [drainLoop_at_end slot T hend1, exBind_ok]
    simp only []
    rw [write_tag_empty slot T htag1]
    simp only []
    rw [if_pos (show u1.first_did ≠ 0 ∧ u1.new_first_did ≠ u1.first_did by
      constructor
      · rw [← hu1]; show did ≠ 0; omega
      · rw [← hu1]; show (0 : Nat) ≠ did; omega)]
    rw [show u1.first_did = did from by rw [← hu1]]
    rfl
  | cons e1 es2 =>
    have hrep2 : Represents r2 e1 es2 := hcons e1 es2 rfl
    have hd12 : did < e1.1 := by
      have := (List.pairwise_cons.mp hpw).1 e1 (List.mem_cons_self _ _)
      simpa using this
    unfold mergeSlot
    rw [List.foldlM_cons]
    simp only []
    rw [hupd, exBind_ok]
    simp only []
    rw [List.foldlM_nil, exBind_pure]
    simp only []
    generalize hu1 : ({ UpdState.init with last_allowed_did := la, new_first_did := 0, first_did := did, ctag := encodeChunk ((did, v0) :: e1 :: es2), reader := r2 } : UpdState) = u1
    have hrep1 : Represents u1.reader e1 es2 := by rw [← hu1]; exact hrep2
    have hw1 : WChunk u1 [] := by
      rw [← hu1]
      exact ⟨rfl, show ([] : Str).length < CHUNK_SIZE_THRESHOLD by decide,
        fun h => absurd rfl h⟩
    have hfd1 : u1.first_did = did := by rw [← hu1]
    obtain ⟨u2, hdrain, hW2, hend2, hfd2, hct2, hla2⟩ :=
      drainLoop_represents es2 slot u1 T e1 [] hrep1 hw1
        ((List.pairwise_cons.mp hpw).2)
        (fun e he => ⟨(hbnd e (List.mem_cons_of_mem _ he)).2.1,
          (hbnd e (List.mem_cons_of_mem _ he)).2.2⟩)
        (by
          have := encodeChunk_tail_le did v0 e1 es2
          show (encodeChunk (e1 :: es2)).length < CHUNK_SIZE_THRESHOLD
          omega)
    have htag2 : u2.tag = encodeChunk (e1 :: es2) := hW2.1
    have hnf2 : u2.new_first_did = e1.1 := by
      have := (hW2.2.2 (by simp)).1
      rw [this]
      simp [chunkFirst]
    have hfd2d : u2.first_did = did := by rw [hfd2, hfd1]
    unfold updaterFinish
    rw [hdrain, exBind_ok]
    simp only []
    rw [write_tag_nonempty slot T
      (show u2.tag ≠ [] from by
        rw [htag2]
        exact encodeChunk_ne_nil (by simp))]
    simp only []
    rw [htag2, hnf2, hfd2d]
    rw [if_pos (show did ≠ 0 ∧ e1.1 ≠ did from ⟨by omega, by omega⟩)]
    rfl

theorem claim_C4_witness :
    mergeSlot 0 [(1, [])] [(TKey.chunk 0 1, encodeChunk [(1, [7]), (2, [8])])] =
      .ok (tableAdd (.chunk 0 2) (encodeChunk [(2, [8])])
        (tableDel (.chunk 0 1)
          [(TKey.chunk 0 1, encodeChunk [(1, [7]), (2, [8])])])) :=
  @claim_C4_remove_first_did 0 1 [7] [(2, [8])]
    [(TKey.chunk 0 1, encodeChunk [(1, [7]), (2, [8])])]
    (by simp [SortedT]) (by decide) (by decide) (by decide) (by decide)
    (by decide)

/-- `std::map::erase` on an ascending association list. -/
def alErase {α : Type} (k : Nat) : List (Nat × α) → List (Nat × α)
  | [] => []
  | (k', v) :: t => if k' = k then alErase k t else (k', v) :: alErase k t

theorem alErase_append_left {α : Type} (k : Nat) :
    ∀ {A : List (Nat × α)} (B : List (Nat × α)),
      (∀ p ∈ A, ¬ p.1 = k) → alErase k (A ++ B) = A ++ alErase k B := by
  intro A
  induction A with
  | nil => intro B _; rfl
  | cons a A' ih =>
    intro B hA
    obtain ⟨ka, va⟩ := a
    show (if ka = k then alErase k (A' ++ B)
      else (ka, va) :: alErase k (A' ++ B)) = _
    rw [if_neg (hA (ka, va) (List.mem_cons_self _ _)),
      ih B (fun p hp => hA p (List.mem_cons_of_mem _ hp))]
    rfl

theorem alErase_of_forall_ne {α : Type} (k : Nat) :
    ∀ {B : List (Nat × α)}, (∀ p ∈ B, ¬ p.1 = k) → alErase k B = B := by
  intro B
  induction B with
  | nil => intro _; rfl
  | cons b B' ih =>
    intro h
    obtain ⟨kb, vb⟩ := b
    show (if kb = k then alErase k B' else (kb, vb) :: alErase k B') = _
    rw [if_neg (h (kb, vb) (List.mem_cons_self _ _)),
      ih (fun p hp => h p (List.mem_cons_of_mem _ hp))]

theorem alErase_cons_self {α : Type} (k : Nat) (v : α)
    (B : List (Nat × α)) : alErase k ((k, v) :: B) = alErase k B := by
  show (if k = k then alErase k B else (k, v) :: alErase k B) = alErase k B
  rw [if_pos rfl]

theorem alUpsert_append_gt {α : Type} (k : Nat) (v : α) :
    ∀ {A : List (Nat × α)} {B : List (Nat × α)},
      (∀ p ∈ A, p.1 < k) → (∀ p ∈ B, k < p.1) →
      alUpsert k v (A ++ B) = A ++ (k, v) :: B := by
  intro A
  induction A with
  | nil =>
    intro B _ hB
    cases B with
    | nil => rfl
    | cons b B' =>
      obtain ⟨kb, vb⟩ := b
      show (if k < kb then (k, v) :: (kb, vb) :: B'
        else if kb = k then (k, v) :: B'
        else (kb, vb) :: alUpsert k v B') = _
      rw [if_pos (hB (kb, vb) (List.mem_cons_self _ _))]
      rfl
  | cons a A' ih =>
    intro B hA hB
    obtain ⟨ka, va⟩ := a
    have hka : ka < k := hA (ka, va) (List.mem_cons_self _ _)
    show (if k < ka then (k, v) :: (ka, va) :: (A' ++ B)
      else if ka = k then (k, v) :: (A' ++ B)
      else (ka, va) :: alUpsert k v (A' ++ B)) = _
    rw [if_neg (by omega : ¬ k < ka), if_neg (by omega : ¬ ka = k),
      ih (fun p hp => hA p (List.mem_cons_of_mem _ hp)) hB]
    rfl

theorem alUpsert_append_replace {α : Type} (k : Nat) (v w : α) :
    ∀ {A : List (Nat × α)} (B : List (Nat × α)),
      (∀ p ∈ A, p.1 < k) →
      alUpsert k v (A ++ (k, w) :: B) = A ++ (k, v) :: B := by
  intro A
  induction A with
  | nil =>
    intro B _
    show (if k < k then (k, v) :: (k, w) :: B
      else if k = k then (k, v) :: B
      else (k, w) :: alUpsert k v B) = _
    rw [if_neg (by omega : ¬ k < k), if_pos rfl]
    rfl
  | cons a A' ih =>
    intro B hA
    obtain ⟨ka, va⟩ := a
    have hka : ka < k := hA (ka, va) (List.mem_cons_self _ _)
    show (if k < ka then (k, v) :: (ka, va) :: (A' ++ (k, w) :: B)
      else if ka = k then (k, v) :: (A' ++ (k, w) :: B)
      else (ka, va) :: alUpsert k v (A' ++ (k, w) :: B)) = _
    rw [if_neg (by omega : ¬ k < ka), if_neg (by omega : ¬ ka = k),
      ih B (fun p hp => hA p (List.mem_cons_of_mem _ hp))]
    rfl

theorem slotChunks_cons_same (slot d : Nat) (v : Str) (t : Table) :
    slotChunks slot ((TKey.chunk slot d, v) :: t) =
      (d, v) :: slotChunks slot t := by
  simp only [slotChunks]
  rw [if_pos (trivial : True)]

theorem slotChunks_cons_other {slot s : Nat} (h : ¬ s = slot) (d : Nat)
    (v : Str) (t : Table) :
    slotChunks slot ((TKey.chunk s d, v) :: t) = slotChunks slot t := by
  simp only [slotChunks]
  rw [if_neg h]

theorem slotChunks_cons_stats (slot s : Nat) (v : Str) (t : Table) :
    slotChunks slot ((TKey.stats s, v) :: t) = slotChunks slot t := rfl

theorem slotChunks_tableDel_self (slot f : Nat) :
    ∀ (T : Table), slotChunks slot (tableDel (.chunk slot f) T) =
      alErase f (slotChunks slot T) := by
  intro T
  induction T with
  | nil => rfl
  | cons e0 t ih =>
    obtain ⟨k0, v0⟩ := e0
    show slotChunks slot
      (if k0 = TKey.chunk slot f then tableDel (.chunk slot f) t
       else (k0, v0) :: tableDel (.chunk slot f) t) = _
    cases k0 with
    | stats s2 =>
      rw [if_neg (by simp), slotChunks_cons_stats, slotChunks_cons_stats]
      exact ih
    | chunk s2 d2 =>
      by_cases hs2 : s2 = slot
      · subst hs2
        by_cases hd : d2 = f
        · subst hd
          rw [if_pos rfl, slotChunks_cons_same, alErase_cons_self]
          exact ih
        · rw [if_neg (by simp [hd]), slotChunks_cons_same,
            slotChunks_cons_same]
          show (d2, v0) :: slotChunks s2 (tableDel (.chunk s2 f) t) =
            (if d2 = f then alErase f (slotChunks s2 t)
             else (d2, v0) :: alErase f (slotChunks s2 t))
          rw [if_neg hd, ih]
      · rw [if_neg (by simp [hs2]), slotChunks_cons_other hs2,
          slotChunks_cons_other hs2, ih]

theorem slotChunks_tableDel_other {slot s2 : Nat} (h : s2 ≠ slot) (f : Nat) :
    ∀ (T : Table),
      slotChunks s2 (tableDel (.chunk slot f) T) = slotChunks s2 T := by
  intro T
  induction T with
  | nil => rfl
  | cons e0 t ih =>
    obtain ⟨k0, v0⟩ := e0
    show slotChunks s2
      (if k0 = TKey.chunk slot f then tableDel (.chunk slot f) t
       else (k0, v0) :: tableDel (.chunk slot f) t) = _
    by_cases hk : k0 = TKey.chunk slot f
    · rw [if_pos hk, ih]
      subst hk
      rw [slotChunks_cons_other (show ¬ slot = s2 from fun hq => h hq.symm)]
    · rw [if_neg hk]
      cases k0 with
      | stats s3 =>
        rw [slotChunks_cons_stats, slotChunks_cons_stats]
        exact ih
      | chunk s3 d3 =>
        by_cases hs3 : s3 = s2
        · subst hs3
          rw [slotChunks_cons_same, slotChunks_cons_same, ih]
        · rw [slotChunks_cons_other hs3, slotChunks_cons_other hs3, ih]

theorem kLt_chunk_lt {slot f d : Nat} (h : kLt (.chunk slot f) (.chunk slot d) = true) :
    f < d := by
  simp [kLt] at h
  omega

theorem slotChunks_tableAdd_upsert (slot f : Nat) (v : Str) :
    ∀ (T : Table), SortedT T →
      slotChunks slot (tableAdd (.chunk slot f) v T) =
        alUpsert f v (slotChunks slot T) := by
  intro T
  induction T with
  | nil =>
    intro _
    rw [show tableAdd (TKey.chunk slot f) v ([] : Table) =
      [(TKey.chunk slot f, v)] from rfl, slotChunks_cons_same]
    rfl
  | cons e0 t ih =>
    intro hs
    obtain ⟨hhead, htail⟩ := SortedT_cons hs
    obtain ⟨k0, v0⟩ := e0
    show slotChunks slot
      (if kLt (.chunk slot f) k0 then (TKey.chunk slot f, v) :: (k0, v0) :: t
       else if k0 = TKey.chunk slot f then (TKey.chunk slot f, v) :: t
       else (k0, v0) :: tableAdd (.chunk slot f) v t) = _
    by_cases h1 : kLt (.chunk slot f) k0 = true
    · rw [if_pos h1, slotChunks_cons_same]
      have hall : ∀ p ∈ slotChunks slot ((k0, v0) :: t), f < p.1 := by
        intro p hp
        have hm : (TKey.chunk slot p.1, p.2) ∈ (k0, v0) :: t := by
          have := mem_slotChunks.mp (show (p.1, p.2) ∈
            slotChunks slot ((k0, v0) :: t) from by
              obtain ⟨pa, pb⟩ := p
              exact hp)
          exact this
        rcases List.mem_cons.mp hm with heq | hmem
        · have hk : k0 = TKey.chunk slot p.1 :=
            (congrArg Prod.fst heq).symm
          rw [hk] at h1
          exact kLt_chunk_lt h1
        · have := hhead _ hmem
          have h2 : kLt (.chunk slot f) (.chunk slot p.1) = true :=
            kLt_trans h1 this
          exact kLt_chunk_lt h2
      cases hsc : slotChunks slot ((k0, v0) :: t) with
      | nil => rfl
      | cons b bt =>
        obtain ⟨kb, vb⟩ := b
        have hb := hall (kb, vb) (by rw [hsc]; exact List.mem_cons_self _ _)
        show _ = (if f < kb then (f, v) :: (kb, vb) :: bt
          else if kb = f then (f, v) :: bt
          else (kb, vb) :: alUpsert f v bt)
        rw [if_pos hb]
    · rw [if_neg (by simp at h1 ⊢; exact h1)]
      by_cases h2 : k0 = TKey.chunk slot f
      · rw [if_pos h2]
        subst h2
        rw [slotChunks_cons_same, slotChunks_cons_same]
        show _ = (if f < f then (f, v) :: (f, v0) :: slotChunks slot t
          else if f = f then (f, v) :: slotChunks slot t
          else (f, v0) :: alUpsert f v (slotChunks slot t))
        rw [if_neg (by omega : ¬ f < f), if_pos rfl]
      · rw [if_neg h2]
        cases k0 with
        | stats s2 =>
          rw [slotChunks_cons_stats, slotChunks_cons_stats]
          exact ih htail
        | chunk s2 d2 =>
          by_cases hs2 : s2 = slot
          · subst hs2
            rw [slotChunks_cons_same, slotChunks_cons_same]
            have hlt : d2 < f := by
              have hne : ¬ d2 = f := by
                intro hq
                exact h2 (by rw [hq])
              simp [kLt] at h1
              omega
            show _ = (if f < d2 then (f, v) :: (d2, v0) :: slotChunks s2 t
              else if d2 = f then (f, v) :: slotChunks s2 t
              else (d2, v0) :: alUpsert f v (slotChunks s2 t))
            rw [if_neg (by omega : ¬ f < d2), if_neg (by omega : ¬ d2 = f),
              ih htail]
          · rw [slotChunks_cons_other hs2, slotChunks_cons_other hs2]
            exact ih htail

theorem flatEntries_append (a b : List (List Entry)) :
    flatEntries (a ++ b) = flatEntries a ++ flatEntries b := by
  unfold flatEntries
  simp

theorem flatEntries_single (c : List Entry) : flatEntries [c] = c := by
  unfold flatEntries
  simp

theorem chunkPairs_append (a b : List (List Entry)) :
    chunkPairs (a ++ b) = chunkPairs a ++ chunkPairs b := by
  unfold chunkPairs
  exact List.map_append _ a b

theorem chunkPairs_keys {cs : List (List Entry)}
    (hne : ∀ ch ∈ cs, ch ≠ []) :
    ∀ p ∈ chunkPairs cs, ∃ x ∈ flatEntries cs, p.1 = x.1 := by
  intro p hp
  obtain ⟨ch, hch, hpe⟩ := List.mem_map.mp hp
  obtain ⟨x, hx, hxe⟩ := chunkFirst_mem (hne ch hch)
  refine ⟨x, ?_, ?_⟩
  · unfold flatEntries
    exact List.mem_join.mpr ⟨ch, hch, hx⟩
  · rw [← hpe, hxe]

/-- The updater's invariant inside an edit region: the table holds the
chunks already written out, then (unless a flush already retired it) the
old key of the chunk being rewritten, then the untouched chunks beyond the
region boundary `la`. -/
structure RegionInv (slot : Nat) (u : UpdState) (T : Table)
    (done : List (List Entry)) (c : List Entry)
    (fut : List (List Entry)) (la : Nat) : Prop where
  sorted : SortedT T
  wchunk : WChunk u c
  laEq : u.last_allowed_did = la
  decomp : slotChunks slot T = chunkPairs done ++
    (if u.first_did = 0 then [] else [(u.first_did, u.ctag)]) ++
    chunkPairs fut
  doneNe : ∀ ch ∈ done, ch ≠ []
  orderedDC : List.Pairwise (fun a b : Entry => a.1 < b.1)
    (flatEntries done ++ c)
  bndDC : ∀ e ∈ flatEntries done ++ c, 1 ≤ e.1 ∧ e.1 ≤ u32Max ∧
    e.2.length ≤ sizeMax
  leLa : ∀ e ∈ flatEntries done ++ c, e.1 ≤ la
  fdGtDone : u.first_did ≠ 0 → ∀ e ∈ flatEntries done, e.1 < u.first_did
  fdLeC : u.first_did ≠ 0 → ∀ e ∈ c, u.first_did ≤ e.1
  fdLeLa : u.first_did ≠ 0 → u.first_did ≤ la
  fdNf : u.first_did ≠ 0 → u.tag = [] → u.new_first_did = 0
  futNe : ∀ ch ∈ fut, ch ≠ []
  futOrd : List.Pairwise (fun a b : Entry => a.1 < b.1) (flatEntries fut)
  futBnd : ∀ e ∈ flatEntries fut, 1 ≤ e.1 ∧ e.1 ≤ u32Max ∧
    e.2.length ≤ sizeMax
  futGt : ∀ e ∈ flatEntries fut, la < e.1
  laBnd : la ≤ u32Max

/-- `RegionInv` with the open tag's size bound dropped: the transient state
right after a threshold-crossing join, just before the flush. -/
structure RegionInvW (slot : Nat) (u : UpdState) (T : Table)
    (done : List (List Entry)) (c : List Entry)
    (fut : List (List Entry)) (la : Nat) : Prop where
  sorted : SortedT T
  tagEq : u.tag = encodeChunk c
  nfPrev : c ≠ [] → u.new_first_did = chunkFirst c ∧ u.prev_did = chunkLast c
  laEq : u.last_allowed_did = la
  decomp : slotChunks slot T = chunkPairs done ++
    (if u.first_did = 0 then [] else [(u.first_did, u.ctag)]) ++
    chunkPairs fut
  doneNe : ∀ ch ∈ done, ch ≠ []
  orderedDC : List.Pairwise (fun a b : Entry => a.1 < b.1)
    (flatEntries done ++ c)
  bndDC : ∀ e ∈ flatEntries done ++ c, 1 ≤ e.1 ∧ e.1 ≤ u32Max ∧
    e.2.length ≤ sizeMax
  leLa : ∀ e ∈ flatEntries done ++ c, e.1 ≤ la
  fdGtDone : u.first_did ≠ 0 → ∀ e ∈ flatEntries done, e.1 < u.first_did
  fdLeC : u.first_did ≠ 0 → ∀ e ∈ c, u.first_did ≤ e.1
  fdLeLa : u.first_did ≠ 0 → u.first_did ≤ la
  fdNf : u.first_did ≠ 0 → u.tag = [] → u.new_first_did = 0
  futNe : ∀ ch ∈ fut, ch ≠ []
  futOrd : List.Pairwise (fun a b : Entry => a.1 < b.1) (flatEntries fut)
  futBnd : ∀ e ∈ flatEntries fut, 1 ≤ e.1 ∧ e.1 ≤ u32Max ∧
    e.2.length ≤ sizeMax
  futGt : ∀ e ∈ flatEntries fut, la < e.1
  laBnd : la ≤ u32Max

theorem RegionInv.toW {slot : Nat} {u : UpdState} {T : Table}
    {done : List (List Entry)} {c : List Entry} {fut : List (List Entry)}
    {la : Nat} (h : RegionInv slot u T done c fut la) :
    RegionInvW slot u T done c fut la :=
  ⟨h.sorted, h.wchunk.1, h.wchunk.2.2, h.laEq, h.decomp, h.doneNe,
    h.orderedDC, h.bndDC, h.leLa, h.fdGtDone, h.fdLeC, h.fdLeLa, h.fdNf,
    h.futNe, h.futOrd, h.futBnd, h.futGt, h.laBnd⟩

/-- `write_tag` from a region state: the open chunk (if any) is committed
under its first docid, the old key is deleted or overwritten, and the
region decomposition shifts the chunk into the written prefix. -/
theorem write_tag_region {slot : Nat} {u : UpdState} {T : Table}
    {done : List (List Entry)} {c : List Entry} {fut : List (List Entry)}
    {la : Nat} (hI : RegionInvW slot u T done c fut la) :
    ∃ T2, write_tag slot u T = ({ u with first_did := 0, tag := [] }, T2) ∧
      RegionInv slot { u with first_did := 0, tag := [] } T2
        (done ++ if c = [] then [] else [c]) [] fut la ∧
      (∀ s, ¬ s = slot → slotChunks s T2 = slotChunks s T) := by
  obtain ⟨hs, htagEq, hnfPrev, hla, hdec, hdne, hord, hbnd, hle, hgtD, hleC,
    hfla, hfnf, hfne, hford, hfbnd, hfgt, hlab⟩ := hI
  have hDlt : ∀ p ∈ chunkPairs done, ∀ y ∈ c, p.1 < y.1 := by
    intro p hp y hy
    obtain ⟨x, hx, hxe⟩ := chunkPairs_keys hdne p hp
    have := (List.pairwise_append.mp hord).2.2 x hx y hy
    omega
  have hFgt : ∀ p ∈ chunkPairs fut, la < p.1 := by
    intro p hp
    obtain ⟨x, hx, hxe⟩ := chunkPairs_keys hfne p hp
    have := hfgt x hx
    omega
  by_cases hc : c = []
  · subst hc
    rw [show (if ([] : List Entry) = [] then ([] : List (List Entry))
      else [[]]) = [] from rfl, List.append_nil]
    have htag : u.tag = [] := htagEq
    rw [write_tag_empty slot T htag]
    by_cases hf : u.first_did = 0
    · rw [if_neg (by
        intro hq
        exact hq.1 hf)]
      refine ⟨T, rfl, ?_, fun _ _ => rfl⟩
      rw [if_pos hf] at hdec
      exact ⟨hs, ⟨rfl, show ([] : Str).length < CHUNK_SIZE_THRESHOLD
          by decide, fun h => absurd rfl h⟩,
        hla, hdec, hdne, hord, hbnd, hle,
        fun h => absurd rfl h, fun h => absurd rfl h,
        fun h => absurd rfl h, fun h => absurd rfl h,
        hfne, hford, hfbnd, hfgt, hlab⟩
    · have hnf0 : u.new_first_did = 0 := hfnf hf htag
      rw [if_pos ⟨hf, by rw [hnf0]; exact fun hq => hf hq.symm⟩]
      refine ⟨_, rfl, ?_, fun s hsne => slotChunks_tableDel_other hsne _ T⟩
      rw [if_neg hf] at hdec
      have hdel : slotChunks slot (tableDel (.chunk slot u.first_did) T) =
          chunkPairs done ++ chunkPairs fut := by
        rw [slotChunks_tableDel_self, hdec, List.append_assoc,
          alErase_append_left _ _
            (show ∀ p ∈ chunkPairs done, ¬ p.1 = u.first_did from by
              intro p hp hq
              obtain ⟨x, hx, hxe⟩ := chunkPairs_keys hdne p hp
              have h3 := hgtD hf x hx
              omega)]
        rw [show ([(u.first_did, u.ctag)] : List (Nat × Str)) ++
          chunkPairs fut = (u.first_did, u.ctag) :: chunkPairs fut from rfl]
        rw [alErase_cons_self, alErase_of_forall_ne _
          (show ∀ p ∈ chunkPairs fut, ¬ p.1 = u.first_did from by
            intro p hp hq
            have := hFgt p hp
            have := hfla hf
            omega)]
      refine ⟨SortedT_tableDel _ T hs,
        ⟨rfl, show ([] : Str).length < CHUNK_SIZE_THRESHOLD by decide,
          fun h => absurd rfl h⟩,
        hla, ?_, hdne, hord, hbnd, hle,
        fun h => absurd rfl h, fun h => absurd rfl h,
        fun h => absurd rfl h, fun h => absurd rfl h,
        hfne, hford, hfbnd, hfgt, hlab⟩
      show slotChunks slot (tableDel (.chunk slot u.first_did) T) =
        chunkPairs done ++ [] ++ chunkPairs fut
      rw [List.append_nil]
      exact hdel
  · rw [if_neg hc]
    have htag : u.tag = encodeChunk c := htagEq
    have htagne : u.tag ≠ [] := by
      rw [htag]
      exact encodeChunk_ne_nil hc
    have hnf : u.new_first_did = chunkFirst c := (hnfPrev hc).1
    obtain ⟨xcf, hxcf, hxcfe⟩ := chunkFirst_mem hc
    have hcfla : chunkFirst c ≤ la := by
      have := hle xcf (List.mem_append_right _ hxcf)
      omega
    have hDltcf : ∀ p ∈ chunkPairs done, p.1 < chunkFirst c := by
      intro p hp
      have := hDlt p hp xcf hxcf
      omega
    have hFgtcf : ∀ p ∈ chunkPairs fut, chunkFirst c < p.1 := by
      intro p hp
      have := hFgt p hp
      omega
    rw [write_tag_nonempty slot T htagne]
    have hgoal : ∀ T1, slotChunks slot T1 =
        chunkPairs done ++ chunkPairs fut → SortedT T1 →
        slotChunks slot (tableAdd (.chunk slot u.new_first_did) u.tag T1) =
          chunkPairs (done ++ [c]) ++ chunkPairs fut := by
      intro T1 h1 hs1
      rw [slotChunks_tableAdd_upsert _ _ _ T1 hs1, h1, hnf, htag,
        alUpsert_append_gt _ _ hDltcf hFgtcf, chunkPairs_append]
      rw [show chunkPairs [c] = [(chunkFirst c, encodeChunk c)] from rfl,
        List.append_assoc]
      rfl
    have hfields : ∀ T2, slotChunks slot T2 =
        chunkPairs (done ++ [c]) ++ chunkPairs fut → SortedT T2 →
        RegionInv slot { u with first_did := 0, tag := [] } T2
          (done ++ [c]) [] fut la := by
      intro T2 h2 hs2
      refine ⟨hs2, ⟨rfl, show ([] : Str).length < CHUNK_SIZE_THRESHOLD
          by decide, fun h => absurd rfl h⟩, hla, ?_, ?_, ?_, ?_, ?_,
        fun h => absurd rfl h, fun h => absurd rfl h,
        fun h => absurd rfl h, fun h => absurd rfl h,
        hfne, hford, hfbnd, hfgt, hlab⟩
      · show slotChunks slot T2 =
          chunkPairs (done ++ [c]) ++ [] ++ chunkPairs fut
        rw [List.append_nil]
        exact h2
      · intro ch hch
        rcases List.mem_append.mp hch with h3 | h3
        · exact hdne ch h3
        · rw [List.mem_singleton.mp h3]
          exact hc
      · rw [flatEntries_append, flatEntries_single, List.append_nil]
        exact hord
      · intro e he
        rw [flatEntries_append, flatEntries_single, List.append_nil] at he
        exact hbnd e he
      · intro e he
        rw [flatEntries_append, flatEntries_single, List.append_nil] at he
        exact hle e he
    by_cases hf : u.first_did = 0
    · rw [if_neg (by intro hq; exact hq.1 hf)]
      rw [if_pos hf, List.append_nil] at hdec
      refine ⟨_, rfl, hfields _ (hgoal T hdec hs) (SortedT_tableAdd _ _ T hs),
        fun s hsne => slotChunks_tableAdd_other (Ne.symm hsne) _ _ T⟩
    · by_cases hrepl : u.new_first_did = u.first_did
      · rw [if_neg (by intro hq; exact hq.2 hrepl)]
        rw [if_neg hf] at hdec
        have hcfeq : chunkFirst c = u.first_did := by
          rw [← hnf, hrepl]
        have hadd : slotChunks slot
            (tableAdd (.chunk slot u.new_first_did) u.tag T) =
            chunkPairs (done ++ [c]) ++ chunkPairs fut := by
          rw [slotChunks_tableAdd_upsert _ _ _ T hs, hdec, hrepl, htag,
            List.append_assoc]
          rw [show ([(u.first_did, u.ctag)] : List (Nat × Str)) ++
            chunkPairs fut = (u.first_did, u.ctag) :: chunkPairs fut from rfl]
          rw [alUpsert_append_replace _ _ _ _
            (show ∀ p ∈ chunkPairs done, p.1 < u.first_did from by
              intro p hp
              have := hDltcf p hp
              omega)]
          rw [chunkPairs_append,
            show chunkPairs [c] = [(chunkFirst c, encodeChunk c)] from rfl,
            List.append_assoc, hcfeq]
          rfl
        refine ⟨_, rfl, hfields _ hadd (SortedT_tableAdd _ _ T hs),
          fun s hsne => slotChunks_tableAdd_other (Ne.symm hsne) _ _ T⟩
      · rw [if_pos ⟨hf, hrepl⟩]
        rw [if_neg hf] at hdec
        have hdel : slotChunks slot (tableDel (.chunk slot u.first_did) T) =
            chunkPairs done ++ chunkPairs fut := by
          rw [slotChunks_tableDel_self, hdec, List.append_assoc,
            alErase_append_left _ _
              (show ∀ p ∈ chunkPairs done, ¬ p.1 = u.first_did from by
                intro p hp hq
                obtain ⟨x, hx, hxe⟩ := chunkPairs_keys hdne p hp
                have h3 := hgtD hf x hx
                omega)]
          rw [show ([(u.first_did, u.ctag)] : List (Nat × Str)) ++
            chunkPairs fut = (u.first_did, u.ctag) :: chunkPairs fut from rfl]
          rw [alErase_cons_self, alErase_of_forall_ne _
            (show ∀ p ∈ chunkPairs fut, ¬ p.1 = u.first_did from by
              intro p hp hq
              have := hFgt p hp
              have := hfla hf
              omega)]
        refine ⟨_, rfl,
          hfields _ (hgoal _ hdel (SortedT_tableDel _ T hs))
            (SortedT_tableAdd _ _ _ (SortedT_tableDel _ T hs)), ?_⟩
        intro s hsne
        rw [slotChunks_tableAdd_other (Ne.symm hsne),
          slotChunks_tableDel_other hsne]

theorem chunkLast_append_single (c : List Entry) (e : Entry) :
    chunkLast (c ++ [e]) = e.1 := by
  unfold chunkLast lastDidFrom
  rw [List.getLast?_concat]
  rfl

theorem pairwise_append_single {l : List Entry} {e : Entry}
    (h : List.Pairwise (fun a b : Entry => a.1 < b.1) l)
    (hgt : ∀ x ∈ l, x.1 < e.1) :
    List.Pairwise (fun a b : Entry => a.1 < b.1) (l ++ [e]) := by
  rw [List.pairwise_append]
  refine ⟨h, List.pairwise_singleton _ _, ?_⟩
  intro x hx y hy
  rw [List.mem_singleton.mp hy]
  exact hgt x hx

/-- One `append_to_stream` during a region: the entry joins the open chunk
or, crossing the threshold, flushes it; either way the region invariant
holds for the extended entry stream. -/
theorem append_region {slot : Nat} {u : UpdState} {T : Table}
    {done : List (List Entry)} {c : List Entry} {fut : List (List Entry)}
    {la : Nat} (did : Nat) (value : Str)
    (hI : RegionInv slot u T done c fut la)
    (hgt : ∀ e ∈ flatEntries done ++ c, e.1 < did)
    (hfdle : u.first_did ≠ 0 → u.first_did ≤ did)
    (hdla : did ≤ la) (hd1 : 1 ≤ did) (hdu : did ≤ u32Max)
    (hv : value.length ≤ sizeMax) :
    ∃ u2 T2 done2 c2, append_to_stream slot did value u T = (u2, T2) ∧
      RegionInv slot u2 T2 done2 c2 fut la ∧
      flatEntries done2 ++ c2 = flatEntries done ++ c ++ [(did, value)] ∧
      u2.reader = u.reader ∧ u2.last_allowed_did = u.last_allowed_did ∧
      u2.ctag = u.ctag ∧
      (u2.first_did = u.first_did ∨ u2.first_did = 0) ∧
      (∀ s, ¬ s = slot → slotChunks s T2 = slotChunks s T) := by
  have hgtc : c ≠ [] → chunkLast c < did := by
    intro hc
    obtain ⟨x, hx, hxe⟩ := chunkLast_mem hc
    have := hgt x (List.mem_append_right _ hx)
    omega
  have hordW : List.Pairwise (fun a b : Entry => a.1 < b.1)
      (flatEntries done ++ (c ++ [(did, value)])) := by
    rw [← List.append_assoc]
    exact pairwise_append_single hI.orderedDC hgt
  have hbndW : ∀ e ∈ flatEntries done ++ (c ++ [(did, value)]),
      1 ≤ e.1 ∧ e.1 ≤ u32Max ∧ e.2.length ≤ sizeMax := by
    intro e he
    rw [← List.append_assoc] at he
    rcases List.mem_append.mp he with h1 | h1
    · exact hI.bndDC e h1
    · rw [List.mem_singleton.mp h1]
      exact ⟨hd1, hdu, hv⟩
  have hleW : ∀ e ∈ flatEntries done ++ (c ++ [(did, value)]), e.1 ≤ la := by
    intro e he
    rw [← List.append_assoc] at he
    rcases List.mem_append.mp he with h1 | h1
    · exact hI.leLa e h1
    · rw [List.mem_singleton.mp h1]
      exact hdla
  by_cases hlen :
      (encodeChunk (c ++ [(did, value)])).length < CHUNK_SIZE_THRESHOLD
  · obtain ⟨heq, hW⟩ :=
      append_to_stream_small slot did value T hI.wchunk hgtc hlen
    refine ⟨_, _, done, c ++ [(did, value)], heq, ?_, by
        rw [List.append_assoc], rfl, rfl, rfl, Or.inl rfl, fun _ _ => rfl⟩
    refine ⟨hI.sorted, hW, hI.laEq, hI.decomp, hI.doneNe, hordW, hbndW,
      hleW, hI.fdGtDone, ?_, hI.fdLeLa, ?_, hI.futNe, hI.futOrd, hI.futBnd,
      hI.futGt, hI.laBnd⟩
    · intro hf e he
      rcases List.mem_append.mp he with h1 | h1
      · exact hI.fdLeC hf e h1
      · rw [List.mem_singleton.mp h1]
        exact hfdle hf
    · intro hf htg
      exact absurd (hW.1.symm.trans htg)
        (encodeChunk_ne_nil (by simp))
  · have hlen2 : CHUNK_SIZE_THRESHOLD ≤
        (encodeChunk (c ++ [(did, value)])).length := by omega
    have heq := append_to_stream_big slot did value T hI.wchunk hgtc hlen2
    have hIW : RegionInvW slot
        { u with new_first_did := chunkFirst (c ++ [(did, value)]),
                 prev_did := did,
                 tag := encodeChunk (c ++ [(did, value)]) } T
        done (c ++ [(did, value)]) fut la := by
      refine ⟨hI.sorted, rfl, fun _ => ⟨rfl, ?_⟩, hI.laEq, hI.decomp,
        hI.doneNe, hordW, hbndW, hleW, hI.fdGtDone, ?_, hI.fdLeLa, ?_,
        hI.futNe, hI.futOrd, hI.futBnd, hI.futGt, hI.laBnd⟩
      · rw [chunkLast_append_single]
      · intro hf e he
        rcases List.mem_append.mp he with h1 | h1
        · exact hI.fdLeC hf e h1
        · rw [List.mem_singleton.mp h1]
          exact hfdle hf
      · intro hf htg
        exact absurd htg (encodeChunk_ne_nil (by simp))
    obtain ⟨T2, heq2, hI2, hframe⟩ := write_tag_region hIW
    rw [if_neg (show ¬ c ++ [(did, value)] = [] by simp)] at hI2
    refine ⟨_, T2, done ++ [c ++ [(did, value)]], [], ?_, hI2, ?_,
      rfl, rfl, rfl, Or.inr rfl, hframe⟩
    · rw [heq, heq2]
    · rw [flatEntries_append, flatEntries_single, List.append_nil,
        List.append_assoc]

theorem RegionInv_reader {slot : Nat} {u : UpdState} {T : Table}
    {done : List (List Entry)} {c : List Entry} {fut : List (List Entry)}
    {la : Nat} (h : RegionInv slot u T done c fut la)
    (r : ValueChunkReader) :
    RegionInv slot { u with reader := r } T done c fut la :=
  ⟨h.sorted, h.wchunk, h.laEq, h.decomp, h.doneNe, h.orderedDC, h.bndDC,
    h.leLa, h.fdGtDone, h.fdLeC, h.fdLeLa, h.fdNf, h.futNe, h.futOrd,
    h.futBnd, h.futGt, h.laBnd⟩

/-- Draining the reader inside a region copies every pending entry into the
output stream, preserving the region invariant. -/
theorem drainLoop_region :
    ∀ (pend : List Entry) (slot : Nat) (u : UpdState) (T : Table)
      (done : List (List Entry)) (c : List Entry) (fut : List (List Entry))
      (la : Nat),
      RegionInv slot u T done c fut la →
      ((pend = [] ∧ u.reader.at_end = true) ∨
        (∃ cur rest, pend = cur :: rest ∧ Represents u.reader cur rest)) →
      List.Pairwise (fun a b : Entry => a.1 < b.1)
        (flatEntries done ++ c ++ pend) →
      (∀ e ∈ pend, 1 ≤ e.1 ∧ e.1 ≤ u32Max ∧ e.2.length ≤ sizeMax) →
      (∀ e ∈ pend, e.1 ≤ la) →
      (u.first_did ≠ 0 → ∀ e ∈ pend, u.first_did ≤ e.1) →
      ∃ u2 T2 done2 c2, drainLoop slot u T = .ok (u2, T2) ∧
        RegionInv slot u2 T2 done2 c2 fut la ∧
        flatEntries done2 ++ c2 = flatEntries done ++ c ++ pend ∧
        u2.reader.at_end = true ∧
        u2.last_allowed_did = u.last_allowed_did ∧
        u2.ctag = u.ctag ∧
        (u2.first_did = u.first_did ∨ u2.first_did = 0) ∧
        (∀ s, ¬ s = slot → slotChunks s T2 = slotChunks s T) := by
  intro pend
  induction pend with
  | nil =>
    intro slot u T done c fut la hI hrd hord hbnd hle hge
    rcases hrd with ⟨_, hend⟩ | ⟨cur, rest, hpe, _⟩
    · refine ⟨u, T, done, c, drainLoop_at_end slot T hend, hI, ?_, hend,
        rfl, rfl, Or.inl rfl, fun _ _ => rfl⟩
      rw [List.append_nil]
    · exact absurd hpe (by simp)
  | cons cur rest ih =>
    intro slot u T done c fut la hI hrd hord hbnd hle hge
    rcases hrd with ⟨hpnil, _⟩ | ⟨cur2, rest2, hpe, hrep⟩
    · exact absurd hpnil (by simp)
    · injection hpe with he1 he2
      subst he1
      subst he2
      have hend := hrep.not_at_end
      have hgtcur : ∀ e ∈ flatEntries done ++ c, e.1 < cur.1 := by
        intro e he
        exact (List.pairwise_append.mp hord).2.2 e he cur (by simp)
      have hbc := hbnd cur (by simp)
      obtain ⟨u2, T2, done2, c2, heqA, hI2, hflat2, hrd2, hla2, hct2,
          hfd2, hfr2⟩ :=
        append_region cur.1 cur.2 hI hgtcur (fun hf => hge hf cur (by simp))
          (hle cur (by simp)) hbc.1 hbc.2.1 hbc.2.2
      obtain ⟨r', hnext, hr'⟩ : ∃ r', u.reader.next = .ok r' ∧
          ((rest = [] ∧ r'.at_end = true) ∨
           (∃ cur2 rest2, rest = cur2 :: rest2 ∧ Represents r' cur2 rest2)) := by
        cases rest with
        | nil =>
          exact ⟨_, next_Represents_nil hrep, Or.inl ⟨rfl, rfl⟩⟩
        | cons e2 rest2 =>
          obtain ⟨d2, v2⟩ := e2
          have hlt : cur.1 < d2 := by
            have h3 := (List.pairwise_append.mp hord).2.1
            rw [List.pairwise_cons] at h3
            have := h3.1 (d2, v2) (by simp)
            simpa using this
          have hb2 := hbnd (d2, v2) (by simp)
          obtain ⟨r2, hnext2, hrep2⟩ :=
            next_Represents_cons hrep hlt hb2.2.1 hb2.2.2
          exact ⟨r2, hnext2, Or.inr ⟨(d2, v2), rest2, rfl, hrep2⟩⟩
      have hun : drainLoop slot u T =
          drainLoopF (readerMeasure u.reader) slot
            { (append_to_stream slot u.reader.did u.reader.value u T).1 with
              reader := r' }
            (append_to_stream slot u.reader.did u.reader.value u T).2 := by
        show drainLoopF (readerMeasure u.reader + 1) slot u T = _
        simp only [drainLoopF]
        rw [if_neg (by rw [hend]; simp), hnext]
      have hdec : readerMeasure r' < readerMeasure u.reader :=
        readerMeasure_next hend hnext
      obtain ⟨u3, T3, done3, c3, heq3, hI3, hflat3, hend3, hla3, hct3,
          hfd3, hfr3⟩ :=
        ih slot { u2 with reader := r' } T2 done2 c2 fut la
          (RegionInv_reader hI2 r')
          (by
            rcases hr' with ⟨hrnil, hrend⟩ | ⟨c4, r4, hre, hrep4⟩
            · exact Or.inl ⟨hrnil, hrend⟩
            · exact Or.inr ⟨c4, r4, hre, hrep4⟩)
          (by
            rw [hflat2, List.append_assoc]
            have h4 : flatEntries done ++ c ++ cur :: rest =
                flatEntries done ++ c ++ ([cur] ++ rest) := by simp
            rw [h4] at hord
            exact hord)
          (fun e he => hbnd e (List.mem_cons_of_mem _ he))
          (fun e he => hle e (List.mem_cons_of_mem _ he))
          (by
            intro hf e he
            rcases hfd2 with h5 | h5
            · have : u2.first_did ≠ 0 := hf
              rw [h5] at this
              have h6 := hge this e (List.mem_cons_of_mem _ he)
              show u2.first_did ≤ e.1
              rw [h5]
              exact h6
            · exact absurd h5 hf)
      refine ⟨u3, T3, done3, c3, ?_, hI3, ?_, hend3, ?_, ?_, ?_,
        fun s hs => (hfr3 s hs).trans (hfr2 s hs)⟩
      · rw [hun]
        rw [drainLoopF_congr
          (show readerMeasure ({ (append_to_stream slot u.reader.did
            u.reader.value u T).1 with reader := r' } : UpdState).reader <
            readerMeasure u.reader from hdec)
          (Nat.lt_succ_self _)]
        rw [show u.reader.did = cur.1 from hrep.1,
          show u.reader.value = cur.2 from hrep.2.1, heqA]
        exact heq3
      · rw [hflat3, hflat2, List.append_assoc]
        have h4 : flatEntries done ++ c ++ cur :: rest =
            flatEntries done ++ c ++ ([cur] ++ rest) := by simp
        rw [h4, List.append_assoc]
      · rw [hla3]
        exact hla2
      · rw [hct3]
        exact hct2
      · rcases hfd3 with h5 | h5
        · rcases hfd2 with h6 | h6
          · exact Or.inl (by rw [h5]; exact h6)
          · exact Or.inr (by rw [h5]; exact h6)
        · exact Or.inr h5

/-- The copy loop inside a region: pending entries below `target` are copied
to the output; the reader stops at the first entry at or beyond it. -/
theorem copyLoop_region :
    ∀ (pend : List Entry) (slot target : Nat) (u : UpdState) (T : Table)
      (done : List (List Entry)) (c : List Entry) (fut : List (List Entry))
      (la : Nat),
      RegionInv slot u T done c fut la →
      ((pend = [] ∧ u.reader.at_end = true) ∨
        (∃ cur rest, pend = cur :: rest ∧ Represents u.reader cur rest)) →
      List.Pairwise (fun a b : Entry => a.1 < b.1)
        (flatEntries done ++ c ++ pend) →
      (∀ e ∈ pend, 1 ≤ e.1 ∧ e.1 ≤ u32Max ∧ e.2.length ≤ sizeMax) →
      (∀ e ∈ pend, e.1 ≤ la) →
      (u.first_did ≠ 0 → ∀ e ∈ pend, u.first_did ≤ e.1) →
      ∃ u2 T2 done2 c2 plo phi, copyLoop slot target u T = .ok (u2, T2) ∧
        RegionInv slot u2 T2 done2 c2 fut la ∧
        pend = plo ++ phi ∧
        (∀ e ∈ plo, e.1 < target) ∧
        (∀ e ∈ phi, target ≤ e.1) ∧
        flatEntries done2 ++ c2 = flatEntries done ++ c ++ plo ∧
        ((phi = [] ∧ u2.reader.at_end = true) ∨
          (∃ cur rest, phi = cur :: rest ∧ Represents u2.reader cur rest)) ∧
        u2.last_allowed_did = u.last_allowed_did ∧
        u2.ctag = u.ctag ∧
        (u2.first_did = u.first_did ∨ u2.first_did = 0) ∧
        (∀ s, ¬ s = slot → slotChunks s T2 = slotChunks s T) := by
  intro pend
  induction pend with
  | nil =>
    intro slot target u T done c fut la hI hrd hord hbnd hle hge
    rcases hrd with ⟨_, hend⟩ | ⟨cur, rest, hpe, _⟩
    · refine ⟨u, T, done, c, [], [], copyLoop_at_end slot target T hend,
        hI, rfl, by simp, by simp, ?_, Or.inl ⟨rfl, hend⟩,
        rfl, rfl, Or.inl rfl, fun _ _ => rfl⟩
      rw [List.append_nil]
    · exact absurd hpe (by simp)
  | cons cur rest ih =>
    intro slot target u T done c fut la hI hrd hord hbnd hle hge
    rcases hrd with ⟨hpnil, _⟩ | ⟨cur2, rest2, hpe, hrep⟩
    · exact absurd hpnil (by simp)
    · injection hpe with he1 he2
      subst he1
      subst he2
      have hend := hrep.not_at_end
      by_cases hlt : cur.1 < target
      · have hgtcur : ∀ e ∈ flatEntries done ++ c, e.1 < cur.1 := by
          intro e he
          exact (List.pairwise_append.mp hord).2.2 e he cur (by simp)
        have hbc := hbnd cur (by simp)
        obtain ⟨u2, T2, done2, c2, heqA, hI2, hflat2, hrd2, hla2, hct2,
            hfd2, hfr2⟩ :=
          append_region cur.1 cur.2 hI hgtcur
            (fun hf => hge hf cur (by simp))
            (hle cur (by simp)) hbc.1 hbc.2.1 hbc.2.2
        obtain ⟨r', hnext, hr'⟩ : ∃ r', u.reader.next = .ok r' ∧
            ((rest = [] ∧ r'.at_end = true) ∨
             (∃ cur2 rest2, rest = cur2 :: rest2 ∧
                Represents r' cur2 rest2)) := by
          cases rest with
          | nil =>
            exact ⟨_, next_Represents_nil hrep, Or.inl ⟨rfl, rfl⟩⟩
          | cons e2 rest2 =>
            obtain ⟨d2, v2⟩ := e2
            have hlt2 : cur.1 < d2 := by
              have h3 := (List.pairwise_append.mp hord).2.1
              rw [List.pairwise_cons] at h3
              have := h3.1 (d2, v2) (by simp)
              simpa using this
            have hb2 := hbnd (d2, v2) (by simp)
            obtain ⟨r2, hnext2, hrep2⟩ :=
              next_Represents_cons hrep hlt2 hb2.2.1 hb2.2.2
            exact ⟨r2, hnext2, Or.inr ⟨(d2, v2), rest2, rfl, hrep2⟩⟩
        have hun : copyLoop slot target u T =
            copyLoopF (readerMeasure u.reader) slot target
              { (append_to_stream slot u.reader.did u.reader.value u T).1 with
                reader := r' }
              (append_to_stream slot u.reader.did u.reader.value u T).2 := by
          show copyLoopF (readerMeasure u.reader + 1) slot target u T = _
          simp only [copyLoopF]
          rw [if_neg (by rw [hend]; simp),
            if_pos (show u.reader.did < target from by rw [hrep.1]; exact hlt),
            hnext]
        have hdec : readerMeasure r' < readerMeasure u.reader :=
          readerMeasure_next hend hnext
        obtain ⟨u3, T3, done3, c3, plo3, phi3, heq3, hI3, hsplit3, hlo3,
            hhi3, hflat3, hrd3, hla3, hct3, hfd3, hfr3⟩ :=
          ih slot target { u2 with reader := r' } T2 done2 c2 fut la
            (RegionInv_reader hI2 r')
            (by
              rcases hr' with ⟨hrnil, hrend⟩ | ⟨c4, r4, hre, hrep4⟩
              · exact Or.inl ⟨hrnil, hrend⟩
              · exact Or.inr ⟨c4, r4, hre, hrep4⟩)
            (by
              rw [hflat2, List.append_assoc]
              have h4 : flatEntries done ++ c ++ cur :: rest =
                  flatEntries done ++ c ++ ([cur] ++ rest) := by simp
              rw [h4] at hord
              exact hord)
            (fun e he => hbnd e (List.mem_cons_of_mem _ he))
            (fun e he => hle e (List.mem_cons_of_mem _ he))
            (by
              intro hf e he
              rcases hfd2 with h5 | h5
              · have h7 : u2.first_did ≠ 0 := hf
                rw [h5] at h7
                have h6 := hge h7 e (List.mem_cons_of_mem _ he)
                show u2.first_did ≤ e.1
                rw [h5]
                exact h6
              · exact absurd h5 hf)
        refine ⟨u3, T3, done3, c3, cur :: plo3, phi3, ?_, hI3, ?_, ?_,
          hhi3, ?_, hrd3, ?_, ?_, ?_,
          fun s hs => (hfr3 s hs).trans (hfr2 s hs)⟩
        · rw [hun]
          rw [copyLoopF_congr
            (show readerMeasure ({ (append_to_stream slot u.reader.did
              u.reader.value u T).1 with reader := r' } : UpdState).reader <
              readerMeasure u.reader from hdec)
            (Nat.lt_succ_self _)]
          rw [show u.reader.did = cur.1 from hrep.1,
            show u.reader.value = cur.2 from hrep.2.1, heqA]
          exact heq3
        · rw [show (cur :: plo3) ++ phi3 = cur :: (plo3 ++ phi3) from rfl,
            ← hsplit3]
        · intro e he
          rcases List.mem_cons.mp he with h5 | h5
          · rw [h5]
            exact hlt
          · exact hlo3 e h5
        · rw [hflat3, hflat2, List.append_assoc]
          have h4 : flatEntries done ++ c ++ cur :: plo3 =
              flatEntries done ++ c ++ ([cur] ++ plo3) := by simp
          rw [h4, List.append_assoc]
        · rw [hla3]
          exact hla2
        · rw [hct3]
          exact hct2
        · rcases hfd3 with h5 | h5
          · rcases hfd2 with h6 | h6
            · exact Or.inl (by rw [h5]; exact h6)
            · exact Or.inr (by rw [h5]; exact h6)
          · exact Or.inr h5
      · refine ⟨u, T, done, c, [], cur :: rest,
          copyLoop_stop slot target T
            (show ¬ u.reader.did < target from by rw [hrep.1]; exact hlt),
          hI, rfl, by simp, ?_, ?_,
          Or.inr ⟨cur, rest, rfl, hrep⟩, rfl, rfl, Or.inl rfl,
          fun _ _ => rfl⟩
        · intro e he
          rcases List.mem_cons.mp he with h5 | h5
          · rw [h5]
            omega
          · have h3 := (List.pairwise_append.mp hord).2.1
            rw [List.pairwise_cons] at h3
            have := h3.1 e h5
            omega
        · rw [List.append_nil]

theorem exBind_ext {α β ε : Type} (e : Except ε α) {f g : α → Except ε β}
    (h : ∀ a, f a = g a) : (e >>= f) = (e >>= g) := by
  cases e with
  | error err => rfl
  | ok a => exact h a

/-- The tail of `update` after its region-switch prologue (lines 257–305):
seek, copy, supersede, append. -/
def updateRest (slot did : Nat) (value : Str) (u : UpdState) (T : Table) :
    Except Err (UpdState × Table) := do
  let (u, T) ←
    if u.last_allowed_did = 0 then do
      let fe := tableFindLE (.chunk slot did) T
      let first : Nat :=
        match fe with
        | some e =>
            if e.1 = TKey.chunk slot did then did else docid_from_key slot e.1
        | none => 0
      let (ctag, reader) ←
        match fe with
        | some e =>
            if first ≠ 0 then do
              let r ← ValueChunkReader.assign e.2 first
              pure (e.2, r)
            else pure (u.ctag, u.reader)
        | none => pure (u.ctag, u.reader)
      let la : Nat :=
        match cursorNextAfter (TKey.chunk slot did) T with
        | some e2 =>
            let nfd := docid_from_key slot e2.1
            if nfd ≠ 0 then nfd - 1 else HONEY_MAX_DOCID
        | none => HONEY_MAX_DOCID
      pure ({ u with last_allowed_did := la, new_first_did := 0,
                     first_did := first, ctag := ctag, reader := reader }, T)
    else pure (u, T)
  let (u, T) ← copyLoop slot did u T
  let u ←
    if u.reader.at_end = false ∧ u.reader.did = did then do
      let r' ← u.reader.next
      pure { u with reader := r' }
    else pure u
  if value.isEmpty then pure (u, T)
  else pure (append_to_stream slot did value u T)

theorem update_skip (slot did : Nat) (value : Str) (u : UpdState)
    (T : Table)
    (h : ¬ (u.last_allowed_did ≠ 0 ∧ u.last_allowed_did < did)) :
    update slot did value u T = updateRest slot did value u T := by
  unfold update
  rw [if_neg h]
  rfl

theorem update_switch (slot did : Nat) (value : Str) (u : UpdState)
    (T : Table) {u1 : UpdState} {T1 : Table}
    (h : u.last_allowed_did ≠ 0 ∧ u.last_allowed_did < did)
    (hdrain : drainLoop slot u T = .ok (u1, T1)) :
    update slot did value u T =
      updateRest slot did value
        { (write_tag slot u1 T1).1 with last_allowed_did := 0 }
        (write_tag slot u1 T1).2 := by
  unfold update
  rw [if_pos h, hdrain, exBind_ok]
  rfl

theorem docid_from_key_same (slot d : Nat) :
    docid_from_key slot (.chunk slot d) = d := by
  simp only [docid_from_key]
  rw [if_pos (trivial : True)]

/-- Split an ascending chunk list at a docid. -/
theorem split_chunks_at (did : Nat) :
    ∀ (gs : List (List Entry)),
      List.Pairwise (fun a b => chunkFirst a < chunkFirst b) gs →
      ∃ A B, gs = A ++ B ∧ (∀ ch ∈ A, chunkFirst ch ≤ did) ∧
        (∀ ch ∈ B, did < chunkFirst ch) := by
  intro gs
  induction gs with
  | nil => exact fun _ => ⟨[], [], rfl, by simp, by simp⟩
  | cons ch t ih =>
    intro hpw
    rw [List.pairwise_cons] at hpw
    by_cases h : chunkFirst ch ≤ did
    · obtain ⟨A, B, he, hA, hB⟩ := ih hpw.2
      refine ⟨ch :: A, B, by rw [he]; rfl, ?_, hB⟩
      intro x hx
      rcases List.mem_cons.mp hx with h1 | h1
      · rw [h1]; exact h
      · exact hA x h1
    · refine ⟨[], ch :: t, rfl, by simp, ?_⟩
      intro x hx
      rcases List.mem_cons.mp hx with h1 | h1
      · rw [h1]; omega
      · have := hpw.1 x h1
        omega

theorem predChunk_split {slot did : Nat} {T : Table}
    {A B : List (List Entry)}
    (hdec : slotChunks slot T = chunkPairs (A ++ B))
    (hA : ∀ ch ∈ A, chunkFirst ch ≤ did)
    (hB : ∀ ch ∈ B, did < chunkFirst ch) :
    predChunk slot did T = (chunkPairs A).getLast? := by
  unfold predChunk
  rw [hdec, chunkPairs_append, List.filter_append]
  have h1 : (chunkPairs A).filter (fun c => c.1 ≤ did) = chunkPairs A := by
    rw [List.filter_eq_self]
    intro p hp
    obtain ⟨ch, hch, hpe⟩ := List.mem_map.mp hp
    rw [← hpe]
    simp
    exact hA ch hch
  have h2 : (chunkPairs B).filter (fun c => c.1 ≤ did) = [] := by
    rw [List.filter_eq_nil]
    intro p hp
    obtain ⟨ch, hch, hpe⟩ := List.mem_map.mp hp
    rw [← hpe]
    simp
    exact hB ch hch
  rw [h1, h2, List.append_nil]

theorem nextChunkFirst_split {slot did : Nat} {T : Table}
    {A B : List (List Entry)}
    (hdec : slotChunks slot T = chunkPairs (A ++ B))
    (hA : ∀ ch ∈ A, chunkFirst ch ≤ did)
    (hB : ∀ ch ∈ B, did < chunkFirst ch) :
    nextChunkFirst slot did T = (chunkPairs B).head? := by
  unfold nextChunkFirst
  rw [hdec, chunkPairs_append, List.filter_append]
  have h1 : (chunkPairs A).filter (fun c => did < c.1) = [] := by
    rw [List.filter_eq_nil]
    intro p hp
    obtain ⟨ch, hch, hpe⟩ := List.mem_map.mp hp
    rw [← hpe]
    simp
    exact hA ch hch
  have h2 : (chunkPairs B).filter (fun c => did < c.1) = chunkPairs B := by
    rw [List.filter_eq_self]
    intro p hp
    obtain ⟨ch, hch, hpe⟩ := List.mem_map.mp hp
    rw [← hpe]
    simp
    exact hB ch hch
  rw [h1, h2]
  rfl

theorem chunkFirst_cons (e : Entry) (t : List Entry) :
    chunkFirst (e :: t) = e.1 := rfl

/-- The updater's state between `update` calls, after the edit at docid
`d`: the region decomposition plus the reader's pending entries, which all
lie strictly beyond `d`. -/
structure MidInv (slot : Nat) (u : UpdState) (T : Table) (d : Nat)
    (done : List (List Entry)) (c pend : List Entry)
    (fut : List (List Entry)) (la : Nat) : Prop where
  region : RegionInv slot u T done c fut la
  reader : (pend = [] ∧ u.reader.at_end = true) ∨
    (∃ cur rest, pend = cur :: rest ∧ Represents u.reader cur rest)
  ordered : List.Pairwise (fun a b : Entry => a.1 < b.1)
    (flatEntries done ++ c ++ pend)
  pendBnd : ∀ e ∈ pend, 1 ≤ e.1 ∧ e.1 ≤ u32Max ∧ e.2.length ≤ sizeMax
  pendLe : ∀ e ∈ pend, e.1 ≤ la
  pendGe : u.first_did ≠ 0 → ∀ e ∈ pend, u.first_did ≤ e.1
  dcLe : ∀ e ∈ flatEntries done ++ c, e.1 ≤ d
  pendGt : ∀ e ∈ pend, d < e.1
  fdLeD : u.first_did ≠ 0 → u.first_did ≤ d
  dLe : d ≤ la
  laNz : la ≠ 0

/-- The updater's state when the next `update` will seek: no open region,
the reader exhausted, the slot's table content a good chunk list. -/
structure SeekInv (slot : Nat) (u : UpdState) (T : Table)
    (gs : List (List Entry)) : Prop where
  sorted : SortedT T
  tagNil : u.tag = []
  fdZero : u.first_did = 0
  laZero : u.last_allowed_did = 0
  atEnd : u.reader.at_end = true
  decomp : slotChunks slot T = chunkPairs gs
  gsNe : ∀ ch ∈ gs, ch ≠ []
  gsOrd : List.Pairwise (fun a b : Entry => a.1 < b.1) (flatEntries gs)
  gsBnd : ∀ e ∈ flatEntries gs, 1 ≤ e.1 ∧ e.1 ≤ u32Max ∧
    e.2.length ≤ sizeMax

/-- The tail of `update` after the seek (lines 294–305): copy entries below
the edit, supersede an existing entry, append the new value. -/
def copyPhase (slot did : Nat) (value : Str) (u : UpdState) (T : Table) :
    Except Err (UpdState × Table) := do
  let (u, T) ← copyLoop slot did u T
  let u ←
    if u.reader.at_end = false ∧ u.reader.did = did then do
      let r' ← u.reader.next
      pure { u with reader := r' }
    else pure u
  if value.isEmpty then pure (u, T)
  else pure (append_to_stream slot did value u T)

theorem updateRest_mid_eq (slot did : Nat) (value : Str) (u : UpdState)
    (T : Table) (h : ¬ u.last_allowed_did = 0) :
    updateRest slot did value u T = copyPhase slot did value u T := by
  unfold updateRest copyPhase
  rw [if_neg h]
  rfl

theorem pairwise_mid {X Y : List Entry} {e : Entry}
    (hX : List.Pairwise (fun a b : Entry => a.1 < b.1) X)
    (hY : List.Pairwise (fun a b : Entry => a.1 < b.1) Y)
    (hXe : ∀ x ∈ X, x.1 < e.1) (heY : ∀ y ∈ Y, e.1 < y.1) :
    List.Pairwise (fun a b : Entry => a.1 < b.1) (X ++ e :: Y) := by
  rw [List.pairwise_append]
  refine ⟨hX, ?_, ?_⟩
  · rw [List.pairwise_cons]
    exact ⟨heY, hY⟩
  · intro x hx y hy
    rcases List.mem_cons.mp hy with h1 | h1
    · rw [h1]
      exact hXe x hx
    · have h2 := hXe x hx
      have h3 := heY y h1
      omega

/-- `copyPhase` turns a region state and an edit into the between-update
state for that edit, preserving the region invariant. -/
theorem copyPhase_spec (slot did : Nat) (value : Str) {u : UpdState}
    {T : Table} {done : List (List Entry)} {c pend : List Entry}
    {fut : List (List Entry)} {la : Nat}
    (hI : RegionInv slot u T done c fut la)
    (hrd : (pend = [] ∧ u.reader.at_end = true) ∨
      (∃ cur rest, pend = cur :: rest ∧ Represents u.reader cur rest))
    (hord : List.Pairwise (fun a b : Entry => a.1 < b.1)
      (flatEntries done ++ c ++ pend))
    (hpBnd : ∀ e ∈ pend, 1 ≤ e.1 ∧ e.1 ≤ u32Max ∧ e.2.length ≤ sizeMax)
    (hpLe : ∀ e ∈ pend, e.1 ≤ la)
    (hpGe : u.first_did ≠ 0 → ∀ e ∈ pend, u.first_did ≤ e.1)
    (hdcLt : ∀ e ∈ flatEntries done ++ c, e.1 < did)
    (hfdleD : u.first_did ≠ 0 → u.first_did ≤ did)
    (hdla : did ≤ la) (hd1 : 1 ≤ did) (hdu : did ≤ u32Max)
    (hv : value.length ≤ sizeMax) (hlaNz : la ≠ 0) :
    ∃ u2 T2 done2 c2 pend2, copyPhase slot did value u T = .ok (u2, T2) ∧
      MidInv slot u2 T2 did done2 c2 pend2 fut la ∧
      (∀ s, ¬ s = slot → slotChunks s T2 = slotChunks s T) := by
  unfold copyPhase
  obtain ⟨u2, T2, done2, c2, plo, phi, hcopy, hI2, hsplit, hlo, hhi, hflat2,
      hrd2, hla2, hct2, hfd2, hfr2⟩ :=
    copyLoop_region pend slot did u T done c fut la hI hrd hord hpBnd
      hpLe hpGe
  rw [hcopy, exBind_ok]
  simp only []
  have hgt2 : ∀ e ∈ flatEntries done2 ++ c2, e.1 < did := by
    intro e he
    rw [hflat2] at he
    rcases List.mem_append.mp he with h1 | h1
    · exact hdcLt e h1
    · exact hlo e h1
  have hfdle2 : u2.first_did ≠ 0 → u2.first_did ≤ did := by
    intro hf
    rcases hfd2 with h1 | h1
    · rw [h1]
      rw [h1] at hf
      exact hfdleD hf
    · exact absurd h1 hf
  have hpw2 : List.Pairwise (fun a b : Entry => a.1 < b.1)
      (flatEntries done2 ++ c2) := hI2.orderedDC
  have hpendpw : List.Pairwise (fun a b : Entry => a.1 < b.1) pend := by
    have := (List.pairwise_append.mp hord).2.1
    exact this
  have hphipw : List.Pairwise (fun a b : Entry => a.1 < b.1) phi := by
    rw [hsplit] at hpendpw
    exact (List.pairwise_append.mp hpendpw).2.1
  have hphimem : ∀ e ∈ phi, e ∈ pend := by
    intro e he
    rw [hsplit]
    exact List.mem_append_right _ he
  have hfin : ∀ (u3 : UpdState) (pend3 : List Entry),
      RegionInv slot u3 T2 done2 c2 fut la →
      ((pend3 = [] ∧ u3.reader.at_end = true) ∨
        (∃ cur rest, pend3 = cur :: rest ∧ Represents u3.reader cur rest)) →
      List.Pairwise (fun a b : Entry => a.1 < b.1) pend3 →
      (∀ e ∈ pend3, did < e.1) →
      (∀ e ∈ pend3, 1 ≤ e.1 ∧ e.1 ≤ u32Max ∧ e.2.length ≤ sizeMax) →
      (∀ e ∈ pend3, e.1 ≤ la) →
      (u3.first_did ≠ 0 → ∀ e ∈ pend3, u3.first_did ≤ e.1) →
      (u3.first_did ≠ 0 → u3.first_did ≤ did) →
      ∃ u4 T4 done4 c4 pend4,
        (if value.isEmpty then (pure (u3, T2) : Except Err (UpdState × Table))
         else pure (append_to_stream slot did value u3 T2)) =
          Except.ok (u4, T4) ∧
        MidInv slot u4 T4 did done4 c4 pend4 fut la ∧
        (∀ s, ¬ s = slot → slotChunks s T4 = slotChunks s T2) := by
    intro u3 pend3 hI3 hrd3 hpw3 hgt3 hbnd3 hle3 hge3 hfdle3
    by_cases hvE : value.isEmpty = true
    · rw [if_pos hvE]
      refine ⟨u3, T2, done2, c2, pend3, rfl, ?_, fun _ _ => rfl⟩
      refine ⟨hI3, hrd3, ?_, hbnd3, hle3, hge3,
        fun e he => Nat.le_of_lt (hgt2 e he), hgt3, hfdle3, hdla, hlaNz⟩
      exact List.pairwise_append.mpr ⟨hpw2, hpw3, fun x hx y hy => by
        have h1 := hgt2 x hx
        have h2 := hgt3 y hy
        omega⟩
    · rw [if_neg hvE]
      obtain ⟨u4, T4, done4, c4, heqA, hI4, hflat4, hrdr4, hla4, hct4,
          hfd4, hfr4⟩ :=
        append_region did value hI3 hgt2 hfdle3 hdla hd1 hdu hv
      rw [heqA]
      refine ⟨u4, T4, done4, c4, pend3, rfl, ?_, hfr4⟩
      refine ⟨hI4, ?_, ?_, hbnd3, hle3, ?_, ?_, hgt3, ?_, hdla, hlaNz⟩
      · rcases hrd3 with ⟨hn, he⟩ | ⟨cur, rest, hpe, hrep⟩
        · exact Or.inl ⟨hn, by rw [hrdr4]; exact he⟩
        · refine Or.inr ⟨cur, rest, hpe, ?_⟩
          rw [hrdr4]
          exact hrep
      · rw [hflat4, List.append_assoc, List.append_assoc]
        rw [← List.append_assoc]
        exact pairwise_mid hpw2 hpw3 hgt2 hgt3
      · intro hf e he
        rcases hfd4 with h1 | h1
        · rw [h1]
          rw [h1] at hf
          exact hge3 hf e he
        · exact absurd h1 hf
      · intro e he
        rw [hflat4] at he
        rcases List.mem_append.mp he with h1 | h1
        · exact Nat.le_of_lt (hgt2 e h1)
        · rw [List.mem_singleton.mp h1]
      · intro hf
        rcases hfd4 with h1 | h1
        · rw [h1]
          rw [h1] at hf
          exact hfdle3 hf
        · exact absurd h1 hf
  rcases hrd2 with ⟨hphiN, hend2⟩ | ⟨cur, rest, hphic, hrep2⟩
  · rw [if_neg (by
      intro hq
      rw [hend2] at hq
      exact absurd hq.1 (by simp))]
    rw [exBind_pure]
    obtain ⟨u4, T4, done4, c4, pend4, heq4, hM4, hfr4⟩ :=
      hfin u2 [] hI2 (Or.inl ⟨rfl, hend2⟩) (by simp) (by simp) (by simp)
        (by simp) (fun _ => by simp) hfdle2
    exact ⟨u4, T4, done4, c4, pend4, heq4, hM4,
      fun s hs => (hfr4 s hs).trans (hfr2 s hs)⟩
  · have hcur_mem : cur ∈ pend := hphimem cur (by rw [hphic]; simp)
    have hcge : did ≤ cur.1 := hhi cur (by rw [hphic]; simp)
    have hphipw2 := hphic ▸ hphipw
    rw [List.pairwise_cons] at hphipw2
    by_cases hcd : cur.1 = did
    · obtain ⟨r', hnext, hr'⟩ : ∃ r', u2.reader.next = .ok r' ∧
          ((rest = [] ∧ r'.at_end = true) ∨
           (∃ c4 r4, rest = c4 :: r4 ∧ Represents r' c4 r4)) := by
        cases rest with
        | nil =>
          exact ⟨_, next_Represents_nil hrep2, Or.inl ⟨rfl, rfl⟩⟩
        | cons e2 rest2 =>
          obtain ⟨d2, v2⟩ := e2
          have hlt2 : cur.1 < d2 := by
            have := hphipw2.1 (d2, v2) (by simp)
            simpa using this
          have hb2 := hpBnd (d2, v2) (hphimem (d2, v2) (by rw [hphic]; simp))
          obtain ⟨r2, hnext2, hrep3⟩ :=
            next_Represents_cons hrep2 hlt2 hb2.2.1 hb2.2.2
          exact ⟨r2, hnext2, Or.inr ⟨(d2, v2), rest2, rfl, hrep3⟩⟩
      rw [if_pos ⟨hrep2.not_at_end, by rw [hrep2.1]; exact hcd⟩, hnext,
        exBind_ok, exBind_pure]
      obtain ⟨u4, T4, done4, c4, pend4, heq4, hM4, hfr4⟩ :=
        hfin { u2 with reader := r' } rest (RegionInv_reader hI2 r')
          (by
            rcases hr' with ⟨hn, he⟩ | ⟨c5, r5, hre, hrep5⟩
            · exact Or.inl ⟨hn, he⟩
            · exact Or.inr ⟨c5, r5, hre, hrep5⟩)
          hphipw2.2
          (by
            intro e he
            have := hphipw2.1 e he
            omega)
          (fun e he => hpBnd e (hphimem e (by rw [hphic]; simp [he])))
          (fun e he => hpLe e (hphimem e (by rw [hphic]; simp [he])))
          (by
            intro hf e he
            rcases hfd2 with h1 | h1
            · show u2.first_did ≤ e.1
              rw [h1]
              have hf2 : u.first_did ≠ 0 := by
                rw [← h1]
                exact hf
              exact hpGe hf2 e (hphimem e (by rw [hphic]; simp [he]))
            · exact absurd h1 hf)
          hfdle2
      exact ⟨u4, T4, done4, c4, pend4, heq4, hM4,
        fun s hs => (hfr4 s hs).trans (hfr2 s hs)⟩
    · rw [if_neg (by
        intro hq
        exact hcd (by rw [← hrep2.1]; exact hq.2))]
      rw [exBind_pure]
      obtain ⟨u4, T4, done4, c4, pend4, heq4, hM4, hfr4⟩ :=
        hfin u2 (cur :: rest) hI2 (Or.inr ⟨cur, rest, rfl, hrep2⟩)
          (by rw [← hphic]; exact hphipw)
          (by
            intro e he
            rcases List.mem_cons.mp he with h1 | h1
            · rw [h1]; omega
            · have := hphipw2.1 e h1
              omega)
          (fun e he => hpBnd e (hphimem e (by rw [hphic]; exact he)))
          (fun e he => hpLe e (hphimem e (by rw [hphic]; exact he)))
          (by
            intro hf e he
            rcases hfd2 with h1 | h1
            · show u2.first_did ≤ e.1
              rw [h1]
              have hf2 : u.first_did ≠ 0 := by
                rw [← h1]
                exact hf
              exact hpGe hf2 e (hphimem e (by rw [hphic]; exact he))
            · exact absurd h1 hf)
          hfdle2
      exact ⟨u4, T4, done4, c4, pend4, heq4, hM4,
        fun s hs => (hfr4 s hs).trans (hfr2 s hs)⟩


/-- The region's upper bound computed by the seek (lines 270–281). -/
def seekLa (slot did : Nat) (T : Table) : Nat :=
  match cursorNextAfter (TKey.chunk slot did) T with
  | some e2 =>
      let nfd := docid_from_key slot e2.1
      if nfd ≠ 0 then nfd - 1 else HONEY_MAX_DOCID
  | none => HONEY_MAX_DOCID

theorem seekLa_none {slot did : Nat} {T : Table} (hs : SortedT T)
    (hn : nextChunkFirst slot did T = none) : seekLa slot did T = u32Max := by
  unfold seekLa
  cases hcna : cursorNextAfter (TKey.chunk slot did) T with
  | none => rfl
  | some e2 =>
    have hdk := nextAfter_of_nextChunkFirst_none hs hn e2 hcna
    simp only []
    rw [hdk, if_neg (show ¬ (0 : Nat) ≠ 0 from fun hq => hq rfl)]
    rfl

theorem seekLa_some {slot did : Nat} {T : Table} {f2 : Nat} {tag2 : Str}
    (hs : SortedT T) (hn : nextChunkFirst slot did T = some (f2, tag2))
    (hf2 : f2 ≠ 0) : seekLa slot did T = f2 - 1 := by
  unfold seekLa
  rw [(nextAfter_of_nextChunkFirst_some hs hn).1]
  simp only []
  rw [docid_from_key_same, if_pos hf2]

/-- `updateRest` from a seek-ready state: the seek opens the chunk that
would contain the edit (or a fresh region), then `copyPhase` applies it. -/
theorem updateRest_seek (slot did : Nat) (value : Str) {u : UpdState}
    {T : Table} {gs : List (List Entry)} (hSI : SeekInv slot u T gs)
    (hd1 : 1 ≤ did) (hdu : did ≤ u32Max) (hv : value.length ≤ sizeMax) :
    ∃ u2 T2 done2 c2 pend2 fut2 la2,
      updateRest slot did value u T = .ok (u2, T2) ∧
      MidInv slot u2 T2 did done2 c2 pend2 fut2 la2 ∧
      (∀ s, ¬ s = slot → slotChunks s T2 = slotChunks s T) := by
  have hG : GoodChunks gs := ⟨hSI.gsNe, hSI.gsOrd, hSI.gsBnd⟩
  obtain ⟨A, B, hgseq, hA, hB⟩ :=
    split_chunks_at did gs (chunkFirst_pairwise_of_good hG)
  have hdecAB : slotChunks slot T = chunkPairs (A ++ B) := by
    rw [hSI.decomp, hgseq]
  have hnextEv := nextChunkFirst_split hdecAB hA hB
  have hflatAB : flatEntries gs = flatEntries A ++ flatEntries B := by
    rw [hgseq, flatEntries_append]
  have hordAB := hflatAB ▸ hSI.gsOrd
  have hfutOrd : List.Pairwise (fun a b : Entry => a.1 < b.1)
      (flatEntries B) := (List.pairwise_append.mp hordAB).2.1
  have hfutBnd : ∀ e ∈ flatEntries B, 1 ≤ e.1 ∧ e.1 ≤ u32Max ∧
      e.2.length ≤ sizeMax := by
    intro e he
    exact hSI.gsBnd e (by rw [hflatAB]; exact List.mem_append_right _ he)
  have hfutNe : ∀ ch ∈ B, ch ≠ [] := by
    intro ch hch
    exact hSI.gsNe ch (by rw [hgseq]; exact List.mem_append_right _ hch)
  obtain ⟨laS, hlaS, hlaDid, hlaNz, hlaBnd, hlaFut, hlaA⟩ :
      ∃ laS, seekLa slot did T = laS ∧ did ≤ laS ∧ laS ≠ 0 ∧
        laS ≤ u32Max ∧ (∀ e ∈ flatEntries B, laS < e.1) ∧
        (∀ e ∈ flatEntries A, e.1 ≤ laS) := by
    cases B with
    | nil =>
      refine ⟨u32Max, seekLa_none hSI.sorted (by rw [hnextEv]; rfl), hdu,
        (by decide), Nat.le_refl _,
        (by intro e he; simp [flatEntries] at he), ?_⟩
      intro e he
      have hm : e ∈ flatEntries gs := by
        rw [hflatAB]
        exact List.mem_append_left _ he
      exact (hSI.gsBnd e hm).2.1
    | cons chB B' =>
      have hchBne : chB ≠ [] := hfutNe chB (by simp)
      obtain ⟨eB, tlB, rfl⟩ : ∃ eB tlB, chB = eB :: tlB := by
        cases chB with
        | nil => exact absurd rfl hchBne
        | cons eB tlB => exact ⟨eB, tlB, rfl⟩
      have hnext2 : nextChunkFirst slot did T =
          some (chunkFirst (eB :: tlB), encodeChunk (eB :: tlB)) := by
        rw [hnextEv]
        rfl
      have hdBgt : did < chunkFirst (eB :: tlB) := hB _ (by simp)
      have hBheadmem : eB ∈ flatEntries ((eB :: tlB) :: B') := by
        unfold flatEntries
        exact List.mem_join.mpr ⟨eB :: tlB, by simp, by simp⟩
      have hBheadbnd := hfutBnd eB hBheadmem
      have hcfB : chunkFirst (eB :: tlB) = eB.1 := rfl
      refine ⟨chunkFirst (eB :: tlB) - 1,
        seekLa_some hSI.sorted hnext2 (by omega), by omega, by omega,
        by omega, ?_, ?_⟩
      · intro e he
        have := pairwise_head_le hfutOrd he
          (show (flatEntries ((eB :: tlB) :: B')).head? = some eB from by
            unfold flatEntries
            rfl)
        omega
      · intro e he
        have h2 := (List.pairwise_append.mp hordAB).2.2 e he eB hBheadmem
        omega
  by_cases hAe : A = []
  · subst hAe
    have hpredEv : predChunk slot did T = none := by
      rw [predChunk_split hdecAB hA hB]
      rfl
    have hphase : updateRest slot did value u T = copyPhase slot did value
        { u with last_allowed_did := seekLa slot did T, new_first_did := 0,
                 first_did := 0, ctag := u.ctag, reader := u.reader } T := by
      unfold updateRest copyPhase
      rw [if_pos hSI.laZero]
      cases hfe : tableFindLE (.chunk slot did) T with
      | none =>
        simp only [hfe]
        rw [exBind_pure]
        rfl
      | some e =>
        have he2 := findLE_of_predChunk_none hSI.sorted hpredEv e hfe
        simp only [hfe]
        rw [if_neg he2.1, he2.2,
          if_neg (show ¬ (0 : Nat) ≠ 0 from fun hq => hq rfl), exBind_pure]
        rfl
    rw [hlaS] at hphase
    have hRI : RegionInv slot { u with last_allowed_did := laS, new_first_did := 0, first_did := 0, ctag := u.ctag, reader := u.reader } T [] [] B laS := by
      refine ⟨hSI.sorted,
        ⟨hSI.tagNil, by
          show u.tag.length < CHUNK_SIZE_THRESHOLD
          rw [hSI.tagNil]
          decide, fun h => absurd rfl h⟩,
        rfl, ?_, (by simp), (by simp [flatEntries]), (by simp [flatEntries]),
        (by simp [flatEntries]),
        fun h => absurd rfl h, fun h => absurd rfl h,
        fun h => absurd rfl h, fun h => absurd rfl h,
        hfutNe, hfutOrd, hfutBnd, hlaFut, hlaBnd⟩
      show slotChunks slot T = chunkPairs [] ++
        (if (0 : Nat) = 0 then [] else [(0, u.ctag)]) ++ chunkPairs B
      rw [if_pos rfl]
      exact hdecAB
    obtain ⟨u2, T2, done2, c2, pend2, hcp, hM, hfr⟩ :=
      copyPhase_spec slot did value hRI
        (Or.inl ⟨rfl, hSI.atEnd⟩) (by simp [flatEntries])
        (by simp) (by simp)
        (fun h => absurd rfl h) (by simp [flatEntries])
        (fun h => absurd rfl h)
        hlaDid hd1 hdu hv hlaNz
    exact ⟨u2, T2, done2, c2, pend2, B, laS, hphase.trans hcp, hM, hfr⟩
  · obtain ⟨A0, chL, rfl⟩ : ∃ A0 chL, A = A0 ++ [chL] :=
      ⟨A.dropLast, A.getLast hAe, (List.dropLast_append_getLast hAe).symm⟩
    have hchLgs : chL ∈ gs := by
      rw [hgseq]
      exact List.mem_append_left _ (List.mem_append_right _ (by simp))
    have hchLne : chL ≠ [] := hSI.gsNe chL hchLgs
    obtain ⟨e0, tl, rfl⟩ : ∃ e0 tl, chL = e0 :: tl := by
      cases chL with
      | nil => exact absurd rfl hchLne
      | cons e0 tl => exact ⟨e0, tl, rfl⟩
    obtain ⟨d0, v0⟩ := e0
    have hheadmem : (d0, v0) ∈ flatEntries gs := by
      unfold flatEntries
      exact List.mem_join.mpr ⟨(d0, v0) :: tl, hchLgs, by simp⟩
    have hheadbnd := hSI.gsBnd (d0, v0) hheadmem
    have hd0pos : 1 ≤ d0 := hheadbnd.1
    have hpredEv : predChunk slot did T =
        some (d0, encodeChunk ((d0, v0) :: tl)) := by
      rw [predChunk_split hdecAB hA hB, chunkPairs_append]
      rw [show chunkPairs [(d0, v0) :: tl] =
        [(chunkFirst ((d0, v0) :: tl), encodeChunk ((d0, v0) :: tl))]
        from rfl]
      rw [List.getLast?_concat]
      rfl
    have hfind := findLE_of_predChunk_some hSI.sorted hpredEv
    have hfe := hfind.1
    have hd0le : d0 ≤ did := hfind.2
    have hphase : updateRest slot did value u T = copyPhase slot did value
        { u with last_allowed_did := seekLa slot did T, new_first_did := 0,
                 first_did := d0, ctag := encodeChunk ((d0, v0) :: tl),
                 reader := ⟨some (encodeRest d0 tl), d0, v0⟩ } T := by
      unfold updateRest copyPhase
      rw [if_pos hSI.laZero]
      simp only [hfe]
      by_cases hd0d : d0 = did
      · subst hd0d
        rw [if_pos (show TKey.chunk slot d0 = TKey.chunk slot d0 from rfl)]
        rw [if_pos (show d0 ≠ 0 from by omega)]
        rw [assign_encodeChunk hheadbnd.2.2, exBind_ok, exBind_pure]
        rfl
      · rw [if_neg (show ¬ TKey.chunk slot d0 = TKey.chunk slot did from
          by simp [hd0d])]
        rw [docid_from_key_same]
        rw [if_pos (show d0 ≠ 0 from by omega)]
        rw [assign_encodeChunk hheadbnd.2.2, exBind_ok, exBind_pure]
        rfl
    rw [hlaS] at hphase
    have hflatA : flatEntries (A0 ++ [(d0, v0) :: tl]) =
        flatEntries A0 ++ ((d0, v0) :: tl) := by
      rw [flatEntries_append, flatEntries_single]
    have hordA : List.Pairwise (fun a b : Entry => a.1 < b.1)
        (flatEntries A0 ++ ((d0, v0) :: tl)) := by
      have := (List.pairwise_append.mp hordAB).1
      rw [hflatA] at this
      exact this
    have hA0lt : ∀ e ∈ flatEntries A0, e.1 < d0 := by
      intro e he
      exact (List.pairwise_append.mp hordA).2.2 e he (d0, v0) (by simp)
    have htlpw : List.Pairwise (fun a b : Entry => a.1 < b.1)
        ((d0, v0) :: tl) := (List.pairwise_append.mp hordA).2.1
    have hchLmemA : ∀ e ∈ (d0, v0) :: tl, e ∈ flatEntries (A0 ++ [(d0, v0) :: tl]) := by
      intro e he
      rw [hflatA]
      exact List.mem_append_right _ he
    have hchLbnd : ∀ e ∈ (d0, v0) :: tl, 1 ≤ e.1 ∧ e.1 ≤ u32Max ∧
        e.2.length ≤ sizeMax := by
      intro e he
      have hm : e ∈ flatEntries gs := by
        rw [hflatAB]
        exact List.mem_append_left _ (hchLmemA e he)
      exact hSI.gsBnd e hm
    have hchLle : ∀ e ∈ (d0, v0) :: tl, e.1 ≤ laS := by
      intro e he
      exact hlaA e (hchLmemA e he)
    have hchLge : ∀ e ∈ (d0, v0) :: tl, d0 ≤ e.1 := by
      intro e he
      rcases List.mem_cons.mp he with h1 | h1
      · rw [h1]
      · rw [List.pairwise_cons] at htlpw
        have := htlpw.1 e h1
        omega
    have hA0mem : ∀ e ∈ flatEntries A0, e ∈ flatEntries gs := by
      intro e he
      rw [hflatAB]
      refine List.mem_append_left _ ?_
      rw [hflatA]
      exact List.mem_append_left _ he
    have hRI : RegionInv slot { u with last_allowed_did := laS, new_first_did := 0, first_did := d0, ctag := encodeChunk ((d0, v0) :: tl), reader := ⟨some (encodeRest d0 tl), d0, v0⟩ } T A0 [] B laS := by
      refine ⟨hSI.sorted,
        ⟨hSI.tagNil, by
          show u.tag.length < CHUNK_SIZE_THRESHOLD
          rw [hSI.tagNil]
          decide, fun h => absurd rfl h⟩,
        rfl, ?_, ?_, ?_, ?_, ?_, ?_, ?_, ?_, fun _ _ => rfl,
        hfutNe, hfutOrd, hfutBnd, hlaFut, hlaBnd⟩
      · show slotChunks slot T = chunkPairs A0 ++
          (if d0 = 0 then [] else [(d0, encodeChunk ((d0, v0) :: tl))]) ++
          chunkPairs B
        rw [if_neg (show ¬ d0 = 0 from by omega), hdecAB,
          chunkPairs_append, chunkPairs_append]
        rfl
      · intro ch hch
        exact hSI.gsNe ch (by
          rw [hgseq]
          exact List.mem_append_left _ (List.mem_append_left _ hch))
      · rw [List.append_nil]
        exact (List.pairwise_append.mp hordA).1
      · intro e he
        rw [List.append_nil] at he
        exact hSI.gsBnd e (hA0mem e he)
      · intro e he
        rw [List.append_nil] at he
        exact hlaA e (by rw [hflatA]; exact List.mem_append_left _ he)
      · intro _ e he
        exact hA0lt e he
      · intro _ e he
        exact absurd he (List.not_mem_nil e)
      · intro _
        show d0 ≤ laS
        omega
    obtain ⟨u2, T2, done2, c2, pend2, hcp, hM, hfr⟩ :=
      copyPhase_spec slot did value hRI
        (Or.inr ⟨(d0, v0), tl, rfl, ⟨rfl, rfl, rfl⟩⟩)
        (by rw [List.append_nil]; exact hordA)
        hchLbnd hchLle (fun _ => hchLge)
        (by
          intro e he
          rw [List.append_nil] at he
          have := hA0lt e he
          omega)
        (fun _ => hd0le)
        hlaDid hd1 hdu hv hlaNz
    exact ⟨u2, T2, done2, c2, pend2, B, laS, hphase.trans hcp, hM, hfr⟩

/-- One `update` call from a between-update state: within the region it is
a pure `copyPhase`; beyond it the region is closed, written out, and a new
seek opens the right chunk. -/
theorem update_step (slot did : Nat) (value : Str) {u : UpdState}
    {T : Table} {d : Nat} {done : List (List Entry)} {c pend : List Entry}
    {fut : List (List Entry)} {la : Nat}
    (hM : MidInv slot u T d done c pend fut la) (hgt : d < did)
    (hd1 : 1 ≤ did) (hdu : did ≤ u32Max) (hv : value.length ≤ sizeMax) :
    ∃ u2 T2 done2 c2 pend2 fut2 la2,
      update slot did value u T = .ok (u2, T2) ∧
      MidInv slot u2 T2 did done2 c2 pend2 fut2 la2 ∧
      (∀ s, ¬ s = slot → slotChunks s T2 = slotChunks s T) := by
  by_cases hle : did ≤ la
  · rw [update_skip slot did value u T (by
      intro hq
      rw [hM.region.laEq] at hq
      omega),
      updateRest_mid_eq slot did value u T (by
        rw [hM.region.laEq]
        exact hM.laNz)]
    obtain ⟨u2, T2, done2, c2, pend2, hcp, hM2, hfr⟩ :=
      copyPhase_spec slot did value hM.region hM.reader hM.ordered
        hM.pendBnd hM.pendLe hM.pendGe
        (fun e he => by have := hM.dcLe e he; omega)
        (fun hf => by have := hM.fdLeD hf; omega)
        hle hd1 hdu hv hM.laNz
    exact ⟨u2, T2, done2, c2, pend2, fut, la, hcp, hM2, hfr⟩
  · have hcond : u.last_allowed_did ≠ 0 ∧ u.last_allowed_did < did := by
      rw [hM.region.laEq]
      exact ⟨hM.laNz, by omega⟩
    obtain ⟨u1, T1, done1, c1, hdrain, hRI1, hflat1, hend1, hla1, hct1,
        hfd1, hfr1⟩ :=
      drainLoop_region pend slot u T done c fut la hM.region hM.reader
        hM.ordered hM.pendBnd hM.pendLe hM.pendGe
    obtain ⟨T2, heqW, hRI2, hfr2⟩ := write_tag_region hRI1.toW
    have hstep := update_switch slot did value u T hcond hdrain
    rw [heqW] at hstep
    have hdcF : ∀ e ∈ flatEntries (done1 ++ if c1 = [] then [] else [c1]),
        e.1 ≤ la := by
      intro e he
      have h3 := hRI2.leLa e (by rw [List.append_nil]; exact he)
      exact h3
    have hSI2 : SeekInv slot
        { { u1 with first_did := 0, tag := [] } with last_allowed_did := 0 }
        T2 ((done1 ++ if c1 = [] then [] else [c1]) ++ fut) := by
      refine ⟨hRI2.sorted, rfl, rfl, rfl,
        (show u1.reader.at_end = true from hend1), ?_, ?_, ?_, ?_⟩
      · have h3 : slotChunks slot T2 =
            chunkPairs (done1 ++ if c1 = [] then [] else [c1]) ++ [] ++
            chunkPairs fut := hRI2.decomp
        rw [List.append_nil] at h3
        rw [chunkPairs_append]
        exact h3
      · intro ch hch
        rcases List.mem_append.mp hch with h3 | h3
        · exact hRI2.doneNe ch h3
        · exact hRI2.futNe ch h3
      · rw [flatEntries_append]
        refine List.pairwise_append.mpr ⟨?_, hRI2.futOrd, ?_⟩
        · have h3 := hRI2.orderedDC
          rw [List.append_nil] at h3
          exact h3
        · intro x hx y hy
          have h4 := hdcF x hx
          have h5 := hRI2.futGt y hy
          omega
      · intro e he
        rw [flatEntries_append] at he
        rcases List.mem_append.mp he with h3 | h3
        · exact hRI2.bndDC e (by rw [List.append_nil]; exact h3)
        · exact hRI2.futBnd e h3
    obtain ⟨u2, T3, done2, c2, pend2, fut2, la2, hseekEq, hM2, hfr3⟩ :=
      updateRest_seek slot did value hSI2 hd1 hdu hv
    exact ⟨u2, T3, done2, c2, pend2, fut2, la2, hstep.trans hseekEq, hM2,
      fun s hs => (hfr3 s hs).trans ((hfr2 s hs).trans (hfr1 s hs))⟩

theorem updateFold_mid :
    ∀ (edits : List (Nat × Str)) (slot d : Nat) (u : UpdState) (T : Table)
      (done : List (List Entry)) (c pend : List Entry)
      (fut : List (List Entry)) (la : Nat),
      MidInv slot u T d done c pend fut la →
      List.Pairwise (fun a b : Nat × Str => a.1 < b.1) edits →
      (∀ e ∈ edits, d < e.1 ∧ 1 ≤ e.1 ∧ e.1 ≤ u32Max ∧
        e.2.length ≤ sizeMax) →
      ∃ u2 T2 d2 done2 c2 pend2 fut2 la2,
        edits.foldlM (fun p e => update slot e.1 e.2 p.1 p.2) (u, T) =
          .ok (u2, T2) ∧
        MidInv slot u2 T2 d2 done2 c2 pend2 fut2 la2 ∧
        (∀ s, ¬ s = slot → slotChunks s T2 = slotChunks s T) := by
  intro edits
  induction edits with
  | nil =>
    intro slot d u T done c pend fut la hM _ _
    exact ⟨u, T, d, done, c, pend, fut, la, rfl, hM, fun _ _ => rfl⟩
  | cons e rest ih =>
    intro slot d u T done c pend fut la hM hpw hbnd
    have hb := hbnd e (by simp)
    obtain ⟨u2, T2, done2, c2, pend2, fut2, la2, heq1, hM2, hfr1⟩ :=
      update_step slot e.1 e.2 hM hb.1 hb.2.1 hb.2.2.1 hb.2.2.2
    rw [List.foldlM_cons]
    simp only []
    rw [heq1, exBind_ok]
    obtain ⟨u3, T3, d3, done3, c3, pend3, fut3, la3, heq2, hM3, hfr2⟩ :=
      ih slot e.1 u2 T2 done2 c2 pend2 fut2 la2 hM2
        ((List.pairwise_cons.mp hpw).2)
        (fun x hx => ⟨(List.pairwise_cons.mp hpw).1 x hx,
          (hbnd x (List.mem_cons_of_mem _ hx)).2⟩)
    exact ⟨u3, T3, d3, done3, c3, pend3, fut3, la3, heq2, hM3,
      fun s hs => (hfr2 s hs).trans (hfr1 s hs)⟩

/-- The destructor from a between-update state: remaining reader entries
are drained, the final chunk is written, the slot is left well formed. -/
theorem updaterFinish_mid {slot : Nat} {u : UpdState} {T : Table}
    {d : Nat} {done : List (List Entry)} {c pend : List Entry}
    {fut : List (List Entry)} {la : Nat}
    (hM : MidInv slot u T d done c pend fut la) :
    ∃ T2 gs2, updaterFinish slot u T = .ok T2 ∧ SortedT T2 ∧
      SlotRepr slot T2 gs2 ∧
      (∀ s, ¬ s = slot → slotChunks s T2 = slotChunks s T) := by
  obtain ⟨u1, T1, done1, c1, hdrain, hRI1, hflat1, hend1, _, _, _, hfr1⟩ :=
    drainLoop_region pend slot u T done c fut la hM.region hM.reader
      hM.ordered hM.pendBnd hM.pendLe hM.pendGe
  obtain ⟨T2, heqW, hRI2, hfr2⟩ := write_tag_region hRI1.toW
  unfold updaterFinish
  rw [hdrain, exBind_ok]
  simp only []
  rw [heqW]
  have hdcF : ∀ e ∈ flatEntries (done1 ++ if c1 = [] then [] else [c1]),
      e.1 ≤ la := by
    intro e he
    exact hRI2.leLa e (by rw [List.append_nil]; exact he)
  refine ⟨T2, (done1 ++ if c1 = [] then [] else [c1]) ++ fut, rfl,
    hRI2.sorted, ⟨?_, ?_, ?_, ?_⟩,
    fun s hs => (hfr2 s hs).trans (hfr1 s hs)⟩
  · have h3 : slotChunks slot T2 =
        chunkPairs (done1 ++ if c1 = [] then [] else [c1]) ++ [] ++
        chunkPairs fut := hRI2.decomp
    rw [List.append_nil] at h3
    rw [chunkPairs_append]
    exact h3
  · intro ch hch
    rcases List.mem_append.mp hch with h3 | h3
    · exact hRI2.doneNe ch h3
    · exact hRI2.futNe ch h3
  · rw [flatEntries_append]
    refine List.pairwise_append.mpr ⟨?_, hRI2.futOrd, ?_⟩
    · have h3 := hRI2.orderedDC
      rw [List.append_nil] at h3
      exact h3
    · intro x hx y hy
      have h4 := hdcF x hx
      have h5 := hRI2.futGt y hy
      omega
  · intro e he
    rw [flatEntries_append] at he
    rcases List.mem_append.mp he with h3 | h3
    · exact hRI2.bndDC e (by rw [List.append_nil]; exact h3)
    · exact hRI2.futBnd e h3

/-- One slot's merge from any well-formed slot content: the slot's chunks
after the merge again decode to a good (strictly docid-ascending) chunk
list, and no other slot is touched. -/
theorem mergeSlot_good (slot : Nat) (edits : List (Nat × Str)) (T : Table)
    {gs : List (List Entry)} (hs : SortedT T)
    (hrep : SlotRepr slot T gs)
    (hpw : List.Pairwise (fun a b : Nat × Str => a.1 < b.1) edits)
    (hbnd : ∀ e ∈ edits, 1 ≤ e.1 ∧ e.1 ≤ u32Max ∧ e.2.length ≤ sizeMax) :
    ∃ T2 gs2, mergeSlot slot edits T = .ok T2 ∧ SortedT T2 ∧
      SlotRepr slot T2 gs2 ∧
      (∀ s, ¬ s = slot → slotChunks s T2 = slotChunks s T) := by
  have hSI : SeekInv slot UpdState.init T gs :=
    ⟨hs, rfl, rfl, rfl, rfl, hrep.1, hrep.2.1, hrep.2.2.1, hrep.2.2.2⟩
  unfold mergeSlot
  cases edits with
  | nil =>
    rw [List.foldlM_nil, exBind_pure]
    simp only []
    unfold updaterFinish
    rw [drainLoop_at_end slot T
      (show UpdState.init.reader.at_end = true from rfl), exBind_ok]
    simp only []
    rw [write_tag_empty slot T (show UpdState.init.tag = [] from rfl)]
    rw [if_neg (show ¬ (UpdState.init.first_did ≠ 0 ∧
      UpdState.init.new_first_did ≠ UpdState.init.first_did) from
      fun hq => hq.1 rfl)]
    exact ⟨T, gs, rfl, hs, hrep, fun _ _ => rfl⟩
  | cons e rest =>
    rw [List.foldlM_cons]
    simp only []
    have hb := hbnd e (by simp)
    rw [update_skip slot e.1 e.2 UpdState.init T (fun hq => hq.1 rfl)]
    obtain ⟨u2, T2, done2, c2, pend2, fut2, la2, heq1, hM1, hfr1⟩ :=
      updateRest_seek slot e.1 e.2 hSI hb.1 hb.2.1 hb.2.2
    rw [heq1, exBind_ok]
    obtain ⟨u3, T3, d3, done3, c3, pend3, fut3, la3, heq2, hM3, hfr2⟩ :=
      updateFold_mid rest slot e.1 u2 T2 done2 c2 pend2 fut2 la2 hM1
        ((List.pairwise_cons.mp hpw).2)
        (fun x hx => ⟨(List.pairwise_cons.mp hpw).1 x hx,
          (hbnd x (List.mem_cons_of_mem _ hx))⟩)
    rw [heq2, exBind_ok]
    obtain ⟨T4, gs4, heqF, hs4, hrep4, hfr3⟩ := updaterFinish_mid hM3
    exact ⟨T4, gs4, heqF, hs4, hrep4, fun s hsne =>
      ((hfr3 s hsne).trans (hfr2 s hsne)).trans (hfr1 s hsne)⟩

theorem mergeFold_good :
    ∀ (chs : List (Nat × List (Nat × Str))) (T : Table),
      SortedT T →
      (∀ p ∈ chs, List.Pairwise (fun a b : Nat × Str => a.1 < b.1) p.2 ∧
        ∀ e ∈ p.2, 1 ≤ e.1 ∧ e.1 ≤ u32Max ∧ e.2.length ≤ sizeMax) →
      (∀ s, ∃ cs, SlotRepr s T cs) →
      ∃ T2, chs.foldlM (fun T p => mergeSlot p.1 p.2 T) T = .ok T2 ∧
        SortedT T2 ∧ (∀ s, ∃ cs, SlotRepr s T2 cs) := by
  intro chs
  induction chs with
  | nil =>
    intro T hs _ hrep
    exact ⟨T, rfl, hs, hrep⟩
  | cons p rest ih =>
    intro T hs hwf hrep
    obtain ⟨cs0, hrep0⟩ := hrep p.1
    obtain ⟨T2, gs2, heq1, hs2, hrep2, hfr⟩ :=
      mergeSlot_good p.1 p.2 T hs hrep0 (hwf p (by simp)).1
        (hwf p (by simp)).2
    rw [List.foldlM_cons]
    rw [heq1, exBind_ok]
    refine ih T2 hs2 (fun q hq => hwf q (List.mem_cons_of_mem _ hq)) ?_
    intro s
    by_cases hsp : s = p.1
    · subst hsp
      exact ⟨gs2, hrep2⟩
    · obtain ⟨cs, hcs⟩ := hrep s
      exact ⟨cs, ⟨by rw [hfr s hsp]; exact hcs.1, hcs.2⟩⟩

/-- C2: for every slot, the slot's chunks in key order decode to a chunk
list whose concatenated (docid, value) entries form a strictly increasing
docid sequence (`SlotRepr` with `GoodChunks`: docids strictly increase
within each chunk and across consecutive chunks); `merge_changes` with a
well-formed pending buffer preserves this invariant from any state that
satisfies it, leaving the table sorted. -/
theorem claim_C2_slot_ordering (st : MState)
    (hs : SortedT st.table)
    (hrep : ∀ s, ∃ cs, SlotRepr s st.table cs)
    (hch : ChangesWF st.changes) :
    ∃ st2, merge_changes st = .ok st2 ∧ SortedT st2.table ∧
      ∀ s, ∃ cs, SlotRepr s st2.table cs := by
  unfold merge_changes
  obtain ⟨T2, heq, hs2, hrep2⟩ :=
    mergeFold_good st.changes st.table hs (fun p hp => hch.2 p hp) hrep
  rw [heq, exBind_ok]
  exact ⟨_, rfl, hs2, hrep2⟩

theorem claim_C2_witness :
    ∃ st2, merge_changes
        { table := [(TKey.chunk 0 1, encodeChunk [(1, [7]), (2, [8])])],
          termtable := [], postOpen := true, termOpen := true,
          changes := [(0, [(2, [9]), (3, [5])])], slots := [],
          mru_slot := BAD_VALUENO, mru_valstats := ValueStats.clear } =
        .ok st2 ∧
      SortedT st2.table ∧ ∀ s, ∃ cs, SlotRepr s st2.table cs := by
  refine claim_C2_slot_ordering _ (by simp [SortedT]) ?_ ⟨by decide, by decide⟩
  intro s
  by_cases hs0 : s = 0
  · subst hs0
    exact ⟨[[(1, [7]), (2, [8])]], by decide, by decide, by decide,
      by decide⟩
  · refine ⟨[], ?_, by simp, by simp [flatEntries], by simp [flatEntries]⟩
    show slotChunks s [(TKey.chunk 0 1, encodeChunk [(1, [7]), (2, [8])])] =
      chunkPairs []
    rw [slotChunks_cons_other (show ¬ (0 : Nat) = s from fun hq => hs0 hq.symm)]
    rfl
